import Mathlib

/-!
# zvfs: a shallow embedding of the virtual file system index

The development follows `zvfs-core`: `path.cpp` (`split_path`), `settings.cpp`
(`vfs_settings`), `node.cpp` (`node`, `dir`) and `vfs.cpp` (`vfs`).

Modelling conventions.

* A `char` is a natural number (its value as `unsigned char`); a `std::string`
  is a `List Nat`.
* A `std::string_view` is a pair `(path, rest)`: `path` holds the bytes of the
  view, `rest` the bytes that follow the view in its buffer up to the
  terminating NUL.  `path.data()` read as a C string is `c_str (path ++ rest)`.
  A `std::string` or a string literal has `rest = []`.
* Heap objects (`node`) live in `vfs.heap`; a pointer is an index into it, the
  null pointer is `none`, a freed cell holds `none`.  `new` appends a cell.
* `std::hash<std::string_view>` is implementation defined: it is the parameter
  `m_hasher` of every operation that hashes.
* A C++ exception, a null dereference and a use of a freed node are `Fault`s.
-/

namespace zvfs

/-! ## settings.hpp -/

/-- The class `vfs_settings`. -/
structure vfs_settings where
  m_lowercase_filesystem : Bool
  m_ansi_paths : Bool
  m_max_path : Nat
deriving DecidableEq, Repr

/-- The global `settings::g_default_settings(true, true, 255)`. -/
def g_default_settings : vfs_settings :=
  { m_lowercase_filesystem := true, m_ansi_paths := true, m_max_path := 255 }

/-! ## path.cpp -/

/-- The width of `size_t`. -/
def SIZE_MOD : Nat := 2 ^ 64

/-- The value `std::string_view::npos`, which is `size_t(-1)`. -/
def npos : Nat := SIZE_MOD - 1

/-- The byte `'/'`. -/
def SLASH : Nat := 47

/-- The method `std::string_view::rfind(c)`: index of the last occurrence of `c`, or `npos`. -/
def rfind (c : Nat) : List Nat → Nat
  | [] => npos
  | x :: xs =>
    if rfind c xs = npos then (if x = c then 0 else npos) else rfind c xs + 1

/-- The method `substr(0, count)`: `count` is clamped to the size. -/
def substr0 (path : List Nat) (count : Nat) : List Nat := path.take count

/-- The local `split_index` of `path::split_path`, in `size_t` arithmetic:
`path.substr(0, path.size() - 1).rfind('/') + 1`. -/
def split_index (path : List Nat) : Nat :=
  (rfind SLASH (substr0 path ((path.length + SIZE_MOD - 1) % SIZE_MOD)) + 1) % SIZE_MOD

/-- The function `path::split_path`:
`{ path.substr(0, split_index), path.substr(split_index) }`. -/
def split_path (path : List Nat) : List Nat × List Nat :=
  (path.take (split_index path), path.drop (split_index path))

/-! ## node.hpp, node.cpp -/

/-- The class `node`.  The union `{ file* m_file; dir* m_dir; }` is the field
`m_dir`: `none` is the null pointer, `some cs` a `dir` whose `m_children` is
`cs`.  The index never writes a `file` payload, that is left to the caller
through the slot `add` returns, so the slot of a file node stays null here. -/
structure node where
  m_is_file : Bool
  m_is_root : Bool
  m_dir : Option (List Nat)
  m_hash : Nat
  m_path : List Nat
  m_parent : Option Nat
deriving DecidableEq, Repr

/-- The method `dir::add_child`: `m_children.push_back(entry)`. -/
def add_child (m_children : List Nat) (entry : Nat) : List Nat := m_children ++ [entry]

/-- The method `dir::remove_child`: `find_if` the first element equal to
`entry`; `false` when there is none, else erase it and return `true`. -/
def remove_child (m_children : List Nat) (entry : Nat) : Bool × List Nat :=
  if entry ∈ m_children then (true, m_children.erase entry) else (false, m_children)

/-- The method `dir::size`. -/
def dir_size (m_children : List Nat) : Nat := m_children.length

/-! ## vfs.hpp, vfs.cpp -/

/-- The invalid hash `static_cast<size_t>(-1)`. -/
def INVALID : Nat := SIZE_MOD - 1

/-- What can go wrong outside the return value: the three `std::runtime_error`s
of `remove_node`, undefined behaviour, and the recursion budget of the model. -/
inductive Fault where
  /-- "No parent, or corrupt parent" -/
  | no_parent
  /-- "Failed to remove parrent, hierachy is likely corrupted" -/
  | remove_child_failed
  /-- "Folder still has children after recursive delete" -/
  | folder_not_empty
  /-- a null pointer is dereferenced -/
  | null_deref
  /-- a freed node is used -/
  | dangling
  /-- the recursion budget of the model is used up -/
  | out_of_fuel
deriving DecidableEq, Repr

/-- The class `vfs`: the members `m_nodes` (an `unordered_map<size_t, node*>`
as an association list with unique keys), `m_settings`, `m_root_node`,
`m_initialized`, and the heap the node pointers point into. -/
structure vfs where
  m_nodes : List (Nat × Nat)
  m_settings : vfs_settings
  m_root_node : Option Nat
  m_initialized : Bool
  heap : List (Option node)
deriving DecidableEq, Repr

deriving instance DecidableEq for Except

/-- The method `unordered_map::find`. -/
def map_find (k : Nat) : List (Nat × Nat) → Option Nat
  | [] => none
  | (k', v) :: m => if k' = k then some v else map_find k m

/-- The method `unordered_map::insert`: no effect when the key is present. -/
def map_insert (k v : Nat) (m : List (Nat × Nat)) : List (Nat × Nat) :=
  match map_find k m with
  | some _ => m
  | none => m ++ [(k, v)]

/-- The method `unordered_map::erase` at the position `find` returned for `k`. -/
def map_erase (k : Nat) : List (Nat × Nat) → List (Nat × Nat)
  | [] => []
  | (k', v) :: m => if k' = k then m else (k', v) :: map_erase k m

/-- Dereference a node pointer. -/
def deref (s : vfs) (p : Nat) : Option node := s.heap[p]?.join

/-- Store `n` in the cell of `p`. -/
def store (s : vfs) (p : Nat) (n : node) : vfs := { s with heap := s.heap.set p (some n) }

/-- The operator `delete` on a node: the cell is freed. -/
def free (s : vfs) (p : Nat) : vfs := { s with heap := s.heap.set p none }

/-- The function `std::tolower` in the "C" locale, on an `unsigned char`. -/
def tolower (c : Nat) : Nat := if 65 ≤ c ∧ c ≤ 90 then c + 32 else c

/-- The bytes a `const char*` denotes: up to the first NUL. -/
def c_str (buf : List Nat) : List Nat := buf.takeWhile (fun c => c != 0)

/-- The test `c < 32 || c > 126` of `hash_entry`.  A byte above 127 is
negative when `char` is signed and above 126 when it is not: it fails either way. -/
def illegal (c : Nat) : Bool := decide (c < 32) || decide (c > 126)

/-- The method `vfs::hash_entry`. -/
def hash_entry (m_hasher : List Nat → Nat) (cfg : vfs_settings) (path rest : List Nat) : Nat :=
  if cfg.m_ansi_paths && path.any illegal then INVALID
  else if cfg.m_lowercase_filesystem then m_hasher (c_str (path.map tolower))
  else m_hasher (c_str (path ++ rest))

/-- The method `vfs::get_node`. -/
def get_node (s : vfs) (hash : Nat) : Option Nat := map_find hash s.m_nodes

/-- The constructor `vfs::vfs`. -/
def vfs_new (m_hasher : List Nat → Nat) (settings : vfs_settings) : vfs :=
  { m_nodes := map_insert (m_hasher []) 0 []
    m_settings := settings
    m_root_node := some 0
    m_initialized := true
    heap := [some { m_is_file := false, m_is_root := true, m_dir := none,
                    m_hash := m_hasher [], m_path := [], m_parent := none }] }

/-- The method `vfs::get`: the hasher is applied to the view itself. -/
def get (m_hasher : List Nat → Nat) (s : vfs) (path : List Nat) : Option Nat :=
  if !s.m_initialized then none else get_node s (m_hasher path)

/-- The method `vfs::size`. -/
def size (s : vfs) : Nat := s.m_nodes.length

/-- The method `vfs::add_node`.  The first argument bounds the depth of the
recursion; `add` passes `path.length + 1`, which is never used up. -/
def add_node (m_hasher : List Nat → Nat) :
    Nat → vfs → List Nat → List Nat → Except Fault (Option Nat × vfs)
  | 0, _, _, _ => .error .out_of_fuel
  | fuel + 1, s, path, rest =>
    let hash := hash_entry m_hasher s.m_settings path rest
    if hash = INVALID then .ok (none, s)
    else if path.length = 0 then .ok (s.m_root_node, s)
    else
      match get_node s hash with
      | some entry => .ok (some entry, s)
      | none =>
        match add_node m_hasher fuel s (split_path path).1 ((split_path path).2 ++ rest) with
        | .error e => .error e
        | .ok (parent, s1) =>
          let isfile := !(path.getLast? == some SLASH)
          let entry := s1.heap.length
          let s2 : vfs := { s1 with heap := s1.heap ++ [some
            { m_is_file := isfile, m_is_root := false, m_dir := none,
              m_hash := hash, m_path := path, m_parent := parent }] }
          match parent with
          | none => .error .null_deref
          | some p =>
            match deref s2 p with
            | none => .error .dangling
            | some pn =>
              let s3 := store s2 p { pn with m_dir := some (add_child (pn.m_dir.getD []) entry) }
              .ok (some entry, { s3 with m_nodes := map_insert hash entry s3.m_nodes })

/-- The method `vfs::add`; the result is the node whose payload slot is returned. -/
def add (m_hasher : List Nat → Nat) (s : vfs) (path rest : List Nat) :
    Except Fault (Option Nat × vfs) :=
  if !s.m_initialized then .ok (none, s)
  else
    match add_node m_hasher (path.length + 1) s path rest with
    | .error e => .error e
    | .ok (none, s1) => .ok (none, s1)
    | .ok (some entry, s1) =>
      match deref s1 entry with
      | none => .error .dangling
      | some _ => .ok (some entry, s1)

/-- The lambda `delete_node` of `vfs::remove_node`. -/
def delete_node (s : vfs) (entry : Option Nat) : Except Fault (Bool × vfs) :=
  match entry with
  | none => .ok (false, s)
  | some e =>
    match deref s e with
    | none => .error .dangling
    | some n =>
      match map_find n.m_hash s.m_nodes with
      | none => .ok (false, s)
      | some _ =>
        let s1 : vfs := { s with m_nodes := map_erase n.m_hash s.m_nodes }
        match n.m_parent with
        | none => if !n.m_is_root then .error .no_parent else .ok (true, free s1 e)
        | some p =>
          match deref s1 p with
          | none => .error .dangling
          | some pn =>
            if pn.m_is_file then .error .no_parent
            else
              match pn.m_dir with
              | none => .ok (true, free s1 e)
              | some cs =>
                if (remove_child cs e).1 then
                  .ok (true, free (store s1 p { pn with m_dir := some (remove_child cs e).2 }) e)
                else .error .remove_child_failed

/-- The first loop of the lambda `delete_recursive`: `self` is the lambda
itself, applied to the node that owns the `dir`; the third argument is
`temporary_remove_storage`.  The loop runs over the children as they were when
it started. -/
def delete_recursive_scan (self : vfs → Nat → Except Fault (Bool × vfs)) :
    vfs → List Nat → List Nat → Except Fault (Bool × vfs × List Nat)
  | s, [], acc => .ok (true, s, acc)
  | s, it :: its, acc =>
    match deref s it with
    | none => .error .dangling
    | some n =>
      if !n.m_is_file && (match n.m_dir with | some cs => dir_size cs != 0 | none => false) then
        match self s it with
        | .error e => .error e
        | .ok (false, s1) => .ok (false, s1, acc)
        | .ok (true, s1) => delete_recursive_scan self s1 its (acc ++ [it])
      else delete_recursive_scan self s its (acc ++ [it])

/-- The second loop of the lambda `delete_recursive`. -/
def delete_recursive_sweep : vfs → List Nat → Except Fault (Bool × vfs)
  | s, [] => .ok (true, s)
  | s, it :: its =>
    match delete_node s (some it) with
    | .error e => .error e
    | .ok (false, s1) => .ok (false, s1)
    | .ok (true, s1) => delete_recursive_sweep s1 its

/-- The lambda `delete_recursive` of `vfs::remove_node`, applied to the `dir`
of the node `owner` (a null `dir` when that node has none).  The first
argument bounds the depth of the recursion. -/
def delete_recursive : Nat → vfs → Nat → Except Fault (Bool × vfs)
  | 0, _, _ => .error .out_of_fuel
  | fuel + 1, s, owner =>
    match deref s owner with
    | none => .error .dangling
    | some n =>
      match n.m_dir with
      | none => .ok (false, s)
      | some cs =>
        match delete_recursive_scan (delete_recursive fuel) s cs [] with
        | .error e => .error e
        | .ok (false, s1, _) => .ok (false, s1)
        | .ok (true, s1, temporary_remove_storage) =>
          match delete_recursive_sweep s1 temporary_remove_storage with
          | .error e => .error e
          | .ok (false, s2) => .ok (false, s2)
          | .ok (true, s2) =>
            match deref s2 owner with
            | none => .error .dangling
            | some n2 =>
              if dir_size (n2.m_dir.getD []) != 0 then .error .folder_not_empty
              else .ok (true, s2)

/-- The method `vfs::remove_node`.  The recursion of `delete_recursive` goes
from a node to one of its children, which was allocated later: the number of
heap cells bounds its depth. -/
def remove_node (s : vfs) (entry : Nat) (recursive : Bool) : Except Fault (Bool × vfs) :=
  match deref s entry with
  | none => .error .dangling
  | some n =>
    if n.m_is_file then
      if recursive then .ok (false, s) else delete_node s (some entry)
    else
      if !recursive && (match n.m_dir with | some cs => dir_size cs != 0 | none => false) then
        .ok (false, s)
      else
        match delete_recursive (s.heap.length + 1) s entry with
        | .error e => .error e
        | .ok (false, s1) => .ok (false, s1)
        | .ok (true, s1) => delete_node s1 (some entry)

/-- The method `vfs::remove`. -/
def remove (m_hasher : List Nat → Nat) (s : vfs) (path : List Nat) (recursive : Bool) :
    Except Fault (Bool × vfs) :=
  if !s.m_initialized then .ok (false, s)
  else
    match get m_hasher s path with
    | none => .ok (false, s)
    | some entry => remove_node s entry recursive

/-- The body of the destructor `vfs::~vfs`.  The members are destroyed after
it; the state returned is the one the body leaves, which is what decides
whether every node has been deleted. -/
def vfs_delete (s : vfs) : Except Fault vfs :=
  match s.m_root_node with
  | none => .error .null_deref
  | some root =>
    match remove_node s root true with
    | .error e => .error e
    | .ok (_, s1) => .ok { s1 with m_root_node := none, m_initialized := false }

/-! ## Sample data -/

/-- The bytes of an ASCII string literal. -/
def bytes (s : String) : List Nat := s.toList.map Char.toNat

/-- A collision-free hasher whose values are even, hence never `INVALID`:
the empty list is sent to `0` and `b :: bs` to `2^(b+1) * (h bs + 1)`. -/
def sample_hasher : List Nat → Nat
  | [] => 0
  | b :: bs => 2 ^ (b + 1) * (sample_hasher bs + 1)

/-- The configuration `vfs_settings(false, true, 255)`: a case-sensitive index. -/
def case_sensitive_settings : vfs_settings :=
  { m_lowercase_filesystem := false, m_ansi_paths := true, m_max_path := 255 }

/-- The 64-bit FNV-1a hash, the `std::hash<std::string_view>` of the MSVC
standard library. -/
def fnv1a (s : List Nat) : Nat :=
  s.foldl (fun h b => ((h ^^^ b) * 1099511628211) % SIZE_MOD) 14695981039346656037

/-- The paths of the recursive-delete accounting scenario. -/
def accounting_paths : List (List Nat) :=
  [bytes "folder2/", bytes "folder2/file2.png", bytes "folder2/file3.png",
   bytes "folder2/file4.png", bytes "folder2/folder3/file5.png",
   bytes "folder2/folder3/folder4/file6.png"]

/-- The strings that are hashed in the accounting scenario: the empty path of
the root, the six paths and the two directories that `add` creates on the way. -/
def accounting_keys : List (List Nat) :=
  [[], bytes "folder2/", bytes "folder2/file2.png", bytes "folder2/file3.png",
   bytes "folder2/file4.png", bytes "folder2/folder3/", bytes "folder2/folder3/file5.png",
   bytes "folder2/folder3/folder4/", bytes "folder2/folder3/folder4/file6.png"]

/-- The bytes `hash_entry` feeds to the hasher for a path it accepts. -/
def key_string (cfg : vfs_settings) (path rest : List Nat) : List Nat :=
  if cfg.m_lowercase_filesystem then c_str (path.map tolower) else c_str (path ++ rest)

/-- The node `add_node` constructs: `new node(isfile, false, hash, path)` followed by
`set_parent(parent)`. -/
def new_node (hash : Nat) (path : List Nat) (parent : Option Nat) : node :=
  { m_is_file := !(path.getLast? == some SLASH), m_is_root := false, m_dir := none,
    m_hash := hash, m_path := path, m_parent := parent }

/-- The state `add_node` leaves when it creates a node for `path` under the
parent `p`, whose cell holds `pn`: the last five statements of `add_node`. -/
def attach (s1 : vfs) (hash : Nat) (path : List Nat) (p : Nat) (pn : node) : vfs :=
  { store { s1 with heap := s1.heap ++ [some (new_node hash path (some p))] } p
      { pn with m_dir := some (add_child (pn.m_dir.getD []) s1.heap.length) } with
    m_nodes := map_insert hash s1.heap.length s1.m_nodes }

/-- The facts about the index and the hierarchy that every operation keeps,
whatever the configuration, when the hasher has no collision. -/
structure Inv (m_hasher : List Nat → Nat) (s : vfs) : Prop where
  keys_nodup : (s.m_nodes.map Prod.fst).Nodup
  index_live : ∀ k e, map_find k s.m_nodes = some e → ∃ n, deref s e = some n ∧ n.m_hash = k
  parent_ok : ∀ e n, deref s e = some n → n.m_is_root = false →
    ∃ p pn cs, n.m_parent = some p ∧ deref s p = some pn ∧ pn.m_is_file = false ∧
      pn.m_dir = some cs ∧ e ∈ cs
  children_ok : ∀ p pn cs, deref s p = some pn → pn.m_dir = some cs →
    cs.Nodup ∧ ∀ c ∈ cs, p < c ∧ ∃ cn, deref s c = some cn ∧ cn.m_parent = some p
  file_no_dir : ∀ e n, deref s e = some n → n.m_is_file = true → n.m_dir = none
  root_flag : ∀ e n, deref s e = some n → n.m_is_root = true → n.m_is_file = false
  root_parent : ∀ e n, deref s e = some n → n.m_is_root = true → n.m_parent = none
  root_ptr : ∀ r n, s.m_root_node = some r → deref s r = some n → n.m_is_file = false
  root_lt : ∀ r, s.m_root_node = some r → r < s.heap.length
  file_key : s.m_settings.m_lowercase_filesystem = true →
    ∀ k e n x, map_find k s.m_nodes = some e → deref s e = some n → n.m_is_file = true →
      k = m_hasher x → x.getLast? ≠ some SLASH

/-- The state with the index entry of the key `k` erased. -/
def erased (s : vfs) (k : Nat) : vfs := { s with m_nodes := map_erase k s.m_nodes }

/-- The state `s'` is `s` with the node `e`, whose key is `h`, deleted: the
index entry is erased, the cell is freed, and `e` is erased from every `dir`. -/
structure Removed (s s' : vfs) (e h : Nat) : Prop where
  nodes : s'.m_nodes = map_erase h s.m_nodes
  settings : s'.m_settings = s.m_settings
  root : s'.m_root_node = s.m_root_node
  init : s'.m_initialized = s.m_initialized
  heap_length : s'.heap.length = s.heap.length
  gone : deref s' e = none
  kept : ∀ q n, q ≠ e → deref s q = some n →
    deref s' q = some { n with m_dir := n.m_dir.map (fun cs => cs.erase e) }
  dead : ∀ q, deref s q = none → deref s' q = none

/-- The node `e`, as long as it is live, has no child: its `dir` is null or empty. -/
def childless (s : vfs) (e : Nat) : Prop :=
  ∀ n, deref s e = some n → n.m_dir = none ∨ n.m_dir = some []

/-- The node `n'` is the node `n` but for the children in its `dir`. -/
def same_fields (n n' : node) : Prop :=
  n'.m_parent = n.m_parent ∧ n'.m_is_file = n.m_is_file ∧ n'.m_is_root = n.m_is_root ∧
    n'.m_hash = n.m_hash ∧ n'.m_path = n.m_path

/-- The heap of `s'` comes from the heap of `s` by freeing nodes and removing
children from `dir`s, nothing else. -/
def Shrinks (s s' : vfs) : Prop :=
  ∀ e n', deref s' e = some n' → ∃ n, deref s e = some n ∧ same_fields n n' ∧
    (n.m_dir = none → n'.m_dir = none) ∧
    (∀ cs', n'.m_dir = some cs' → ∃ cs, n.m_dir = some cs ∧ cs'.Sublist cs)

/-- The states of an index with the configuration `cfg`: the constructor,
followed by calls of `add` and `remove` that return.  A `string_view` has a
`size_t` length. -/
inductive Reach (m_hasher : List Nat → Nat) (cfg : vfs_settings) : vfs → Prop
  | init : Reach m_hasher cfg (vfs_new m_hasher cfg)
  | add {s s' : vfs} {path rest : List Nat} {r : Option Nat} :
      Reach m_hasher cfg s → path.length < SIZE_MOD →
      add m_hasher s path rest = .ok (r, s') → Reach m_hasher cfg s'
  | remove {s s' : vfs} {path : List Nat} {recursive b : Bool} :
      Reach m_hasher cfg s → remove m_hasher s path recursive = .ok (b, s') →
      Reach m_hasher cfg s'

/-- What every step of a removal keeps: the invariant, and the heap only shrinks. -/
def Keeps (m_hasher : List Nat → Nat) (s s' : vfs) : Prop :=
  Inv m_hasher s' ∧ Shrinks s s' ∧ s'.m_settings = s.m_settings ∧
    s'.m_root_node = s.m_root_node ∧ s'.m_initialized = s.m_initialized ∧
    s'.heap.length = s.heap.length

/-- The index is constructed, not torn down, and no pointer it holds dangles:
the root node and every indexed node are live. -/
def Constructed (s : vfs) : Prop :=
  s.m_initialized = true ∧ (∃ r n, s.m_root_node = some r ∧ deref s r = some n) ∧
    ∀ k e, map_find k s.m_nodes = some e → ∃ n, deref s e = some n

/-- The index after the calls `add(p)` for the paths `p` of a list of strings,
in order, as in the loops of the tests; a call that faults is skipped. -/
def add_all (m_hasher : List Nat → Nat) (s : vfs) : List (List Nat) → vfs
  | [] => s
  | p :: ps =>
    match add m_hasher s p [] with
    | .ok (_, s1) => add_all m_hasher s1 ps
    | .error _ => add_all m_hasher s ps

/-- The state `s'` comes from `s` by calls of the lambda `delete_node` that
return true, each on a node without children in a state that satisfies the
invariant. -/
inductive Deletes (m_hasher : List Nat → Nat) : vfs → vfs → Prop
  | refl (s : vfs) : Deletes m_hasher s s
  | step {s s' : vfs} {e : Nat} : Inv m_hasher s → childless s e →
      delete_node s (some e) = .ok (true, s') → Deletes m_hasher s s'
  | trans {s1 s2 s3 : vfs} : Deletes m_hasher s1 s2 → Deletes m_hasher s2 s3 →
      Deletes m_hasher s1 s3

/-- The index of `s'` is a part of the index of `s`, and an entry of `s` is
missing in `s'` only when a node with the hash of its key has been freed. -/
def Drops (s s' : vfs) : Prop :=
  (∀ k e, map_find k s'.m_nodes = some e → map_find k s.m_nodes = some e) ∧
  ∀ k e, map_find k s.m_nodes = some e → map_find k s'.m_nodes = some e ∨
    ∃ x nx, deref s x = some nx ∧ deref s' x = none ∧ nx.m_hash = k

/-- As long as the root node is live, it is the one node with the hash of the
empty path and the index holds it under that hash. -/
def RootIndexed (m_hasher : List Nat → Nat) (s : vfs) : Prop :=
  ∀ n, deref s 0 = some n →
    n.m_hash = m_hasher [] ∧ n.m_path = [] ∧ n.m_is_root = true ∧
    map_find (m_hasher []) s.m_nodes = some 0 ∧
    ∀ e n', deref s e = some n' → n'.m_hash = m_hasher [] → e = 0

/-- What holds in addition when paths are validated and case-folded
(`ansi_paths` and `lowercase_filesystem` both set, as in the default
configuration) and the hasher has no collision: every node is indexed under
the hash of its case-folded path, and the path of its parent is, up to case,
the first component of `split_path`. -/
structure Folded (m_hasher : List Nat → Nat) (s : vfs) : Prop where
  lower : s.m_settings.m_lowercase_filesystem = true
  ansi : s.m_settings.m_ansi_paths = true
  hash_path : ∀ e n, deref s e = some n → n.m_hash = m_hasher (n.m_path.map tolower)
  legal : ∀ e n, deref s e = some n → n.m_path.any illegal = false
  indexed : ∀ e n, deref s e = some n → map_find n.m_hash s.m_nodes = some e
  root_path : ∀ e n, deref s e = some n → (n.m_is_root = true ↔ n.m_path = [])
  root_is : ∀ e n, deref s e = some n → n.m_is_root = true → s.m_root_node = some e
  root_live : ∀ r n, s.m_root_node = some r → deref s r = some n → n.m_is_root = true
  parent_path : ∀ e n p pn, deref s e = some n → n.m_parent = some p → deref s p = some pn →
    pn.m_path.map tolower = (split_path n.m_path).1.map tolower

/-- No node of the index has the path `p`, letter case apart. -/
def absent (s : vfs) (p : List Nat) : Bool :=
  s.m_nodes.all (fun kv =>
    match deref s kv.2 with
    | some n => decide (n.m_path.map tolower ≠ p.map tolower)
    | none => true)

/-! ## Walking the parent links -/

/-- The node reached from `e` by `k` calls of `node::parent`. -/
def parent_walk (s : vfs) : Nat → Nat → Option Nat
  | 0, e => some e
  | k + 1, e =>
    match deref s e with
    | none => none
    | some n =>
      match n.m_parent with
      | none => none
      | some p => parent_walk s k p

/-- The `i`-th successive split of a path: `split_path` applied `i` times,
each time to the first component of the result before. -/
def ancestor_path (i : Nat) (path : List Nat) : List Nat :=
  Nat.iterate (fun p => (split_path p).1) i path

/-- The number of applications of `split_path` that take the path to the
empty path, within a budget. -/
def segments_from : Nat → List Nat → Nat
  | 0, _ => 0
  | fuel + 1, path => if path = [] then 0 else segments_from fuel (split_path path).1 + 1

/-- The number of segments of a path. -/
def segments (path : List Nat) : Nat := segments_from path.length path

/-! ## find -/

/-- The view `haystack` begins with `needle`. -/
def starts_with : List Nat → List Nat → Bool
  | _, [] => true
  | [], _ :: _ => false
  | x :: xs, y :: ys => decide (x = y) && starts_with xs ys

/-- The test `haystack.find(needle) != npos`: plain textual containment. -/
def contains : List Nat → List Nat → Bool
  | [], needle => starts_with [] needle
  | x :: xs, needle => starts_with (x :: xs) needle || contains xs needle

/-- Modelled from the spec: the method `vfs::find`, which vfs.hpp declares and
no source file defines.  A linear scan of all indexed nodes collects every
node whose full path contains `filter`; the result is the number collected
together with the collection, the contents of `out_nodes`. -/
def find (s : vfs) (filter : List Nat) : Nat × List Nat :=
  let out_nodes := s.m_nodes.filterMap (fun kv =>
    match deref s kv.2 with
    | some n => if contains n.m_path filter then some kv.2 else none
    | none => none)
  (out_nodes.length, out_nodes)

/-- The paths of the test case "vfs recursive find". -/
def find_paths : List (List Nat) :=
  [bytes "file1.png", bytes "folder1/", bytes "folder2/", bytes "folder2/file2.png",
   bytes "folder2/file2.png", bytes "folder2/file3.png", bytes "folder2/file4.txt",
   bytes "folder2/folder3/file5.png", bytes "folder2/folder3/folder4/file6.png",
   bytes "folder2/folder3/folder4/file6.txt", bytes "folder2/folder3/folder4txt/file7.txt",
   bytes "folder2/folder3/folder4txt/file8.png", bytes "file9"]

/-! ## path.cpp, the second overload; the reference for split_path -/

/-- The overload `path::split_path(std::string&)`: the index is computed on a
copy, `path.substr(0, path_view.size() - 1)`, and the two results are views
of `path_view`. -/
def split_path_string (path : List Nat) : List Nat × List Nat :=
  let path_view := path
  let split_index :=
    (rfind SLASH (substr0 path ((path_view.length + SIZE_MOD - 1) % SIZE_MOD)) + 1) % SIZE_MOD
  (path_view.take split_index, path_view.drop split_index)

/-- The split of a path as the specification words it: the first component
is the longest of the beginnings of the path that end in a slash and end
before the last byte of the path, the empty one when there is none; the
second component is the rest. -/
def split_ref (path : List Nat) : List Nat × List Nat :=
  let ends := (List.range path.length).filter
    (fun k => decide ((path.take k).getLast? = some SLASH))
  let k := ends.foldl max 0
  (path.take k, path.drop k)

/-! ## The range test of hash_entry on a `char` -/

/-- The value of the byte `b` as a `char`, which is signed on some platforms
and unsigned on others. -/
def char_value (char_signed : Bool) (b : Nat) : Int :=
  if char_signed && decide (128 ≤ b) then (b : Int) - 256 else (b : Int)

/-- The test `c < 32 || c > 126` of `hash_entry` on the `char` value. -/
def illegal_char (char_signed : Bool) (b : Nat) : Bool :=
  decide (char_value char_signed b < 32) || decide (char_value char_signed b > 126)

/-- The configuration `vfs_settings(true, false, 255)`: case folding on, the
bytes of a path not checked. -/
def unchecked_settings : vfs_settings :=
  { m_lowercase_filesystem := true, m_ansi_paths := false, m_max_path := 255 }

/-! ### The index map -/

theorem map_find_append (k : Nat) (m m' : List (Nat × Nat)) :
    map_find k (m ++ m') = (map_find k m).orElse (fun _ => map_find k m') := by
  induction m with
  | nil => simp [map_find]
  | cons a m ih =>
    obtain ⟨k', v⟩ := a
    by_cases h : k' = k <;> simp [map_find, h, ih]

theorem map_find_insert (k k' v : Nat) (m : List (Nat × Nat)) :
    map_find k (map_insert k' v m) =
      if k = k' then some ((map_find k' m).getD v) else map_find k m := by
  unfold map_insert
  by_cases h : k = k'
  · subst h
    cases hm : map_find k m <;> simp [map_find_append, hm, map_find]
  · have h' : ¬ k' = k := fun e => h e.symm
    cases hm : map_find k' m <;> simp [map_find_append, hm, map_find, h, h']

theorem map_find_erase_ne {k k' : Nat} (h : k ≠ k') (m : List (Nat × Nat)) :
    map_find k (map_erase k' m) = map_find k m := by
  have h' : ¬ k' = k := fun e => h e.symm
  induction m with
  | nil => rfl
  | cons a m ih =>
    obtain ⟨k'', v⟩ := a
    by_cases h1 : k'' = k'
    · subst h1
      simp [map_erase, map_find, h']
    · by_cases h2 : k'' = k
      · subst h2
        simp [map_erase, map_find, h]
      · simp [map_erase, map_find, h1, h2, ih]

theorem map_find_none_of_not_mem_keys {k : Nat} {m : List (Nat × Nat)}
    (h : k ∉ m.map Prod.fst) : map_find k m = none := by
  induction m with
  | nil => rfl
  | cons a m ih =>
    obtain ⟨k', v⟩ := a
    simp at h
    have h1 : ¬ k' = k := fun e => h.1 e.symm
    simp only [map_find, h1, if_false]
    exact ih (by simpa using h.2)

theorem map_find_some_mem_keys {k v : Nat} {m : List (Nat × Nat)}
    (h : map_find k m = some v) : k ∈ m.map Prod.fst := by
  by_contra hc
  rw [map_find_none_of_not_mem_keys hc] at h
  exact Option.noConfusion h

theorem map_erase_keys_sublist (k : Nat) (m : List (Nat × Nat)) :
    ((map_erase k m).map Prod.fst).Sublist (m.map Prod.fst) := by
  induction m with
  | nil => simp [map_erase]
  | cons a m ih =>
    obtain ⟨k', v⟩ := a
    by_cases h : k' = k
    · simp [map_erase, h]
    · simpa [map_erase, h] using ih

theorem map_erase_nodup {m : List (Nat × Nat)} (k : Nat) (h : (m.map Prod.fst).Nodup) :
    ((map_erase k m).map Prod.fst).Nodup :=
  h.sublist (map_erase_keys_sublist k m)

theorem map_find_erase_self {m : List (Nat × Nat)} (k : Nat) (h : (m.map Prod.fst).Nodup) :
    map_find k (map_erase k m) = none := by
  induction m with
  | nil => rfl
  | cons a m ih =>
    obtain ⟨k', v⟩ := a
    simp only [List.map_cons, List.nodup_cons] at h
    by_cases h1 : k' = k
    · subst h1
      simp only [map_erase, if_true]
      exact map_find_none_of_not_mem_keys h.1
    · simp [map_erase, map_find, h1, ih h.2]

theorem map_insert_nodup {m : List (Nat × Nat)} (k v : Nat) (h : (m.map Prod.fst).Nodup) :
    ((map_insert k v m).map Prod.fst).Nodup := by
  unfold map_insert
  cases hm : map_find k m with
  | some x => simpa using h
  | none =>
    simp only [List.map_append, List.map_cons, List.map_nil]
    refine List.Nodup.append h (by simp) ?_
    intro x hx hx'
    simp at hx'
    subst hx'
    obtain ⟨⟨a, b⟩, hab, rfl⟩ := List.mem_map.1 hx
    have : map_find a m ≠ none := by
      clear hm h hx
      induction m with
      | nil => simp at hab
      | cons c m ih =>
        obtain ⟨k', v'⟩ := c
        by_cases h1 : k' = a
        · simp [map_find, h1]
        · simp only [map_find, h1, if_false]
          apply ih
          simp at hab
          rcases hab with ⟨rfl, rfl⟩ | hab
          · exact absurd rfl h1
          · exact hab
    exact this hm

theorem map_erase_length {k v : Nat} {m : List (Nat × Nat)} (h : map_find k m = some v) :
    (map_erase k m).length + 1 = m.length := by
  induction m with
  | nil => simp [map_find] at h
  | cons a m ih =>
    obtain ⟨k', v'⟩ := a
    by_cases h1 : k' = k
    · simp [map_erase, h1]
    · simp only [map_find, h1, if_false] at h
      simp [map_erase, h1, ih h]

theorem map_insert_length (k v : Nat) (m : List (Nat × Nat)) :
    (map_insert k v m).length = if map_find k m = none then m.length + 1 else m.length := by
  unfold map_insert
  cases hm : map_find k m <;> simp

/-! ### The heap -/

theorem deref_lt {s : vfs} {p : Nat} {n : node} (h : deref s p = some n) : p < s.heap.length := by
  unfold deref at h
  by_contra hc
  rw [List.getElem?_eq_none (by omega)] at h
  simp at h

theorem deref_store_same {s : vfs} {p : Nat} (n : node) (h : p < s.heap.length) :
    deref (store s p n) p = some n := by
  simp [deref, store, List.getElem?_set, h]

theorem deref_store_ne {s : vfs} {p q : Nat} (n : node) (h : q ≠ p) :
    deref (store s p n) q = deref s q := by
  have : ¬ p = q := fun e => h e.symm
  simp [deref, store, List.getElem?_set, this]

theorem deref_free_same (s : vfs) (p : Nat) : deref (free s p) p = none := by
  unfold deref free
  by_cases h : p < s.heap.length
  · simp [List.getElem?_set, h]
  · simp [List.getElem?_eq_none (show (s.heap.set p none).length ≤ p by simp; omega)]

theorem deref_free_ne {s : vfs} {p q : Nat} (h : q ≠ p) : deref (free s p) q = deref s q := by
  have : ¬ p = q := fun e => h e.symm
  simp [deref, free, List.getElem?_set, this]

theorem deref_alloc_new (s : vfs) (n : node) :
    deref { s with heap := s.heap ++ [some n] } s.heap.length = some n := by
  simp [deref]

theorem deref_alloc_old {s : vfs} (n : node) {q : Nat} (h : q ≠ s.heap.length) :
    deref { s with heap := s.heap ++ [some n] } q = deref s q := by
  unfold deref
  by_cases hq : q < s.heap.length
  · simp [List.getElem?_append_left hq]
  · have : s.heap.length < q := by omega
    rw [List.getElem?_eq_none (by simp; omega), List.getElem?_eq_none (by omega)]

theorem deref_m_nodes (s : vfs) (m : List (Nat × Nat)) (q : Nat) :
    deref { s with m_nodes := m } q = deref s q := rfl


/-! ### split_path -/

theorem SIZE_MOD_pos : 0 < SIZE_MOD := by unfold SIZE_MOD; positivity

theorem npos_succ : npos + 1 = SIZE_MOD := by
  have := SIZE_MOD_pos
  unfold npos; omega

theorem rfind_spec (c : Nat) (l : List Nat) :
    rfind c l = npos ∨ (rfind c l < l.length ∧ l[rfind c l]? = some c) := by
  induction l with
  | nil => left; rfl
  | cons x xs ih =>
    unfold rfind
    by_cases h : rfind c xs = npos
    · simp only [h, if_true]
      by_cases hx : x = c
      · right; simp [hx]
      · left; simp [hx]
    · simp only [h, if_false]
      right
      rcases ih with ih | ih
      · exact absurd ih h
      · exact ⟨by simp; exact ih.1, by simpa using ih.2⟩

theorem rfind_ge (c : Nat) (l : List Nat) (hl : l.length ≤ npos) (i : Nat)
    (hi : l[i]? = some c) : rfind c l ≠ npos ∧ i ≤ rfind c l := by
  induction l generalizing i with
  | nil => simp at hi
  | cons x xs ih =>
    have hxs : xs.length ≤ npos := by simp at hl; omega
    have hlt : xs.length < npos := by simp at hl; omega
    unfold rfind
    by_cases h : rfind c xs = npos
    · simp only [h, if_true]
      cases i with
      | zero =>
        simp at hi
        have := npos_succ
        simp [hi]; omega
      | succ j =>
        simp at hi
        exact absurd h (ih hxs j hi).1
    · simp only [h, if_false]
      have hr : rfind c xs < xs.length := by
        rcases rfind_spec c xs with h' | h'
        · exact absurd h' h
        · exact h'.1
      refine ⟨by omega, ?_⟩
      cases i with
      | zero => omega
      | succ j =>
        simp at hi
        have := (ih hxs j hi).2
        omega

theorem split_index_lt {path : List Nat} (h : path ≠ []) : split_index path < path.length := by
  have hpos : 0 < path.length := List.length_pos.2 h
  have hM := SIZE_MOD_pos
  have hn := npos_succ
  unfold split_index substr0
  rcases rfind_spec SLASH (path.take ((path.length + SIZE_MOD - 1) % SIZE_MOD)) with hr | hr
  · rw [hr, hn, Nat.mod_self]; exact hpos
  · have h1 := hr.1
    rw [List.length_take] at h1
    have h2 : (path.length + SIZE_MOD - 1) % SIZE_MOD ≤ path.length - 1 := by
      have : path.length + SIZE_MOD - 1 = (path.length - 1) + SIZE_MOD := by omega
      rw [this, Nat.add_mod_right]
      exact Nat.mod_le _ _
    calc (rfind SLASH (path.take ((path.length + SIZE_MOD - 1) % SIZE_MOD)) + 1) % SIZE_MOD
        ≤ rfind SLASH (path.take ((path.length + SIZE_MOD - 1) % SIZE_MOD)) + 1 := Nat.mod_le _ _
      _ < path.length := by omega

theorem split_path_append (path : List Nat) : (split_path path).1 ++ (split_path path).2 = path := by
  simp [split_path]

theorem split_path_fst_length_lt {path : List Nat} (h : path ≠ []) :
    (split_path path).1.length < path.length := by
  have := split_index_lt h
  simp [split_path]
  omega

/-- The prefix `split_path` returns is empty or ends in a slash. -/
theorem split_path_fst_slash (path : List Nat) :
    (split_path path).1 = [] ∨ (split_path path).1.getLast? = some SLASH := by
  have hM := SIZE_MOD_pos
  have hn := npos_succ
  unfold split_path split_index substr0
  simp only
  set sub := path.take ((path.length + SIZE_MOD - 1) % SIZE_MOD) with hsub
  rcases rfind_spec SLASH sub with hr | hr
  · left; rw [hr, hn, Nat.mod_self]; rfl
  · right
    have hlen : sub.length < SIZE_MOD := by
      rw [hsub, List.length_take]
      have := Nat.mod_lt (path.length + SIZE_MOD - 1) hM
      omega
    have hlt : rfind SLASH sub + 1 < SIZE_MOD := by omega
    rw [Nat.mod_eq_of_lt hlt]
    have h2 : path[rfind SLASH sub]? = some SLASH := by
      have := hr.2
      rw [hsub, List.getElem?_take] at this
      split at this
      · exact this
      · exact Option.noConfusion this
    rw [List.getLast?_eq_getElem?]
    have hp : rfind SLASH sub < path.length := by
      by_contra hc
      rw [List.getElem?_eq_none (by omega)] at h2
      exact Option.noConfusion h2
    rw [List.length_take, Nat.min_eq_left (by omega)]
    simp [List.getElem?_take, h2]

/-- A slash before the last byte lies in the prefix `split_path` returns. -/
theorem split_index_ge {path : List Nat} (hlen : path.length < SIZE_MOD) {i : Nat}
    (hi : path[i]? = some SLASH) (hlast : i + 1 < path.length) : i + 1 ≤ split_index path := by
  have hM := SIZE_MOD_pos
  have hn := npos_succ
  unfold split_index substr0
  have h1 : (path.length + SIZE_MOD - 1) % SIZE_MOD = path.length - 1 := by
    have : path.length + SIZE_MOD - 1 = (path.length - 1) + SIZE_MOD := by omega
    rw [this, Nat.add_mod_right]
    exact Nat.mod_eq_of_lt (by omega)
  rw [h1]
  have h2 : (path.take (path.length - 1))[i]? = some SLASH := by
    rw [List.getElem?_take]; simp [show i < path.length - 1 by omega, hi]
  have h3 := rfind_ge SLASH (path.take (path.length - 1)) (by simp; omega) i h2
  have h4 : rfind SLASH (path.take (path.length - 1)) < (path.take (path.length - 1)).length := by
    rcases rfind_spec SLASH (path.take (path.length - 1)) with h | h
    · exact absurd h h3.1
    · exact h.1
  simp at h4
  rw [Nat.mod_eq_of_lt (by omega)]
  omega

/-! ### hash_entry -/

theorem hash_entry_eq_invalid (m_hasher : List Nat → Nat) {cfg : vfs_settings} {path : List Nat}
    (rest : List Nat) (h1 : cfg.m_ansi_paths = true) (h2 : path.any illegal = true) :
    hash_entry m_hasher cfg path rest = INVALID := by
  simp [hash_entry, h1, h2]

theorem hash_entry_eq_key (m_hasher : List Nat → Nat) {cfg : vfs_settings} {path : List Nat}
    (rest : List Nat) (h : ¬ (cfg.m_ansi_paths = true ∧ path.any illegal = true)) :
    hash_entry m_hasher cfg path rest = m_hasher (key_string cfg path rest) := by
  unfold hash_entry key_string
  have : ¬ ((cfg.m_ansi_paths && path.any illegal) = true) := by
    simpa [Bool.and_eq_true] using h
  rw [if_neg this]
  split <;> rfl

theorem legal_of_hash_entry_ne {m_hasher : List Nat → Nat} {cfg : vfs_settings}
    {path rest : List Nat} (h : hash_entry m_hasher cfg path rest ≠ INVALID) :
    ¬ (cfg.m_ansi_paths = true ∧ path.any illegal = true) :=
  fun hc => h (hash_entry_eq_invalid m_hasher rest hc.1 hc.2)

theorem any_illegal_take {path : List Nat} (i : Nat) (h : (path.take i).any illegal = true) :
    path.any illegal = true := by
  rw [List.any_eq_true] at h ⊢
  obtain ⟨x, hx, hx'⟩ := h
  exact ⟨x, List.mem_of_mem_take hx, hx'⟩

/-! ### add_node -/

theorem attach_deref_new (s1 : vfs) (hash : Nat) (path : List Nat) {p : Nat} (pn : node)
    (hp : p < s1.heap.length) :
    deref (attach s1 hash path p pn) s1.heap.length = some (new_node hash path (some p)) := by
  unfold attach
  rw [deref_m_nodes, deref_store_ne _ (by omega), deref_alloc_new]

theorem attach_deref_parent (s1 : vfs) (hash : Nat) (path : List Nat) {p : Nat} (pn : node)
    (hp : p < s1.heap.length) :
    deref (attach s1 hash path p pn) p =
      some { pn with m_dir := some (pn.m_dir.getD [] ++ [s1.heap.length]) } := by
  unfold attach
  rw [deref_m_nodes, deref_store_same _ (by simp; omega)]
  rfl

theorem attach_deref_other (s1 : vfs) (hash : Nat) (path : List Nat) (p : Nat) (pn : node)
    {q : Nat} (hq : q ≠ p) (hq' : q ≠ s1.heap.length) :
    deref (attach s1 hash path p pn) q = deref s1 q := by
  unfold attach
  rw [deref_m_nodes, deref_store_ne _ hq, deref_alloc_old _ hq']

theorem add_node_ok_cases {m_hasher : List Nat → Nat} {fuel : Nat} {s s' : vfs}
    {path rest : List Nat} {r : Option Nat}
    (h : add_node m_hasher (fuel + 1) s path rest = .ok (r, s')) :
    (hash_entry m_hasher s.m_settings path rest = INVALID ∧ r = none ∧ s' = s) ∨
    (hash_entry m_hasher s.m_settings path rest ≠ INVALID ∧ path = [] ∧
      r = s.m_root_node ∧ s' = s) ∨
    (hash_entry m_hasher s.m_settings path rest ≠ INVALID ∧ path ≠ [] ∧
      ∃ e, get_node s (hash_entry m_hasher s.m_settings path rest) = some e ∧
        r = some e ∧ s' = s) ∨
    (hash_entry m_hasher s.m_settings path rest ≠ INVALID ∧ path ≠ [] ∧
      get_node s (hash_entry m_hasher s.m_settings path rest) = none ∧
      ∃ p s1 pn, add_node m_hasher fuel s (split_path path).1 ((split_path path).2 ++ rest)
          = .ok (some p, s1) ∧
        deref { s1 with heap := s1.heap ++ [some (new_node
          (hash_entry m_hasher s.m_settings path rest) path (some p))] } p = some pn ∧
        r = some s1.heap.length ∧
        s' = attach s1 (hash_entry m_hasher s.m_settings path rest) path p pn) := by
  unfold add_node at h
  simp only at h
  split at h
  · rename_i hinv
    simp only [Except.ok.injEq, Prod.mk.injEq] at h
    exact Or.inl ⟨hinv, h.1.symm, h.2.symm⟩
  · rename_i hinv
    split at h
    · rename_i hlen
      simp only [Except.ok.injEq, Prod.mk.injEq] at h
      exact Or.inr (Or.inl ⟨hinv, List.length_eq_zero.1 hlen, h.1.symm, h.2.symm⟩)
    · rename_i hlen
      have hne : path ≠ [] := fun e => hlen (by simp [e])
      split at h
      · rename_i e he
        simp only [Except.ok.injEq, Prod.mk.injEq] at h
        exact Or.inr (Or.inr (Or.inl ⟨hinv, hne, e, he, h.1.symm, h.2.symm⟩))
      · rename_i hnone
        split at h
        · exact Except.noConfusion h
        · rename_i parent s1 hrec
          split at h
          · exact Except.noConfusion h
          · rename_i p
            split at h
            · exact Except.noConfusion h
            · rename_i pn hpn
              simp only [Except.ok.injEq, Prod.mk.injEq] at h
              exact Or.inr (Or.inr (Or.inr ⟨hinv, hne, hnone, p, s1, pn, hrec, hpn,
                h.1.symm, h.2.symm⟩))

theorem attach_live_cases {s1 : vfs} {hash : Nat} {path : List Nat} {p : Nat} {pn : node}
    (hpn : deref s1 p = some pn) {q : Nat} {n' : node}
    (h : deref (attach s1 hash path p pn) q = some n') :
    (q = s1.heap.length ∧ n' = new_node hash path (some p)) ∨
    (q = p ∧ n' = { pn with m_dir := some (pn.m_dir.getD [] ++ [s1.heap.length]) }) ∨
    (q ≠ p ∧ q ≠ s1.heap.length ∧ deref s1 q = some n') := by
  have hp := deref_lt hpn
  by_cases h1 : q = s1.heap.length
  · subst h1
    rw [attach_deref_new _ _ _ _ hp] at h
    exact Or.inl ⟨rfl, (Option.some.inj h).symm⟩
  · by_cases h2 : q = p
    · subst h2
      rw [attach_deref_parent _ _ _ _ hp] at h
      exact Or.inr (Or.inl ⟨rfl, (Option.some.inj h).symm⟩)
    · rw [attach_deref_other _ _ _ _ _ h2 h1] at h
      exact Or.inr (Or.inr ⟨h2, h1, h⟩)

theorem attach_old {s1 : vfs} (hash : Nat) (path : List Nat) {p : Nat} {pn : node}
    (hpn : deref s1 p = some pn) {q : Nat} {n : node} (hq : deref s1 q = some n) :
    ∃ n', deref (attach s1 hash path p pn) q = some n' ∧ n'.m_is_file = n.m_is_file ∧
      n'.m_is_root = n.m_is_root ∧ n'.m_hash = n.m_hash ∧ n'.m_path = n.m_path ∧
      n'.m_parent = n.m_parent ∧
      (∀ cs, n.m_dir = some cs → ∃ cs', n'.m_dir = some cs' ∧ ∀ c ∈ cs, c ∈ cs') ∧
      (q ≠ p → n' = n) := by
  have hp := deref_lt hpn
  have hq' := deref_lt hq
  by_cases h2 : q = p
  · subst h2
    rw [hpn] at hq
    cases Option.some.inj hq
    refine ⟨_, attach_deref_parent _ _ _ _ hp, rfl, rfl, rfl, rfl, rfl, ?_, fun h => absurd rfl h⟩
    intro cs hcs
    refine ⟨_, rfl, ?_⟩
    intro c hc
    simp [hcs, hc]
  · refine ⟨n, ?_, rfl, rfl, rfl, rfl, rfl, fun cs hcs => ⟨cs, hcs, fun c hc => hc⟩, fun _ => rfl⟩
    rw [attach_deref_other _ _ _ _ _ h2 (by omega)]
    exact hq

theorem attach_m_nodes (s1 : vfs) (hash : Nat) (path : List Nat) (p : Nat) (pn : node) :
    (attach s1 hash path p pn).m_nodes = map_insert hash s1.heap.length s1.m_nodes := rfl

theorem attach_heap_length (s1 : vfs) (hash : Nat) (path : List Nat) (p : Nat) (pn : node) :
    (attach s1 hash path p pn).heap.length = s1.heap.length + 1 := by
  simp [attach, store]

theorem attach_inv {m_hasher : List Nat → Nat} {s1 : vfs} {hash : Nat} {path : List Nat}
    {p : Nat} {pn : node} (hs : Inv m_hasher s1) (hpn : deref s1 p = some pn)
    (hdir : pn.m_is_file = false)
    (hkey : s1.m_settings.m_lowercase_filesystem = true →
      (new_node hash path (some p)).m_is_file = true → map_find hash s1.m_nodes = none →
      ∀ x, hash = m_hasher x → x.getLast? ≠ some SLASH) :
    Inv m_hasher (attach s1 hash path p pn) := by
  have hp := deref_lt hpn
  have hfresh : ∀ {c : Nat} {cn : node}, deref s1 c = some cn → c ≠ s1.heap.length :=
    fun h => Nat.ne_of_lt (deref_lt h)
  constructor
  · -- keys_nodup
    rw [attach_m_nodes]
    exact map_insert_nodup _ _ hs.keys_nodup
  · -- index_live
    intro k e hk
    rw [attach_m_nodes, map_find_insert] at hk
    split at hk
    · rename_i hkh
      subst hkh
      cases hm : map_find k s1.m_nodes with
      | none =>
        rw [hm] at hk
        simp only [Option.getD_none, Option.some.injEq] at hk
        subst hk
        exact ⟨_, attach_deref_new _ _ _ _ hp, rfl⟩
      | some y =>
        rw [hm] at hk
        simp only [Option.getD_some, Option.some.injEq] at hk
        subst hk
        obtain ⟨n, hn, hnk⟩ := hs.index_live _ _ hm
        obtain ⟨n', hn', -, -, hh, -⟩ := attach_old k path hpn hn
        exact ⟨n', hn', hh.trans hnk⟩
    · obtain ⟨n, hn, hnk⟩ := hs.index_live _ _ hk
      obtain ⟨n', hn', -, -, hh, -⟩ := attach_old hash path hpn hn
      exact ⟨n', hn', hh.trans hnk⟩
  · -- parent_ok
    intro e n he hroot
    rcases attach_live_cases hpn he with ⟨rfl, rfl⟩ | ⟨rfl, rfl⟩ | ⟨h1, h2, h3⟩
    · exact ⟨p, _, _, rfl, attach_deref_parent _ _ _ _ hp, hdir, rfl, by simp⟩
    · obtain ⟨pp, ppn, cs, h1, h2, h3, h4, h5⟩ := hs.parent_ok _ _ hpn hroot
      obtain ⟨n', hn', hf, -, -, -, -, hcs, -⟩ := attach_old hash path hpn h2
      obtain ⟨cs', hcs', hsub⟩ := hcs cs h4
      exact ⟨pp, n', cs', h1, hn', hf.trans h3, hcs', hsub _ h5⟩
    · obtain ⟨pp, ppn, cs, h1', h2', h3', h4', h5'⟩ := hs.parent_ok _ _ h3 hroot
      obtain ⟨n', hn', hf, -, -, -, -, hcs, -⟩ := attach_old hash path hpn h2'
      obtain ⟨cs', hcs', hsub⟩ := hcs cs h4'
      exact ⟨pp, n', cs', h1', hn', hf.trans h3', hcs', hsub _ h5'⟩
  · -- children_ok
    intro q qn cs hq hcs
    have hold : ∀ c cn, deref s1 c = some cn → cn.m_parent = some q →
        ∃ cn', deref (attach s1 hash path p pn) c = some cn' ∧ cn'.m_parent = some q := by
      intro c cn hc hcp
      obtain ⟨n', hn', -, -, -, -, hpar, -⟩ := attach_old hash path hpn hc
      exact ⟨n', hn', hpar.trans hcp⟩
    rcases attach_live_cases hpn hq with ⟨rfl, rfl⟩ | ⟨rfl, rfl⟩ | ⟨h1, h2, h3⟩
    · simp [new_node] at hcs
    · simp only [Option.some.injEq] at hcs
      subst hcs
      cases hd : pn.m_dir with
      | none =>
        simp only [Option.getD_none, List.nil_append, List.nodup_cons, List.not_mem_nil,
          not_false_eq_true, List.nodup_nil, and_self, List.mem_singleton, forall_eq, true_and]
        exact ⟨hp, _, attach_deref_new _ _ _ _ hp, rfl⟩
      | some cs0 =>
        obtain ⟨hnd, hmem⟩ := hs.children_ok _ _ _ hpn hd
        simp only [Option.getD_some]
        constructor
        · refine List.Nodup.append hnd (by simp) ?_
          intro x hx hx'
          simp only [List.mem_singleton] at hx'
          subst hx'
          obtain ⟨-, cn, hcn, -⟩ := hmem _ hx
          exact hfresh hcn rfl
        · intro c hc
          rw [List.mem_append, List.mem_singleton] at hc
          rcases hc with hc | rfl
          · obtain ⟨hlt, cn, hcn, hcp⟩ := hmem _ hc
            exact ⟨hlt, hold _ _ hcn hcp⟩
          · exact ⟨hp, _, attach_deref_new _ _ _ _ hp, rfl⟩
    · obtain ⟨hnd, hmem⟩ := hs.children_ok _ _ _ h3 hcs
      refine ⟨hnd, ?_⟩
      intro c hc
      obtain ⟨hlt, cn, hcn, hcp⟩ := hmem _ hc
      exact ⟨hlt, hold _ _ hcn hcp⟩
  · -- file_no_dir
    intro e n he hf
    rcases attach_live_cases hpn he with ⟨rfl, rfl⟩ | ⟨rfl, rfl⟩ | ⟨h1, h2, h3⟩
    · rfl
    · simp only at hf
      rw [hdir] at hf
      exact Bool.noConfusion hf
    · exact hs.file_no_dir _ _ h3 hf
  · -- root_flag
    intro e n he hr
    rcases attach_live_cases hpn he with ⟨rfl, rfl⟩ | ⟨rfl, rfl⟩ | ⟨h1, h2, h3⟩
    · simp [new_node] at hr
    · exact hdir
    · exact hs.root_flag _ _ h3 hr
  · -- root_parent
    intro e n he hr
    rcases attach_live_cases hpn he with ⟨rfl, rfl⟩ | ⟨rfl, rfl⟩ | ⟨h1, h2, h3⟩
    · simp [new_node] at hr
    · exact hs.root_parent _ pn hpn hr
    · exact hs.root_parent _ _ h3 hr
  · -- root_ptr
    intro r n hr hn
    have hr' : s1.m_root_node = some r := hr
    have hlt := hs.root_lt _ hr'
    rcases attach_live_cases hpn hn with ⟨rfl, rfl⟩ | ⟨rfl, rfl⟩ | ⟨h1, h2, h3⟩
    · omega
    · exact hdir
    · exact hs.root_ptr _ _ hr' h3
  · -- root_lt
    intro r hr
    have hr' : s1.m_root_node = some r := hr
    have hlt := hs.root_lt _ hr'
    rw [attach_heap_length]
    omega
  · -- file_key
    intro hlow k e n x hk he hf hkx
    have hlow' : s1.m_settings.m_lowercase_filesystem = true := hlow
    rw [attach_m_nodes, map_find_insert] at hk
    have hold : ∀ y, map_find k s1.m_nodes = some y → e = y → x.getLast? ≠ some SLASH := by
      intro y hy hey
      subst hey
      obtain ⟨n0, hn0, -⟩ := hs.index_live _ _ hy
      obtain ⟨n', hn', hf', -⟩ := attach_old hash path hpn hn0
      rw [he] at hn'
      cases Option.some.inj hn'
      exact hs.file_key hlow' k e n0 x hy hn0 (hf'.symm.trans hf) hkx
    split at hk
    · rename_i hkh
      subst hkh
      cases hm : map_find k s1.m_nodes with
      | none =>
        rw [hm] at hk
        simp only [Option.getD_none, Option.some.injEq] at hk
        subst hk
        rw [attach_deref_new _ _ _ _ hp] at he
        cases Option.some.inj he
        exact hkey hlow' hf hm x hkx
      | some y =>
        rw [hm] at hk
        simp only [Option.getD_some, Option.some.injEq] at hk
        exact hold y hm hk.symm
    · exact hold e hk rfl

/-! ### Key strings -/

theorem tolower_eq_zero {c : Nat} : tolower c = 0 ↔ c = 0 := by
  unfold tolower; split <;> omega

theorem tolower_eq_slash {c : Nat} : tolower c = SLASH ↔ c = SLASH := by
  unfold tolower SLASH; split <;> omega

theorem c_str_map_tolower (l : List Nat) : c_str (l.map tolower) = (c_str l).map tolower := by
  induction l with
  | nil => rfl
  | cons x xs ih =>
    unfold c_str at ih ⊢
    by_cases hx : x = 0
    · subst hx; simp [tolower]
    · have : tolower x ≠ 0 := fun h => hx (tolower_eq_zero.1 h)
      simp [List.takeWhile_cons, hx, this, ih]

theorem getLast?_map_tolower (l : List Nat) :
    (l.map tolower).getLast? = some SLASH ↔ l.getLast? = some SLASH := by
  rw [List.getLast?_map]
  cases l.getLast? with
  | none => simp
  | some c => simp [tolower_eq_slash]

theorem c_str_take {l : List Nat} {k : Nat} (h : (c_str l).length ≤ k) :
    c_str (l.take k) = c_str l := by
  induction l generalizing k with
  | nil => simp
  | cons x xs ih =>
    unfold c_str at ih h ⊢
    by_cases hx : x = 0
    · subst hx
      cases k <;> simp
    · cases k with
      | zero => simp [List.takeWhile_cons, hx] at h
      | succ k =>
        simp only [List.takeWhile_cons, bne_iff_ne, ne_eq, hx, not_false_eq_true, decide_True,
          if_true, List.length_cons, Nat.add_le_add_iff_right] at h
        simp [List.takeWhile_cons, hx, ih h]

theorem zero_not_mem_take {l : List Nat} {k : Nat} (h : k ≤ (c_str l).length) :
    0 ∉ l.take k := by
  induction l generalizing k with
  | nil => simp
  | cons x xs ih =>
    unfold c_str at ih h
    cases k with
    | zero => simp
    | succ k =>
      by_cases hx : x = 0
      · subst hx; simp at h
      · simp only [List.takeWhile_cons, bne_iff_ne, ne_eq, hx, not_false_eq_true, decide_True,
          if_true, List.length_cons, Nat.add_le_add_iff_right] at h
        simp only [List.take_succ_cons, List.mem_cons, not_or]
        exact ⟨fun e => hx e.symm, ih h⟩

theorem c_str_eq_self {l : List Nat} (h : 0 ∉ l) : c_str l = l := by
  unfold c_str
  rw [List.takeWhile_eq_self_iff]
  intro x hx
  simp only [bne_iff_ne, ne_eq, decide_eq_true_eq]
  rintro rfl
  exact h hx

theorem c_str_eq_take (l : List Nat) : c_str l = l.take (c_str l).length := by
  induction l with
  | nil => rfl
  | cons x xs ih =>
    unfold c_str at ih ⊢
    by_cases hx : x = 0
    · subst hx; simp
    · simp only [List.takeWhile_cons, bne_iff_ne, ne_eq, hx, not_false_eq_true, decide_True,
        if_true, List.length_cons, List.take_succ_cons, List.cons.injEq, true_and]
      exact ih

theorem c_str_length_le (l : List Nat) : (c_str l).length ≤ l.length := by
  unfold c_str
  exact (List.takeWhile_sublist _).length_le

/-- The key of the prefix `split_path` returns is the key of the path when the
C string of the path ends at or before the split. -/
theorem key_string_take_of_le {cfg : vfs_settings} {path : List Nat} {k : Nat}
    (hlow : cfg.m_lowercase_filesystem = true) (rest rest' : List Nat)
    (h : (c_str path).length ≤ k) :
    key_string cfg (path.take k) rest' = key_string cfg path rest := by
  unfold key_string
  rw [if_pos hlow, if_pos hlow, c_str_map_tolower, c_str_map_tolower, c_str_take h]

theorem key_string_split_of_case_sensitive {cfg : vfs_settings} (path rest : List Nat)
    (hlow : cfg.m_lowercase_filesystem = false) :
    key_string cfg (split_path path).1 ((split_path path).2 ++ rest) = key_string cfg path rest := by
  unfold key_string
  simp only [hlow, Bool.false_eq_true, if_false]
  rw [← List.append_assoc, split_path_append]

theorem key_string_of_no_zero {cfg : vfs_settings} {path : List Nat}
    (hlow : cfg.m_lowercase_filesystem = true) (rest : List Nat) (h : 0 ∉ path) :
    key_string cfg path rest = path.map tolower := by
  unfold key_string
  rw [if_pos hlow, c_str_map_tolower, c_str_eq_self h]

/-- When the C string of a path ends in a slash and the path does not, the
C string ends at or before the split. -/
theorem c_str_length_le_split_index {path : List Nat} (hlen : path.length < SIZE_MOD)
    (h1 : (c_str path).getLast? = some SLASH) (h2 : path.getLast? ≠ some SLASH) :
    (c_str path).length ≤ split_index path := by
  have hle := c_str_length_le path
  have hpre := c_str_eq_take path
  have hne : (c_str path).length ≠ path.length := by
    intro e
    rw [e, List.take_length] at hpre
    rw [hpre] at h1
    exact h2 h1
  have hpos : 0 < (c_str path).length := by
    rcases Nat.eq_zero_or_pos (c_str path).length with h | h
    · rw [List.length_eq_zero.1 h] at h1; simp at h1
    · exact h
  have hi : path[(c_str path).length - 1]? = some SLASH := by
    rw [List.getLast?_eq_getElem?] at h1
    rw [hpre, List.getElem?_take] at h1
    rw [← hpre] at h1
    simpa [show (c_str path).length - 1 < (c_str path).length by omega] using h1
  have := split_index_ge hlen hi (by omega)
  omega

theorem split_path_fst (path : List Nat) :
    (split_path path).1 = path.take (split_index path) := by
  simp only [split_path]

theorem hash_entry_split_eq (m_hasher : List Nat → Nat) {cfg : vfs_settings}
    {path rest : List Nat} (hleg : hash_entry m_hasher cfg path rest ≠ INVALID)
    (hkey : key_string cfg (split_path path).1 ((split_path path).2 ++ rest)
      = key_string cfg path rest) :
    hash_entry m_hasher cfg (split_path path).1 ((split_path path).2 ++ rest)
      = hash_entry m_hasher cfg path rest := by
  have h1 := legal_of_hash_entry_ne hleg
  have h2 : ¬ (cfg.m_ansi_paths = true ∧ (split_path path).1.any illegal = true) := by
    rw [split_path_fst]
    exact fun hc => h1 ⟨hc.1, any_illegal_take (split_index path) hc.2⟩
  rw [hash_entry_eq_key m_hasher _ h1, hash_entry_eq_key m_hasher _ h2, hkey]

theorem attach_fields (s1 : vfs) (hash : Nat) (path : List Nat) (p : Nat) (pn : node) :
    (attach s1 hash path p pn).m_settings = s1.m_settings ∧
    (attach s1 hash path p pn).m_root_node = s1.m_root_node ∧
    (attach s1 hash path p pn).m_initialized = s1.m_initialized := ⟨rfl, rfl, rfl⟩

/-- What `add_node` keeps and establishes, by induction on the recursion. -/
theorem add_node_inv {m_hasher : List Nat → Nat} (hinj : Function.Injective m_hasher) :
    ∀ (fuel : Nat) (s : vfs) (path rest : List Nat) (r : Option Nat) (s' : vfs),
      Inv m_hasher s → path.length < SIZE_MOD →
      add_node m_hasher fuel s path rest = .ok (r, s') →
      Inv m_hasher s' ∧
      s'.m_settings = s.m_settings ∧ s'.m_root_node = s.m_root_node ∧
      s'.m_initialized = s.m_initialized ∧
      (∀ e, r = some e → e < s'.heap.length) ∧
      (∀ e, r = some e → path ≠ [] →
        map_find (hash_entry m_hasher s.m_settings path rest) s'.m_nodes ≠ none) ∧
      (∀ e n, r = some e → deref s' e = some n →
        (path = [] ∨ path.getLast? = some SLASH) →
        (path = [] ∨ (s.m_settings.m_lowercase_filesystem = true ∧ 0 ∉ path) ∨
          get_node s (hash_entry m_hasher s.m_settings path rest) = none) →
        n.m_is_file = false) := by
  intro fuel
  induction fuel with
  | zero =>
    intro s path rest r s' _ _ h
    exact Except.noConfusion h
  | succ fuel ih =>
    intro s path rest r s' hs hlen h
    rcases add_node_ok_cases h with ⟨-, rfl, rfl⟩ | ⟨-, hp, rfl, rfl⟩ |
      ⟨hleg, hp, e, he, rfl, rfl⟩ | ⟨hleg, hp, hnone, p, s1, pn, hrec, hpn, rfl, rfl⟩
    · exact ⟨hs, rfl, rfl, rfl, fun e h => Option.noConfusion h,
        fun e h => Option.noConfusion h, fun e n h => Option.noConfusion h⟩
    · refine ⟨hs, rfl, rfl, rfl, fun e h => hs.root_lt _ h, fun e _ h => absurd hp h, ?_⟩
      intro e n hr hn _ _
      exact hs.root_ptr _ _ hr hn
    · refine ⟨hs, rfl, rfl, rfl, ?_, ?_, ?_⟩
      · intro e' he'
        cases Option.some.inj he'
        obtain ⟨n, hn, -⟩ := hs.index_live _ _ he
        exact deref_lt hn
      · intro e' _ _ hc
        unfold get_node at he
        rw [hc] at he
        exact Option.noConfusion he
      · intro e' n he' hn hslash hpre
        cases Option.some.inj he'
        rcases hslash with hslash | hslash
        · exact absurd hslash hp
        rcases hpre with hpre | ⟨hlow, hz⟩ | hpre
        · exact absurd hpre hp
        · cases hf : n.m_is_file with
          | false => rfl
          | true =>
            exfalso
            have hk := hash_entry_eq_key m_hasher rest (legal_of_hash_entry_ne hleg)
            rw [key_string_of_no_zero hlow rest hz] at hk
            exact hs.file_key hlow _ _ n _ he hn hf hk ((getLast?_map_tolower path).2 hslash)
        · rw [hpre] at he
          exact Option.noConfusion he
    · -- a node is created
      have hplen : (split_path path).1.length < SIZE_MOD :=
        Nat.lt_trans (split_path_fst_length_lt hp) hlen
      obtain ⟨hs1, hset, hroot, hinit, hplt, hpres, hdir⟩ :=
        ih s _ _ _ _ hs hplen hrec
      have hplt' : p < s1.heap.length := hplt p rfl
      have hpn1 : deref s1 p = some pn := by
        rw [deref_alloc_old _ (Nat.ne_of_lt hplt')] at hpn
        exact hpn
      have hkeyeq : (c_str path).length ≤ split_index path →
          s.m_settings.m_lowercase_filesystem = true →
          hash_entry m_hasher s.m_settings (split_path path).1 ((split_path path).2 ++ rest)
            = hash_entry m_hasher s.m_settings path rest := by
        intro hle hlow
        refine hash_entry_split_eq m_hasher hleg ?_
        rw [split_path_fst]
        exact key_string_take_of_le hlow rest _ hle
      have hpdir : pn.m_is_file = false := by
        refine hdir p pn rfl hpn1 (split_path_fst_slash path) ?_
        by_cases hpe : (split_path path).1 = []
        · exact Or.inl hpe
        · right
          cases hlow : s.m_settings.m_lowercase_filesystem with
          | true =>
            by_cases hle : (c_str path).length ≤ split_index path
            · right
              rw [hkeyeq hle hlow]
              exact hnone
            · left
              refine ⟨rfl, ?_⟩
              rw [split_path_fst]
              exact zero_not_mem_take (Nat.le_of_lt (Nat.lt_of_not_le hle))
          | false =>
            right
            rw [hash_entry_split_eq m_hasher hleg
              (key_string_split_of_case_sensitive path rest hlow)]
            exact hnone
      refine ⟨?_, ?_, ?_, ?_, ?_, ?_, ?_⟩
      · refine attach_inv hs1 hpn1 hpdir ?_
        intro hlow hfile hfree x hx hxs
        rw [hset] at hlow
        have hk := hash_entry_eq_key m_hasher rest (legal_of_hash_entry_ne hleg)
        rw [hx] at hk
        have hxk := hinj hk
        have hcs : (c_str path).getLast? = some SLASH := by
          rw [hxk] at hxs
          unfold key_string at hxs
          rw [if_pos hlow, c_str_map_tolower] at hxs
          exact (getLast?_map_tolower _).1 hxs
        have hnl : path.getLast? ≠ some SLASH := by
          intro hc
          simp [new_node, hc] at hfile
        have hle := c_str_length_le_split_index hlen hcs hnl
        have hpne : (split_path path).1 ≠ [] := by
          intro hc
          have h0 : (split_path path).1.length = 0 := by rw [hc]; rfl
          have hpos : 0 < (c_str path).length := by
            rcases Nat.eq_zero_or_pos (c_str path).length with h | h
            · rw [List.length_eq_zero.1 h] at hcs; simp at hcs
            · exact h
          have hpl : 0 < path.length := List.length_pos.2 hp
          rw [split_path_fst, List.length_take] at h0
          have hmin : 1 ≤ min (split_index path) path.length :=
            Nat.le_min.2 ⟨Nat.le_trans hpos hle, hpl⟩
          rw [h0] at hmin
          exact absurd hmin (by decide)
        have := hpres p rfl hpne
        rw [hkeyeq hle hlow] at this
        exact this hfree
      · exact hset
      · exact hroot
      · exact hinit
      · intro e he
        cases Option.some.inj he
        rw [attach_heap_length]
        omega
      · intro e _ _
        rw [attach_m_nodes, map_find_insert, if_pos rfl]
        exact Option.noConfusion
      · intro e n he hn hslash _
        cases Option.some.inj he
        rw [attach_deref_new _ _ _ _ hplt'] at hn
        cases Option.some.inj hn
        rcases hslash with hslash | hslash
        · exact absurd hslash hp
        · simp [new_node, hslash]

/-! ### delete_node -/

theorem delete_node_ok_cases {s s' : vfs} {e : Nat} {b : Bool}
    (h : delete_node s (some e) = .ok (b, s')) :
    (b = false ∧ s' = s) ∨
    (b = true ∧ ∃ n v, deref s e = some n ∧ map_find n.m_hash s.m_nodes = some v ∧
      ((n.m_parent = none ∧ n.m_is_root = true ∧ s' = free (erased s n.m_hash) e) ∨
       (∃ p pn, n.m_parent = some p ∧ deref s p = some pn ∧ pn.m_is_file = false ∧
          ((pn.m_dir = none ∧ s' = free (erased s n.m_hash) e) ∨
           (∃ cs, pn.m_dir = some cs ∧ e ∈ cs ∧
              s' = free (store (erased s n.m_hash) p
                { pn with m_dir := some (cs.erase e) }) e))))) := by
  unfold delete_node at h
  simp only at h
  split at h
  · exact Except.noConfusion h
  · rename_i n hn
    split at h
    · simp only [Except.ok.injEq, Prod.mk.injEq] at h
      exact Or.inl ⟨h.1.symm, h.2.symm⟩
    · rename_i v hv
      split at h
      · rename_i hpar
        split at h
        · exact Except.noConfusion h
        · rename_i hroot
          simp only [Except.ok.injEq, Prod.mk.injEq] at h
          refine Or.inr ⟨h.1.symm, n, v, hn, hv, Or.inl ⟨hpar, ?_, h.2.symm⟩⟩
          simpa using hroot
      · rename_i p hpar
        split at h
        · exact Except.noConfusion h
        · rename_i pn hpn
          split at h
          · exact Except.noConfusion h
          · rename_i hfile
            have hfile' : pn.m_is_file = false := by simpa using hfile
            split at h
            · rename_i hdir
              simp only [Except.ok.injEq, Prod.mk.injEq] at h
              exact Or.inr ⟨h.1.symm, n, v, hn, hv,
                Or.inr ⟨p, pn, hpar, hpn, hfile', Or.inl ⟨hdir, h.2.symm⟩⟩⟩
            · rename_i cs hdir
              split at h
              · rename_i hrm
                simp only [Except.ok.injEq, Prod.mk.injEq] at h
                have hmem : e ∈ cs := by
                  unfold remove_child at hrm
                  by_contra hc
                  simp [hc] at hrm
                have h2 : (remove_child cs e).2 = cs.erase e := by
                  simp [remove_child, hmem]
                rw [h2] at h
                exact Or.inr ⟨h.1.symm, n, v, hn, hv,
                  Or.inr ⟨p, pn, hpar, hpn, hfile', Or.inr ⟨cs, hdir, hmem, h.2.symm⟩⟩⟩
              · exact Except.noConfusion h

theorem removed_of_root {m_hasher : List Nat → Nat} {s : vfs} {e : Nat} {n : node}
    (hs : Inv m_hasher s) (hn : deref s e = some n) (hpar : n.m_parent = none) :
    Removed s (free (erased s n.m_hash) e) e n.m_hash := by
  refine ⟨rfl, rfl, rfl, rfl, by simp [free, erased], deref_free_same _ _, ?_, ?_⟩
  · intro q nq hq hnq
    rw [deref_free_ne hq]
    show deref s q = _
    rw [hnq]
    cases hd : nq.m_dir with
    | none =>
      have : nq = { nq with m_dir := none } := by rw [← hd]
      rw [this]; rfl
    | some cs =>
      have hmem : e ∉ cs := by
        intro hc
        obtain ⟨-, cn, hcn, hcp⟩ := (hs.children_ok _ _ _ hnq hd).2 _ hc
        rw [hn] at hcn
        cases Option.some.inj hcn
        rw [hpar] at hcp
        exact Option.noConfusion hcp
      have : nq = { nq with m_dir := some cs } := by rw [← hd]
      rw [this]
      simp [List.erase_of_not_mem hmem]
  · intro q hq
    by_cases h : q = e
    · subst h; exact deref_free_same _ _
    · rw [deref_free_ne h]; exact hq

theorem removed_of_child {m_hasher : List Nat → Nat} {s : vfs} {e p : Nat} {n pn : node}
    {cs : List Nat} (hs : Inv m_hasher s) (hn : deref s e = some n)
    (hpar : n.m_parent = some p) (hpn : deref s p = some pn) (hcs : pn.m_dir = some cs) :
    Removed s (free (store (erased s n.m_hash) p { pn with m_dir := some (cs.erase e) }) e)
      e n.m_hash := by
  refine ⟨rfl, rfl, rfl, rfl, by simp [free, store, erased], deref_free_same _ _, ?_, ?_⟩
  · intro q nq hq hnq
    rw [deref_free_ne hq]
    by_cases hqp : q = p
    · subst hqp
      rw [deref_store_same _ (show q < (erased s n.m_hash).heap.length from deref_lt hpn)]
      rw [hpn] at hnq
      cases Option.some.inj hnq
      simp [hcs]
    · rw [deref_store_ne _ hqp]
      show deref s q = _
      rw [hnq]
      cases hd : nq.m_dir with
      | none =>
        have : nq = { nq with m_dir := none } := by rw [← hd]
        rw [this]; rfl
      | some cs' =>
        have hmem : e ∉ cs' := by
          intro hc
          obtain ⟨-, cn, hcn, hcp⟩ := (hs.children_ok _ _ _ hnq hd).2 _ hc
          rw [hn] at hcn
          cases Option.some.inj hcn
          rw [hpar] at hcp
          exact hqp (Option.some.inj hcp).symm
        have : nq = { nq with m_dir := some cs' } := by rw [← hd]
        rw [this]
        simp [List.erase_of_not_mem hmem]
  · intro q hq
    by_cases h : q = e
    · subst h; exact deref_free_same _ _
    · rw [deref_free_ne h]
      by_cases hqp : q = p
      · subst hqp
        rw [hpn] at hq
        exact Option.noConfusion hq
      · rw [deref_store_ne _ hqp]; exact hq

/-- Under the invariant, a successful `delete_node` removes exactly the node. -/
theorem delete_node_removed {m_hasher : List Nat → Nat} {s s' : vfs} {e : Nat} {b : Bool}
    (hs : Inv m_hasher s) (h : delete_node s (some e) = .ok (b, s')) :
    (b = false ∧ s' = s) ∨
    (b = true ∧ ∃ n v, deref s e = some n ∧ map_find n.m_hash s.m_nodes = some v ∧
      Removed s s' e n.m_hash) := by
  rcases delete_node_ok_cases h with h1 | ⟨hb, n, v, hn, hv, h2⟩
  · exact Or.inl h1
  · refine Or.inr ⟨hb, n, v, hn, hv, ?_⟩
    rcases h2 with ⟨hpar, -, rfl⟩ | ⟨p, pn, hpar, hpn, -, h3⟩
    · exact removed_of_root hs hn hpar
    · have hroot : n.m_is_root = false := by
        cases hr : n.m_is_root with
        | false => rfl
        | true =>
          have := hs.root_parent _ _ hn hr
          rw [hpar] at this
          exact Option.noConfusion this
      obtain ⟨p', pn', cs, h4, h5, -, h6, -⟩ := hs.parent_ok _ _ hn hroot
      rw [hpar] at h4
      cases Option.some.inj h4
      rw [hpn] at h5
      cases Option.some.inj h5
      rcases h3 with ⟨hnone, -⟩ | ⟨cs', hcs', -, rfl⟩
      · rw [h6] at hnone
        exact Option.noConfusion hnone
      · exact removed_of_child hs hn hpar hpn hcs'

theorem removed_live {s s' : vfs} {e h : Nat} (hr : Removed s s' e h) {q : Nat} {n' : node}
    (hq : deref s' q = some n') :
    q ≠ e ∧ ∃ n, deref s q = some n ∧
      n' = { n with m_dir := n.m_dir.map (fun cs => cs.erase e) } := by
  have hqe : q ≠ e := by
    rintro rfl
    rw [hr.gone] at hq
    exact Option.noConfusion hq
  refine ⟨hqe, ?_⟩
  cases hd : deref s q with
  | none =>
    rw [hr.dead _ hd] at hq
    exact Option.noConfusion hq
  | some n =>
    rw [hr.kept _ _ hqe hd] at hq
    exact ⟨n, rfl, (Option.some.inj hq).symm⟩

theorem removed_shrinks {s s' : vfs} {e h : Nat} (hr : Removed s s' e h) : Shrinks s s' := by
  intro q n' hq
  obtain ⟨-, n, hn, rfl⟩ := removed_live hr hq
  refine ⟨n, hn, ⟨rfl, rfl, rfl, rfl, rfl⟩, ?_, ?_⟩
  · intro hnone
    simp [hnone]
  · intro cs' hcs'
    cases hd : n.m_dir with
    | none => simp [hd] at hcs'
    | some cs =>
      simp only [hd, Option.map_some', Option.some.injEq] at hcs'
      subst hcs'
      exact ⟨cs, rfl, List.erase_sublist _ _⟩

theorem shrinks_refl (s : vfs) : Shrinks s s :=
  fun _ n' h => ⟨n', h, ⟨rfl, rfl, rfl, rfl, rfl⟩, fun h => h,
    fun cs' h => ⟨cs', h, List.Sublist.refl _⟩⟩

theorem shrinks_trans {s1 s2 s3 : vfs} (h12 : Shrinks s1 s2) (h23 : Shrinks s2 s3) :
    Shrinks s1 s3 := by
  intro q n3 hq
  obtain ⟨n2, hn2, hf2, ha, hb⟩ := h23 q n3 hq
  obtain ⟨n1, hn1, hf1, hc, hd⟩ := h12 q n2 hn2
  refine ⟨n1, hn1, ⟨hf2.1.trans hf1.1, hf2.2.1.trans hf1.2.1, hf2.2.2.1.trans hf1.2.2.1,
    hf2.2.2.2.1.trans hf1.2.2.2.1, hf2.2.2.2.2.trans hf1.2.2.2.2⟩, fun h => ha (hc h), ?_⟩
  intro cs3 hcs3
  obtain ⟨cs2, hcs2, hs32⟩ := hb cs3 hcs3
  obtain ⟨cs1, hcs1, hs21⟩ := hd cs2 hcs2
  exact ⟨cs1, hcs1, hs32.trans hs21⟩

theorem childless_of_shrinks {s s' : vfs} {e : Nat} (h : Shrinks s s') (hc : childless s e) :
    childless s' e := by
  intro n' hn'
  obtain ⟨n, hn, -, ha, hb⟩ := h e n' hn'
  rcases hc n hn with h1 | h1
  · exact Or.inl (ha h1)
  · cases hd : n'.m_dir with
    | none => exact Or.inl rfl
    | some cs' =>
      obtain ⟨cs, hcs, hsub⟩ := hb cs' hd
      rw [h1] at hcs
      cases Option.some.inj hcs
      exact Or.inr (by rw [List.sublist_nil.1 hsub])

/-- Deleting a node that has no child keeps the invariant. -/
theorem removed_inv {m_hasher : List Nat → Nat} {s s' : vfs} {e : Nat} {n : node}
    (hr : Removed s s' e n.m_hash) (hs : Inv m_hasher s) (hn : deref s e = some n)
    (hc : childless s e) : Inv m_hasher s' := by
  have hkeep : ∀ q nq, q ≠ e → deref s q = some nq →
      deref s' q = some { nq with m_dir := nq.m_dir.map (fun cs => cs.erase e) } := hr.kept
  have hfind : ∀ k x, map_find k s'.m_nodes = some x →
      map_find k s.m_nodes = some x ∧ x ≠ e := by
    intro k x hk
    rw [hr.nodes] at hk
    have hkh : k ≠ n.m_hash := by
      rintro rfl
      rw [map_find_erase_self _ hs.keys_nodup] at hk
      exact Option.noConfusion hk
    rw [map_find_erase_ne hkh] at hk
    refine ⟨hk, ?_⟩
    rintro rfl
    obtain ⟨nx, hnx, hh⟩ := hs.index_live _ _ hk
    rw [hn] at hnx
    cases Option.some.inj hnx
    exact hkh hh.symm
  constructor
  · rw [hr.nodes]
    exact map_erase_nodup _ hs.keys_nodup
  · intro k x hk
    obtain ⟨hk', hxe⟩ := hfind k x hk
    obtain ⟨nx, hnx, hh⟩ := hs.index_live _ _ hk'
    exact ⟨_, hkeep _ _ hxe hnx, hh⟩
  · intro q n' hq hroot
    obtain ⟨hqe, nq, hnq, rfl⟩ := removed_live hr hq
    obtain ⟨p, pn, cs, h1, h2, h3, h4, h5⟩ := hs.parent_ok _ _ hnq hroot
    have hpe : p ≠ e := by
      rintro rfl
      rw [hn] at h2
      cases Option.some.inj h2
      rcases hc _ hn with h | h
      · rw [h4] at h; exact Option.noConfusion h
      · rw [h4] at h
        cases Option.some.inj h
        simp at h5
    refine ⟨p, _, cs.erase e, h1, hkeep _ _ hpe h2, h3, by simp [h4], ?_⟩
    exact (List.mem_erase_of_ne hqe).2 h5
  · intro q n' cs' hq hcs'
    obtain ⟨hqe, nq, hnq, rfl⟩ := removed_live hr hq
    cases hd : nq.m_dir with
    | none => simp [hd] at hcs'
    | some cs =>
      simp only [hd, Option.map_some', Option.some.injEq] at hcs'
      subst hcs'
      obtain ⟨hnd, hmem⟩ := hs.children_ok _ _ _ hnq hd
      refine ⟨hnd.erase _, ?_⟩
      intro c hcm
      have hce : c ≠ e := fun h => by
        subst h
        exact (List.Nodup.not_mem_erase hnd) hcm
      obtain ⟨hlt, cn, hcn, hcp⟩ := hmem c (List.mem_of_mem_erase hcm)
      exact ⟨hlt, _, hkeep _ _ hce hcn, hcp⟩
  · intro q n' hq hf
    obtain ⟨hqe, nq, hnq, rfl⟩ := removed_live hr hq
    have := hs.file_no_dir _ _ hnq hf
    simp [this]
  · intro q n' hq hroot
    obtain ⟨hqe, nq, hnq, rfl⟩ := removed_live hr hq
    exact hs.root_flag _ nq hnq hroot
  · intro q n' hq hroot
    obtain ⟨hqe, nq, hnq, rfl⟩ := removed_live hr hq
    exact hs.root_parent _ nq hnq hroot
  · intro r n' hrn hq
    rw [hr.root] at hrn
    obtain ⟨hqe, nq, hnq, rfl⟩ := removed_live hr hq
    exact hs.root_ptr _ nq hrn hnq
  · intro r hrn
    rw [hr.root] at hrn
    rw [hr.heap_length]
    exact hs.root_lt _ hrn
  · intro hlow k x n' y hk hq hf hky
    rw [hr.settings] at hlow
    obtain ⟨hk', hxe⟩ := hfind k x hk
    obtain ⟨hqe, nq, hnq, rfl⟩ := removed_live hr hq
    exact hs.file_key hlow k x nq y hk' hnq hf hky

/-! ### remove_node keeps the invariant -/

theorem keeps_refl {m_hasher : List Nat → Nat} {s : vfs} (hs : Inv m_hasher s) :
    Keeps m_hasher s s :=
  ⟨hs, shrinks_refl s, rfl, rfl, rfl, rfl⟩

theorem keeps_trans {m_hasher : List Nat → Nat} {s1 s2 s3 : vfs}
    (h12 : Keeps m_hasher s1 s2) (h23 : Keeps m_hasher s2 s3) : Keeps m_hasher s1 s3 :=
  ⟨h23.1, shrinks_trans h12.2.1 h23.2.1, h23.2.2.1.trans h12.2.2.1, h23.2.2.2.1.trans h12.2.2.2.1,
    h23.2.2.2.2.1.trans h12.2.2.2.2.1, h23.2.2.2.2.2.trans h12.2.2.2.2.2⟩

theorem delete_node_keeps {m_hasher : List Nat → Nat} {s s' : vfs} {e : Nat} {b : Bool}
    (hs : Inv m_hasher s) (hc : childless s e) (h : delete_node s (some e) = .ok (b, s')) :
    Keeps m_hasher s s' := by
  rcases delete_node_removed hs h with ⟨-, rfl⟩ | ⟨-, n, v, hn, -, hr⟩
  · exact keeps_refl hs
  · exact ⟨removed_inv hr hs hn hc, removed_shrinks hr, hr.settings, hr.root, hr.init, hr.heap_length⟩

theorem delete_recursive_sweep_keeps {m_hasher : List Nat → Nat} :
    ∀ (its : List Nat) (s s' : vfs) (b : Bool), Inv m_hasher s →
      (∀ it ∈ its, childless s it) → delete_recursive_sweep s its = .ok (b, s') →
      Keeps m_hasher s s' := by
  intro its
  induction its with
  | nil =>
    intro s s' b hs _ h
    simp only [delete_recursive_sweep, Except.ok.injEq, Prod.mk.injEq] at h
    rw [← h.2]
    exact keeps_refl hs
  | cons it its ih =>
    intro s s' b hs hc h
    unfold delete_recursive_sweep at h
    split at h
    · exact Except.noConfusion h
    · rename_i s1 h1
      simp only [Except.ok.injEq, Prod.mk.injEq] at h
      rw [← h.2]
      exact delete_node_keeps hs (hc it (List.mem_cons_self _ _)) h1
    · rename_i s1 h1
      have hk := delete_node_keeps hs (hc it (List.mem_cons_self _ _)) h1
      refine keeps_trans hk (ih s1 s' b hk.1 ?_ h)
      intro x hx
      exact childless_of_shrinks hk.2.1 (hc x (List.mem_cons_of_mem _ hx))

theorem delete_recursive_scan_keeps {m_hasher : List Nat → Nat}
    {self : vfs → Nat → Except Fault (Bool × vfs)}
    (hself : ∀ (s : vfs) (o : Nat) (b : Bool) (s1 : vfs), Inv m_hasher s →
      self s o = .ok (b, s1) → Keeps m_hasher s s1 ∧ (b = true → childless s1 o)) :
    ∀ (its : List Nat) (s : vfs) (acc : List Nat) (b : Bool) (s' : vfs) (acc' : List Nat),
      Inv m_hasher s → (∀ it ∈ acc, childless s it) →
      delete_recursive_scan self s its acc = .ok (b, s', acc') →
      Keeps m_hasher s s' ∧ (b = true → ∀ it ∈ acc', childless s' it) := by
  intro its
  induction its with
  | nil =>
    intro s acc b s' acc' hs hacc h
    simp only [delete_recursive_scan, Except.ok.injEq, Prod.mk.injEq] at h
    obtain ⟨-, rfl, rfl⟩ := h
    exact ⟨keeps_refl hs, fun _ => hacc⟩
  | cons it its ih =>
    intro s acc b s' acc' hs hacc h
    unfold delete_recursive_scan at h
    split at h
    · exact Except.noConfusion h
    · rename_i n hn
      split at h
      · split at h
        · exact Except.noConfusion h
        · rename_i s1 h1
          simp only [Except.ok.injEq, Prod.mk.injEq] at h
          obtain ⟨rfl, rfl, rfl⟩ := h
          exact ⟨(hself _ _ _ _ hs h1).1, fun h => Bool.noConfusion h⟩
        · rename_i s1 h1
          obtain ⟨hk, hch⟩ := hself _ _ _ _ hs h1
          have := ih s1 (acc ++ [it]) b s' acc' hk.1 (by
            intro x hx
            rw [List.mem_append, List.mem_singleton] at hx
            rcases hx with hx | rfl
            · exact childless_of_shrinks hk.2.1 (hacc x hx)
            · exact hch rfl) h
          exact ⟨keeps_trans hk this.1, this.2⟩
      · rename_i hcond
        refine ih s (acc ++ [it]) b s' acc' hs ?_ h
        intro x hx
        rw [List.mem_append, List.mem_singleton] at hx
        rcases hx with hx | rfl
        · exact hacc x hx
        · intro n' hn'
          rw [hn] at hn'
          cases Option.some.inj hn'
          cases hf : n.m_is_file with
          | true => exact Or.inl (hs.file_no_dir _ _ hn hf)
          | false =>
            cases hd : n.m_dir with
            | none => exact Or.inl rfl
            | some cs =>
              right
              simp only [hf, hd, Bool.not_false, Bool.true_and, dir_size, bne_iff_ne, ne_eq,
                Decidable.not_not] at hcond
              rw [List.length_eq_zero.1 hcond]

theorem delete_recursive_keeps {m_hasher : List Nat → Nat} :
    ∀ (fuel : Nat) (s : vfs) (o : Nat) (b : Bool) (s' : vfs), Inv m_hasher s →
      delete_recursive fuel s o = .ok (b, s') →
      Keeps m_hasher s s' ∧ (b = true → childless s' o) := by
  intro fuel
  induction fuel with
  | zero =>
    intro s o b s' _ h
    exact Except.noConfusion h
  | succ fuel ih =>
    intro s o b s' hs h
    unfold delete_recursive at h
    split at h
    · exact Except.noConfusion h
    · rename_i n hn
      split at h
      · simp only [Except.ok.injEq, Prod.mk.injEq] at h
        obtain ⟨rfl, rfl⟩ := h
        exact ⟨keeps_refl hs, fun h => Bool.noConfusion h⟩
      · rename_i cs hcs
        split at h
        · exact Except.noConfusion h
        · rename_i s1 acc1 h1
          simp only [Except.ok.injEq, Prod.mk.injEq] at h
          obtain ⟨rfl, rfl⟩ := h
          exact ⟨(delete_recursive_scan_keeps ih cs s [] false s1 acc1 hs
            (fun _ h => absurd h (List.not_mem_nil _)) h1).1, fun h => Bool.noConfusion h⟩
        · rename_i s1 acc1 h1
          obtain ⟨hk1, hch⟩ := delete_recursive_scan_keeps ih cs s [] true s1 acc1 hs
            (fun _ h => absurd h (List.not_mem_nil _)) h1
          split at h
          · exact Except.noConfusion h
          · rename_i s2 h2
            simp only [Except.ok.injEq, Prod.mk.injEq] at h
            obtain ⟨rfl, rfl⟩ := h
            exact ⟨keeps_trans hk1 (delete_recursive_sweep_keeps acc1 s1 s2 false hk1.1 (hch rfl) h2),
              fun h => Bool.noConfusion h⟩
          · rename_i s2 h2
            have hk2 := delete_recursive_sweep_keeps acc1 s1 s2 true hk1.1 (hch rfl) h2
            split at h
            · exact Except.noConfusion h
            · rename_i n2 hn2
              split at h
              · exact Except.noConfusion h
              · rename_i hsz
                simp only [Except.ok.injEq, Prod.mk.injEq] at h
                obtain ⟨rfl, rfl⟩ := h
                refine ⟨keeps_trans hk1 hk2, fun _ => ?_⟩
                intro n' hn'
                rw [hn2] at hn'
                cases Option.some.inj hn'
                cases hd : n2.m_dir with
                | none => exact Or.inl rfl
                | some cs2 =>
                  right
                  simp only [hd, Option.getD_some, dir_size, bne_iff_ne, ne_eq,
                    Decidable.not_not] at hsz
                  rw [List.length_eq_zero.1 hsz]

theorem remove_node_keeps {m_hasher : List Nat → Nat} {s s' : vfs} {e : Nat} {r b : Bool}
    (hs : Inv m_hasher s) (h : remove_node s e r = .ok (b, s')) : Keeps m_hasher s s' := by
  unfold remove_node at h
  split at h
  · exact Except.noConfusion h
  · rename_i n hn
    split at h
    · rename_i hf
      split at h
      · simp only [Except.ok.injEq, Prod.mk.injEq] at h
        rw [← h.2]
        exact keeps_refl hs
      · refine delete_node_keeps hs ?_ h
        intro n' hn'
        rw [hn] at hn'
        cases Option.some.inj hn'
        exact Or.inl (hs.file_no_dir _ _ hn hf)
    · split at h
      · simp only [Except.ok.injEq, Prod.mk.injEq] at h
        rw [← h.2]
        exact keeps_refl hs
      · split at h
        · exact Except.noConfusion h
        · rename_i s1 h1
          simp only [Except.ok.injEq, Prod.mk.injEq] at h
          rw [← h.2]
          exact (delete_recursive_keeps _ _ _ _ _ hs h1).1
        · rename_i s1 h1
          obtain ⟨hk, hch⟩ := delete_recursive_keeps _ _ _ _ _ hs h1
          exact keeps_trans hk (delete_node_keeps hk.1 (hch rfl) h)

theorem remove_keeps {m_hasher : List Nat → Nat} {s s' : vfs} {path : List Nat} {r b : Bool}
    (hs : Inv m_hasher s) (h : remove m_hasher s path r = .ok (b, s')) :
    Keeps m_hasher s s' := by
  unfold remove at h
  split at h
  · simp only [Except.ok.injEq, Prod.mk.injEq] at h
    rw [← h.2]
    exact keeps_refl hs
  · split at h
    · simp only [Except.ok.injEq, Prod.mk.injEq] at h
      rw [← h.2]
      exact keeps_refl hs
    · exact remove_node_keeps hs h

/-! ### Reachable states -/

theorem deref_vfs_new {m_hasher : List Nat → Nat} {cfg : vfs_settings} {q : Nat} {n : node}
    (h : deref (vfs_new m_hasher cfg) q = some n) :
    q = 0 ∧ n = ⟨false, true, none, m_hasher [], [], none⟩ := by
  cases q with
  | zero =>
    have h' : some (node.mk false true none (m_hasher []) [] none) = some n := h
    exact ⟨rfl, (Option.some.inj h').symm⟩
  | succ q => simp [deref, vfs_new] at h

theorem vfs_new_m_nodes (m_hasher : List Nat → Nat) (cfg : vfs_settings) :
    (vfs_new m_hasher cfg).m_nodes = [(m_hasher [], 0)] := rfl

theorem vfs_new_inv (m_hasher : List Nat → Nat) (cfg : vfs_settings) :
    Inv m_hasher (vfs_new m_hasher cfg) := by
  constructor
  · simp [vfs_new_m_nodes]
  · intro k e hk
    rw [vfs_new_m_nodes] at hk
    simp only [map_find] at hk
    split at hk
    · rename_i hkk
      cases Option.some.inj hk
      exact ⟨_, rfl, hkk⟩
    · exact Option.noConfusion hk
  · intro e n he hroot
    obtain ⟨-, rfl⟩ := deref_vfs_new he
    exact Bool.noConfusion hroot
  · intro p pn cs hp hcs
    obtain ⟨-, rfl⟩ := deref_vfs_new hp
    exact Option.noConfusion hcs
  · intro e n he hf
    obtain ⟨-, rfl⟩ := deref_vfs_new he
    rfl
  · intro e n he _
    obtain ⟨-, rfl⟩ := deref_vfs_new he
    rfl
  · intro e n he _
    obtain ⟨-, rfl⟩ := deref_vfs_new he
    rfl
  · intro r n _ hn
    obtain ⟨-, rfl⟩ := deref_vfs_new hn
    rfl
  · intro r hr
    cases Option.some.inj hr
    simp [vfs_new]
  · intro _ k e n x _ he hf _
    obtain ⟨-, rfl⟩ := deref_vfs_new he
    exact Bool.noConfusion hf

theorem add_ok_cases {m_hasher : List Nat → Nat} {s s' : vfs} {path rest : List Nat}
    {r : Option Nat} (h : add m_hasher s path rest = .ok (r, s')) :
    (s.m_initialized = false ∧ r = none ∧ s' = s) ∨
    (s.m_initialized = true ∧ add_node m_hasher (path.length + 1) s path rest = .ok (r, s') ∧
      ∀ e, r = some e → ∃ n, deref s' e = some n) := by
  unfold add at h
  split at h
  · rename_i hi
    simp only [Except.ok.injEq, Prod.mk.injEq] at h
    exact Or.inl ⟨by simpa using hi, h.1.symm, h.2.symm⟩
  · rename_i hi
    have hi' : s.m_initialized = true := by simpa using hi
    split at h
    · exact Except.noConfusion h
    · rename_i s1 h1
      simp only [Except.ok.injEq, Prod.mk.injEq] at h
      obtain ⟨rfl, rfl⟩ := h
      exact Or.inr ⟨hi', h1, fun e he => Option.noConfusion he⟩
    · rename_i e s1 h1
      split at h
      · exact Except.noConfusion h
      · rename_i n hn
        simp only [Except.ok.injEq, Prod.mk.injEq] at h
        obtain ⟨rfl, rfl⟩ := h
        refine Or.inr ⟨hi', h1, ?_⟩
        intro e' he'
        cases Option.some.inj he'
        exact ⟨n, hn⟩

theorem add_inv {m_hasher : List Nat → Nat} (hinj : Function.Injective m_hasher)
    {s s' : vfs} {path rest : List Nat} {r : Option Nat} (hs : Inv m_hasher s)
    (hlen : path.length < SIZE_MOD) (h : add m_hasher s path rest = .ok (r, s')) :
    Inv m_hasher s' := by
  rcases add_ok_cases h with ⟨-, -, rfl⟩ | ⟨-, h1, -⟩
  · exact hs
  · exact (add_node_inv hinj _ _ _ _ _ _ hs hlen h1).1

/-- Every reachable state satisfies the invariant. -/
theorem reach_inv {m_hasher : List Nat → Nat} (hinj : Function.Injective m_hasher)
    {cfg : vfs_settings} {s : vfs} (h : Reach m_hasher cfg s) : Inv m_hasher s := by
  induction h with
  | init => exact vfs_new_inv m_hasher cfg
  | add _ hlen hadd ih => exact add_inv hinj ih hlen hadd
  | remove _ hrem ih => exact (remove_keeps ih hrem).1

/-! ### The sample hasher -/

theorem two_pow_mul_odd_inj {a b m n : Nat} (hm : m % 2 = 1) (hn : n % 2 = 1)
    (h : 2 ^ a * m = 2 ^ b * n) : a = b ∧ m = n := by
  induction a generalizing b with
  | zero =>
    cases b with
    | zero => simpa using h
    | succ b =>
      exfalso
      rw [pow_zero, one_mul, pow_succ] at h
      have : m % 2 = 0 := by
        rw [h, Nat.mul_comm (2 ^ b) 2, Nat.mul_assoc]; exact Nat.mul_mod_right _ _
      omega
  | succ a ih =>
    cases b with
    | zero =>
      exfalso
      rw [pow_zero, one_mul, pow_succ] at h
      have : n % 2 = 0 := by
        rw [← h, Nat.mul_comm (2 ^ a) 2, Nat.mul_assoc]; exact Nat.mul_mod_right _ _
      omega
    | succ b =>
      rw [pow_succ, pow_succ, Nat.mul_right_comm, Nat.mul_right_comm (2 ^ b)] at h
      have h' := Nat.eq_of_mul_eq_mul_right (by decide : 0 < 2) h
      obtain ⟨h1, h2⟩ := ih h'
      exact ⟨by rw [h1], h2⟩

theorem sample_hasher_even (s : List Nat) : sample_hasher s % 2 = 0 := by
  cases s with
  | nil => rfl
  | cons b bs =>
    unfold sample_hasher
    rw [pow_succ, Nat.mul_assoc, Nat.mul_comm, Nat.mul_assoc]
    exact Nat.mul_mod_right _ _

theorem sample_hasher_injective : Function.Injective sample_hasher := by
  intro s
  induction s with
  | nil =>
    intro t h
    cases t with
    | nil => rfl
    | cons b bs =>
      exfalso
      unfold sample_hasher at h
      have : 0 < 2 ^ (b + 1) * (sample_hasher bs + 1) := Nat.mul_pos (by positivity) (by omega)
      omega
  | cons a as ih =>
    intro t h
    cases t with
    | nil =>
      exfalso
      unfold sample_hasher at h
      have : 0 < 2 ^ (a + 1) * (sample_hasher as + 1) := Nat.mul_pos (by positivity) (by omega)
      omega
    | cons b bs =>
      simp only [sample_hasher] at h
      have ha := sample_hasher_even as
      have hb := sample_hasher_even bs
      obtain ⟨h1, h2⟩ := two_pow_mul_odd_inj (by omega) (by omega) h
      have h3 : sample_hasher as = sample_hasher bs := by omega
      rw [ih h3]
      have : a = b := by omega
      rw [this]

theorem sample_hasher_ne_invalid (s : List Nat) : sample_hasher s ≠ INVALID := by
  intro h
  have := sample_hasher_even s
  rw [h] at this
  revert this
  decide

/-! ### Forward evaluation of add_node and delete_node -/

theorem add_node_invalid (m_hasher : List Nat → Nat) (fuel : Nat) (s : vfs)
    (path rest : List Nat) (h : hash_entry m_hasher s.m_settings path rest = INVALID) :
    add_node m_hasher (fuel + 1) s path rest = .ok (none, s) := by
  unfold add_node
  simp [h]

theorem add_illegal (m_hasher : List Nat → Nat) (s : vfs) (path rest : List Nat)
    (hansi : s.m_settings.m_ansi_paths = true) (hill : path.any illegal = true) :
    add m_hasher s path rest = .ok (none, s) := by
  unfold add
  split
  · rfl
  · rw [add_node_invalid m_hasher _ s path rest (hash_entry_eq_invalid m_hasher rest hansi hill)]

theorem any_illegal_of_byte {path : List Nat} (hbyte : ∃ c ∈ path, c < 32 ∨ 126 < c) :
    path.any illegal = true := by
  obtain ⟨c, hc, hc'⟩ := hbyte
  rw [List.any_eq_true]
  refine ⟨c, hc, ?_⟩
  unfold illegal
  rcases hc' with h | h <;> simp [h]

theorem add_node_root (m_hasher : List Nat → Nat) (fuel : Nat) (s : vfs) (rest : List Nat)
    (h : hash_entry m_hasher s.m_settings [] rest ≠ INVALID) :
    add_node m_hasher (fuel + 1) s [] rest = .ok (s.m_root_node, s) := by
  unfold add_node
  simp [h]

theorem add_node_found (m_hasher : List Nat → Nat) (fuel : Nat) {s : vfs}
    {path : List Nat} (rest : List Nat) {e : Nat}
    (h1 : hash_entry m_hasher s.m_settings path rest ≠ INVALID) (h2 : path ≠ [])
    (h3 : get_node s (hash_entry m_hasher s.m_settings path rest) = some e) :
    add_node m_hasher (fuel + 1) s path rest = .ok (some e, s) := by
  unfold add_node
  simp [h1, h2, h3]

theorem add_node_ok_fields {m_hasher : List Nat → Nat} :
    ∀ (fuel : Nat) (s : vfs) (path rest : List Nat) (r : Option Nat) (s' : vfs),
      add_node m_hasher fuel s path rest = .ok (r, s') →
      s'.m_settings = s.m_settings ∧ s'.m_initialized = s.m_initialized ∧
        s'.m_root_node = s.m_root_node := by
  intro fuel
  induction fuel with
  | zero =>
    intro s path rest r s' h
    exact Except.noConfusion h
  | succ fuel ih =>
    intro s path rest r s' h
    rcases add_node_ok_cases h with ⟨-, -, rfl⟩ | ⟨-, -, -, rfl⟩ |
      ⟨-, -, e, -, -, rfl⟩ | ⟨-, -, -, p, s1, pn, hrec, -, -, rfl⟩
    · exact ⟨rfl, rfl, rfl⟩
    · exact ⟨rfl, rfl, rfl⟩
    · exact ⟨rfl, rfl, rfl⟩
    · exact ih s _ _ _ s1 hrec

theorem delete_node_child {s : vfs} {e v p : Nat} {n pn : node} {cs : List Nat}
    (hn : deref s e = some n) (hv : map_find n.m_hash s.m_nodes = some v)
    (hpar : n.m_parent = some p) (hpn : deref s p = some pn) (hfile : pn.m_is_file = false)
    (hcs : pn.m_dir = some cs) (hmem : e ∈ cs) :
    delete_node s (some e) =
      .ok (true, free (store (erased s n.m_hash) p { pn with m_dir := some (cs.erase e) }) e) := by
  have hpn' : deref { s with m_nodes := map_erase n.m_hash s.m_nodes } p = some pn := hpn
  unfold delete_node
  simp only [hn, hv, hpar, hpn', hfile, hcs, remove_child, hmem, if_true]
  rfl

theorem get_eq_some {m_hasher : List Nat → Nat} {s : vfs} {path : List Nat} {e : Nat}
    (h : get m_hasher s path = some e) :
    s.m_initialized = true ∧ map_find (m_hasher path) s.m_nodes = some e := by
  unfold get at h
  cases hi : s.m_initialized with
  | true =>
    rw [hi] at h
    exact ⟨rfl, h⟩
  | false =>
    rw [hi] at h
    exact Option.noConfusion h

theorem reach_settings {m_hasher : List Nat → Nat} (hinj : Function.Injective m_hasher)
    {cfg : vfs_settings} {s : vfs} (h : Reach m_hasher cfg s) : s.m_settings = cfg := by
  induction h with
  | init => rfl
  | @add s s' path rest r hr hlen hadd ih =>
    rcases add_ok_cases hadd with ⟨-, -, rfl⟩ | ⟨-, h1, -⟩
    · exact ih
    · exact (add_node_inv hinj _ _ _ _ _ _ (reach_inv hinj hr) hlen h1).2.1.trans ih
  | @remove s s' path recursive b hr hrem ih =>
    exact (remove_keeps (reach_inv hinj hr) hrem).2.2.1.trans ih

theorem reach_add_all {m_hasher : List Nat → Nat} {cfg : vfs_settings} :
    ∀ (ps : List (List Nat)) (s : vfs), Reach m_hasher cfg s →
      (∀ p ∈ ps, p.length < SIZE_MOD) → Reach m_hasher cfg (add_all m_hasher s ps) := by
  intro ps
  induction ps with
  | nil => intro s hs _; exact hs
  | cons p ps ih =>
    intro s hs hlen
    unfold add_all
    split
    · rename_i r s1 h1
      exact ih s1 (Reach.add hs (hlen p (List.mem_cons_self _ _)) h1)
        (fun q hq => hlen q (List.mem_cons_of_mem _ hq))
    · exact ih s hs (fun q hq => hlen q (List.mem_cons_of_mem _ hq))

/-! ### add returns -/

theorem reach_fields {m_hasher : List Nat → Nat} (hinj : Function.Injective m_hasher)
    {cfg : vfs_settings} {s : vfs} (h : Reach m_hasher cfg s) :
    s.m_initialized = true ∧ s.m_root_node = some 0 := by
  induction h with
  | init => exact ⟨rfl, rfl⟩
  | @add s s' path rest r hr hlen hadd ih =>
    rcases add_ok_cases hadd with ⟨-, -, rfl⟩ | ⟨-, h1, -⟩
    · exact ih
    · obtain ⟨-, h2, h3⟩ := add_node_ok_fields _ _ _ _ _ _ h1
      exact ⟨h2.trans ih.1, h3.trans ih.2⟩
  | @remove s s' path recursive b hr hrem ih =>
    have hk := remove_keeps (reach_inv hinj hr) hrem
    exact ⟨hk.2.2.2.2.1.trans ih.1, hk.2.2.2.1.trans ih.2⟩

/-- A reachable state whose root has not been destroyed is constructed. -/
theorem reach_constructed {m_hasher : List Nat → Nat} (hinj : Function.Injective m_hasher)
    {cfg : vfs_settings} {s : vfs} (h : Reach m_hasher cfg s) {n : node}
    (hroot : deref s 0 = some n) : Constructed s := by
  obtain ⟨hinit, hr⟩ := reach_fields hinj h
  refine ⟨hinit, ⟨0, n, hr, hroot⟩, ?_⟩
  intro k e hk
  obtain ⟨n', hn', -⟩ := (reach_inv hinj h).index_live k e hk
  exact ⟨n', hn'⟩

/-! ### Paths without NUL under case folding -/

theorem illegal_tolower (c : Nat) : illegal (tolower c) = illegal c := by
  rw [Bool.eq_iff_iff]
  unfold illegal tolower
  simp only [Bool.or_eq_true, decide_eq_true_eq]
  split <;> omega

theorem any_illegal_map_tolower (path : List Nat) :
    (path.map tolower).any illegal = path.any illegal := by
  induction path with
  | nil => rfl
  | cons c cs ih => simp only [List.map_cons, List.any_cons, illegal_tolower, ih]

theorem zero_not_mem_of_fold {p q : List Nat} (hfold : p.map tolower = q.map tolower)
    (hp : 0 ∉ p) : 0 ∉ q := by
  intro hq
  have h1 : tolower 0 ∈ q.map tolower := List.mem_map_of_mem _ hq
  rw [← hfold] at h1
  obtain ⟨c, hc, hc'⟩ := List.mem_map.1 h1
  have : c = 0 := tolower_eq_zero.1 (by rw [hc']; rfl)
  exact hp (this ▸ hc)

theorem hash_entry_fold (m_hasher : List Nat → Nat) {cfg : vfs_settings}
    {path : List Nat} (rest : List Nat) (hlow : cfg.m_lowercase_filesystem = true)
    (h0 : 0 ∉ path) (hleg : ¬ (cfg.m_ansi_paths = true ∧ path.any illegal = true)) :
    hash_entry m_hasher cfg path rest = m_hasher (path.map tolower) := by
  rw [hash_entry_eq_key m_hasher rest hleg, key_string_of_no_zero hlow rest h0]

/-- The recursion of `add_node` on a path without NUL enters no key in the
index but hashes of strings that are as long as the path at most. -/
theorem add_node_fresh {m_hasher : List Nat → Nat} :
    ∀ (fuel : Nat) (s : vfs) (path rest : List Nat) (r : Option Nat) (s' : vfs),
      s.m_settings.m_lowercase_filesystem = true → 0 ∉ path →
      add_node m_hasher fuel s path rest = .ok (r, s') →
      ∀ k, map_find k s.m_nodes = none → (∀ x, x.length ≤ path.length → k ≠ m_hasher x) →
        map_find k s'.m_nodes = none := by
  intro fuel
  induction fuel with
  | zero =>
    intro s path rest r s' _ _ h
    exact Except.noConfusion h
  | succ fuel ih =>
    intro s path rest r s' hlow h0 h k hk hx
    rcases add_node_ok_cases h with ⟨-, -, rfl⟩ | ⟨-, -, -, rfl⟩ |
      ⟨-, -, e, -, -, rfl⟩ | ⟨hleg, hp, -, p, s1, pn, hrec, -, -, rfl⟩
    · exact hk
    · exact hk
    · exact hk
    · have h0' : 0 ∉ (split_path path).1 := by
        rw [split_path_fst]
        exact fun hc => h0 (List.mem_of_mem_take hc)
      have h1 := ih s _ _ _ _ hlow h0' hrec k hk
        (fun x hxl => hx x (Nat.le_trans hxl (Nat.le_of_lt (split_path_fst_length_lt hp))))
      rw [attach_m_nodes, map_find_insert,
        hash_entry_fold m_hasher rest hlow h0 (legal_of_hash_entry_ne hleg)]
      have hne : k ≠ m_hasher (path.map tolower) := hx _ (by simp)
      rw [if_neg hne]
      exact h1

/-- Under case folding, once `add` has returned the node `e` for a path
without NUL, `add` of any path with the same folding returns `e` and changes
nothing. -/
theorem add_again {m_hasher : List Nat → Nat} (hinj : Function.Injective m_hasher)
    {s s1 : vfs} {p q rest rest' : List Nat} {e : Nat}
    (hlow : s.m_settings.m_lowercase_filesystem = true) (hp : 0 ∉ p)
    (hfold : p.map tolower = q.map tolower)
    (h : add m_hasher s p rest = .ok (some e, s1)) :
    add m_hasher s1 q rest' = .ok (some e, s1) := by
  rcases add_ok_cases h with ⟨-, h2, -⟩ | ⟨hinit, h1, hlive⟩
  · exact Option.noConfusion h2
  obtain ⟨n, hn⟩ := hlive e rfl
  have hq : 0 ∉ q := zero_not_mem_of_fold hfold hp
  have hlen : p.length = q.length := by
    have := congrArg List.length hfold
    simpa using this
  have hany : q.any illegal = p.any illegal := by
    rw [← any_illegal_map_tolower q, ← hfold, any_illegal_map_tolower]
  -- the hash of `q` is the hash of `p`, whatever the buffer behind the views
  have heq : ∀ cfg : vfs_settings, cfg = s.m_settings →
      hash_entry m_hasher s.m_settings p rest ≠ INVALID →
      hash_entry m_hasher cfg q rest' = hash_entry m_hasher s.m_settings p rest := by
    intro cfg hcfg hv
    subst hcfg
    have hlegp := legal_of_hash_entry_ne hv
    have hlegq : ¬ (s.m_settings.m_ansi_paths = true ∧ q.any illegal = true) := by
      rw [hany]; exact hlegp
    rw [hash_entry_fold m_hasher rest' hlow hq hlegq,
      hash_entry_fold m_hasher rest hlow hp hlegp, hfold]
  -- the second call finds `e` (or, for the empty path, the root)
  have key : s1.m_initialized = true ∧
      add_node m_hasher (q.length + 1) s1 q rest' = .ok (some e, s1) := by
    rcases add_node_ok_cases h1 with ⟨-, h2, -⟩ | ⟨hv, hpe, hr, hs1⟩ |
      ⟨hv, hpe, e', he', hr, hs1⟩ | ⟨hv, hpe, hnone, pp, s0, pn, hrec, hpn, hr, hs1⟩
    · exact Option.noConfusion h2
    · subst hs1
      refine ⟨hinit, ?_⟩
      have hqe : q = [] := List.length_eq_zero.1 (by rw [← hlen, hpe]; rfl)
      have hv' := heq s1.m_settings rfl hv
      subst hqe
      rw [add_node_root m_hasher _ _ rest' (by rw [hv']; exact hv), ← hr]
    · subst hs1
      cases Option.some.inj hr
      refine ⟨hinit, ?_⟩
      have hqe : q ≠ [] := fun hc => hpe (List.length_eq_zero.1 (by rw [hlen, hc]; rfl))
      have hv' := heq s1.m_settings rfl hv
      exact add_node_found m_hasher _ rest' (by rw [hv']; exact hv) hqe (by rw [hv']; exact he')
    · subst hs1
      cases Option.some.inj hr
      have hqe : q ≠ [] := fun hc => hpe (List.length_eq_zero.1 (by rw [hlen, hc]; rfl))
      have hset : (attach s0 (hash_entry m_hasher s.m_settings p rest) p pp pn).m_settings
          = s.m_settings := (add_node_ok_fields _ _ _ _ _ _ hrec).1
      have hv' := heq _ hset hv
      have hfree : map_find (hash_entry m_hasher s.m_settings p rest) s0.m_nodes = none := by
        refine add_node_fresh _ _ _ _ _ _ hlow (by
          rw [split_path_fst]
          exact fun hc => hp (List.mem_of_mem_take hc)) hrec _ hnone ?_
        intro x hxl hc
        rw [hash_entry_fold m_hasher rest hlow hp (legal_of_hash_entry_ne hv)] at hc
        have := congrArg List.length (hinj hc)
        have hlt := split_path_fst_length_lt hpe
        simp only [List.length_map] at this
        omega
      refine ⟨(add_node_ok_fields _ _ _ _ _ _ hrec).2.1.trans hinit, ?_⟩
      refine add_node_found m_hasher _ rest' (by rw [hv']; exact hv) hqe ?_
      rw [hv']
      show map_find _ (map_insert _ _ _) = _
      rw [map_find_insert, if_pos rfl, hfree]
      rfl
  unfold add
  simp only [key.1, Bool.not_true, Bool.false_eq_true, if_false, key.2, hn]

theorem add_some_accepted {m_hasher : List Nat → Nat} {s s1 : vfs} {p rest : List Nat}
    {e : Nat} (h : add m_hasher s p rest = .ok (some e, s1)) :
    hash_entry m_hasher s.m_settings p rest ≠ INVALID := by
  rcases add_ok_cases h with ⟨-, h2, -⟩ | ⟨-, h1, -⟩
  · exact Option.noConfusion h2
  rcases add_node_ok_cases h1 with ⟨-, h2, -⟩ | ⟨hv, -⟩ | ⟨hv, -⟩ | ⟨hv, -⟩
  · exact Option.noConfusion h2
  · exact hv
  · exact hv
  · exact hv

/-- A path that `hash_entry` accepts under `ansi_paths` holds no NUL byte. -/
theorem zero_not_mem_of_accepted {m_hasher : List Nat → Nat} {cfg : vfs_settings}
    {p rest : List Nat} (hansi : cfg.m_ansi_paths = true)
    (h : hash_entry m_hasher cfg p rest ≠ INVALID) : 0 ∉ p := by
  intro h0
  refine legal_of_hash_entry_ne h ⟨hansi, ?_⟩
  rw [List.any_eq_true]
  exact ⟨0, h0, by decide⟩

/-! ### The recursion budgets are never used up -/

/-- The budget `add` gives `add_node` suffices: the recursion is on the prefix
`split_path` returns, which is shorter than the path. -/
theorem add_node_fuel (m_hasher : List Nat → Nat) :
    ∀ (fuel : Nat) (s : vfs) (path rest : List Nat), path.length < fuel →
      add_node m_hasher fuel s path rest ≠ .error .out_of_fuel := by
  intro fuel
  induction fuel with
  | zero => intro s path rest h; exact absurd h (Nat.not_lt_zero _)
  | succ fuel ih =>
    intro s path rest hlen h
    unfold add_node at h
    simp only at h
    split at h
    · exact Except.noConfusion h
    · split at h
      · exact Except.noConfusion h
      · rename_i hne
        have hp : path ≠ [] := fun e => hne (by simp [e])
        split at h
        · exact Except.noConfusion h
        · split at h
          · rename_i e hrec
            cases Except.error.inj h
            exact ih s _ _ (Nat.lt_of_lt_of_le (split_path_fst_length_lt hp)
              (Nat.le_of_lt_succ hlen)) hrec
          · split at h
            · exact Fault.noConfusion (Except.error.inj h)
            · split at h
              · exact Fault.noConfusion (Except.error.inj h)
              · exact Except.noConfusion h

theorem add_fuel (m_hasher : List Nat → Nat) (s : vfs) (path rest : List Nat) :
    add m_hasher s path rest ≠ .error .out_of_fuel := by
  intro h
  unfold add at h
  split at h
  · exact Except.noConfusion h
  · split at h
    · rename_i e hrec
      cases Except.error.inj h
      exact add_node_fuel m_hasher _ s path rest (Nat.lt_succ_self _) hrec
    · exact Except.noConfusion h
    · split at h
      · exact Fault.noConfusion (Except.error.inj h)
      · exact Except.noConfusion h

theorem delete_node_fuel (s : vfs) (entry : Option Nat) :
    delete_node s entry ≠ .error .out_of_fuel := by
  intro h
  unfold delete_node at h
  split at h
  · exact Except.noConfusion h
  · split at h
    · exact Fault.noConfusion (Except.error.inj h)
    · split at h
      · exact Except.noConfusion h
      · simp only at h
        split at h
        · split at h
          · exact Fault.noConfusion (Except.error.inj h)
          · exact Except.noConfusion h
        · split at h
          · exact Fault.noConfusion (Except.error.inj h)
          · split at h
            · exact Fault.noConfusion (Except.error.inj h)
            · split at h
              · exact Except.noConfusion h
              · split at h
                · exact Except.noConfusion h
                · exact Fault.noConfusion (Except.error.inj h)

theorem delete_recursive_sweep_fuel :
    ∀ (its : List Nat) (s : vfs), delete_recursive_sweep s its ≠ .error .out_of_fuel := by
  intro its
  induction its with
  | nil => intro s h; exact Except.noConfusion h
  | cons it its ih =>
    intro s h
    unfold delete_recursive_sweep at h
    split at h
    · rename_i e h1
      cases Except.error.inj h
      exact delete_node_fuel _ _ h1
    · exact Except.noConfusion h
    · exact ih _ h

theorem delete_recursive_scan_fuel {m_hasher : List Nat → Nat} {n0 lo : Nat}
    {self : vfs → Nat → Except Fault (Bool × vfs)}
    (hkeep : ∀ (s : vfs) (o : Nat) (b : Bool) (s1 : vfs), Inv m_hasher s →
      self s o = .ok (b, s1) → Keeps m_hasher s s1)
    (hself : ∀ (s : vfs) (it : Nat), Inv m_hasher s → s.heap.length = n0 →
      it < n0 → lo < it → self s it ≠ .error .out_of_fuel) :
    ∀ (its : List Nat) (s : vfs) (acc : List Nat), Inv m_hasher s → s.heap.length = n0 →
      (∀ it ∈ its, lo < it) →
      delete_recursive_scan self s its acc ≠ .error .out_of_fuel := by
  intro its
  induction its with
  | nil => intro s acc _ _ _ h; exact Except.noConfusion h
  | cons it its ih =>
    intro s acc hs hlen hlo h
    have hlo' : ∀ x ∈ its, lo < x := fun x hx => hlo x (List.mem_cons_of_mem _ hx)
    unfold delete_recursive_scan at h
    split at h
    · exact Fault.noConfusion (Except.error.inj h)
    · rename_i n hn
      split at h
      · split at h
        · rename_i e h1
          cases Except.error.inj h
          exact hself s it hs hlen (hlen ▸ deref_lt hn) (hlo it (List.mem_cons_self _ _)) h1
        · exact Except.noConfusion h
        · rename_i s1 h1
          have hk := hkeep _ _ _ _ hs h1
          exact ih s1 _ hk.1 (hk.2.2.2.2.2.trans hlen) hlo' h
      · exact ih s _ hs hlen hlo' h

/-- The budget `remove_node` gives `delete_recursive` suffices: a child is
allocated after its parent, so the recursion climbs through the heap cells. -/
theorem delete_recursive_fuel {m_hasher : List Nat → Nat} :
    ∀ (fuel : Nat) (s : vfs) (owner : Nat), Inv m_hasher s → owner < s.heap.length →
      s.heap.length < fuel + owner → delete_recursive fuel s owner ≠ .error .out_of_fuel := by
  intro fuel
  induction fuel with
  | zero =>
    intro s owner _ h1 h2
    omega
  | succ fuel ih =>
    intro s owner hs hlt hlen h
    unfold delete_recursive at h
    split at h
    · exact Fault.noConfusion (Except.error.inj h)
    · rename_i n hn
      split at h
      · exact Except.noConfusion h
      · rename_i cs hcs
        have hch := (hs.children_ok _ _ _ hn hcs).2
        have hscan := @delete_recursive_scan_fuel m_hasher s.heap.length owner
          (delete_recursive fuel)
          (fun s o b s1 hs h => (delete_recursive_keeps fuel s o b s1 hs h).1)
          (fun s' it hs' hl hit hlo => ih s' it hs' (hl ▸ hit) (by omega))
          cs s [] hs rfl (fun it hit => (hch it hit).1)
        split at h
        · rename_i e h1
          cases Except.error.inj h
          exact hscan h1
        · exact Except.noConfusion h
        · split at h
          · rename_i e h2
            cases Except.error.inj h
            exact delete_recursive_sweep_fuel _ _ h2
          · exact Except.noConfusion h
          · split at h
            · exact Fault.noConfusion (Except.error.inj h)
            · split at h
              · exact Fault.noConfusion (Except.error.inj h)
              · exact Except.noConfusion h

theorem remove_fuel {m_hasher : List Nat → Nat} {s : vfs} (hs : Inv m_hasher s)
    (path : List Nat) (recursive : Bool) :
    remove m_hasher s path recursive ≠ .error .out_of_fuel := by
  intro h
  unfold remove at h
  split at h
  · exact Except.noConfusion h
  · split at h
    · exact Except.noConfusion h
    · rename_i entry _
      unfold remove_node at h
      split at h
      · exact Fault.noConfusion (Except.error.inj h)
      · rename_i n hn
        split at h
        · split at h
          · exact Except.noConfusion h
          · exact delete_node_fuel _ _ h
        · split at h
          · exact Except.noConfusion h
          · split at h
            · rename_i e h1
              cases Except.error.inj h
              exact delete_recursive_fuel _ s entry hs (deref_lt hn) (by omega) h1
            · exact Except.noConfusion h
            · exact delete_node_fuel _ _ h

/-! ### remove returns on every state that satisfies the invariant -/

theorem parent_lt {m_hasher : List Nat → Nat} {s : vfs} (hs : Inv m_hasher s) {x p : Nat}
    {nx : node} (hx : deref s x = some nx) (hp : nx.m_parent = some p) :
    p < x ∧ ∃ pn cs, deref s p = some pn ∧ pn.m_is_file = false ∧ pn.m_dir = some cs ∧ x ∈ cs := by
  have hroot : nx.m_is_root = false := by
    cases hr : nx.m_is_root with
    | false => rfl
    | true =>
      have := hs.root_parent _ _ hx hr
      rw [hp] at this
      exact Option.noConfusion this
  obtain ⟨p', pn, cs, h1, h2, h3, h4, h5⟩ := hs.parent_ok _ _ hx hroot
  rw [hp] at h1
  cases Option.some.inj h1
  exact ⟨((hs.children_ok _ _ _ h2 h4).2 x h5).1, pn, cs, h2, h3, h4, h5⟩

/-- C1, the code at its failing input.  With the configuration
`vfs_settings(false, true, 255)` the two calls `add("a/b")` on a fresh index do
not return the same payload slot: the first returns the slot of node 2, the
file "a/b", which is not entered in the index, and the second returns the slot
of node 1, the directory "a/", which `add_node` indexed under the hash of
"a/b" because `hash_entry` hashes `path.data()` up to the NUL of the buffer. -/
theorem add_twice_case_sensitive :
    (do let (slot1, s1) ← add fnv1a (vfs_new fnv1a case_sensitive_settings) (bytes "a/b") []
        let (slot2, s2) ← add fnv1a s1 (bytes "a/b") []
        pure (slot1, slot2, size s1, size s2)) = Except.ok (some 2, some 1, 2, 2) ∧
    (do let (_, s1) ← add fnv1a (vfs_new fnv1a case_sensitive_settings) (bytes "a/b") []
        pure ((deref s1 1).map (fun n => (n.m_path, n.m_hash)),
          (deref s1 2).map (fun n => (n.m_path, n.m_hash)), s1.m_nodes))
      = Except.ok (some (bytes "a/", fnv1a (bytes "a/b")), some (bytes "a/b", fnv1a (bytes "a/b")),
          [(fnv1a [], 0), (fnv1a (bytes "a/b"), 1)]) := by
  decide

/-- C2, the code at its failing input.  Under the default configuration
`add("File.PNG")` returns the slot of node 1, yet `get("File.PNG")` returns
null: `add` indexes the node under the hash of the case-folded path, and `get`
hashes the path as it is given.  Only `get("file.png")` finds the node. -/
theorem get_after_add_mixed_case :
    (do let (slot, s) ← add fnv1a (vfs_new fnv1a g_default_settings) (bytes "File.PNG") []
        pure (slot, get fnv1a s (bytes "File.PNG"), get fnv1a s (bytes "file.png")))
      = Except.ok (some 1, none, some 1) := by
  decide

/-- C5.  When `ansi_paths` is set and the path holds a byte outside [32,126],
`add` returns null and the index is the state it was called on: nothing is
created, whatever the state, the hasher and the place of the byte. -/
theorem add_illegal_rejected (m_hasher : List Nat → Nat) (s : vfs) (path rest : List Nat)
    (hansi : s.m_settings.m_ansi_paths = true) (hbyte : ∃ c ∈ path, c < 32 ∨ 126 < c) :
    add m_hasher s path rest = .ok (none, s) :=
  add_illegal m_hasher s path rest hansi (any_illegal_of_byte hbyte)

/-- C5, at an input: the path "folder/" followed by the byte 200 and "x", on a
fresh index with the default configuration. -/
theorem add_illegal_rejected_witness :
    add sample_hasher (vfs_new sample_hasher g_default_settings)
        (bytes "folder/" ++ [200] ++ bytes "x") []
      = .ok (none, vfs_new sample_hasher g_default_settings) :=
  add_illegal_rejected sample_hasher (vfs_new sample_hasher g_default_settings)
    (bytes "folder/" ++ [200] ++ bytes "x") [] rfl ⟨200, by decide, Or.inr (by decide)⟩

/-- C8, the code at its failing input.  With the configuration
`vfs_settings(false, true, 255)`, after `add("a/b")` the index holds the
directory node 1, path "a/", with the one child node 2, under the hash of
"a/b".  `remove("a/", true)` returns false, since `get("a/")` is null, and
`remove("a/b", true)`, which does resolve to the directory, returns false as
well after deleting the child and the index entry: the directory itself stays
in the heap and in the children of the root. -/
theorem remove_recursive_case_sensitive :
    (do let (_, s) ← add fnv1a (vfs_new fnv1a case_sensitive_settings) (bytes "a/b") []
        pure (get fnv1a s (bytes "a/"), get fnv1a s (bytes "a/b")))
      = Except.ok (none, some 1) ∧
    (do let (_, s) ← add fnv1a (vfs_new fnv1a case_sensitive_settings) (bytes "a/b") []
        pure ((deref s 1).map (fun n => (n.m_is_file, n.m_path, n.m_dir))))
      = Except.ok (some (false, bytes "a/", some [2])) ∧
    (do let (_, s) ← add fnv1a (vfs_new fnv1a case_sensitive_settings) (bytes "a/b") []
        let (b1, s1) ← remove fnv1a s (bytes "a/") true
        let (b2, s2) ← remove fnv1a s1 (bytes "a/b") true
        pure (b1, decide (s1 = s), b2, size s2))
      = Except.ok (false, true, false, 1) ∧
    (do let (_, s) ← add fnv1a (vfs_new fnv1a case_sensitive_settings) (bytes "a/b") []
        let (_, s2) ← remove fnv1a s (bytes "a/b") true
        pure ((deref s2 1).map (fun n => n.m_path), (deref s2 0).map (fun n => n.m_dir)))
      = Except.ok (some (bytes "a/"), some (some [1])) := by
  decide

/-- C10.  When `get` resolves the path to a directory whose container is
present and not empty, `remove(path, false)` returns false and the index is
the state it was called on. -/
theorem remove_nonempty_directory_refused (m_hasher : List Nat → Nat) (s : vfs)
    (path : List Nat) (e : Nat) (n : node) (cs : List Nat)
    (hget : get m_hasher s path = some e) (hn : deref s e = some n)
    (hdir : n.m_is_file = false) (hcs : n.m_dir = some cs) (hne : cs ≠ []) :
    remove m_hasher s path false = .ok (false, s) := by
  have hinit : s.m_initialized = true := by
    cases hi : s.m_initialized with
    | true => rfl
    | false => simp [get, hi] at hget
  have hlen : cs.length ≠ 0 := fun h => hne (List.length_eq_zero.1 h)
  simp [remove, hinit, hget, remove_node, hn, hdir, hcs, dir_size, hlen]

/-- C10, at an input: the directory "a/", node 1, after `add("a/b")` on a fresh
index with the default configuration. -/
theorem remove_nonempty_directory_refused_witness :
    remove sample_hasher
        (add_all sample_hasher (vfs_new sample_hasher g_default_settings) [bytes "a/b"])
        (bytes "a/") false
      = .ok (false,
          add_all sample_hasher (vfs_new sample_hasher g_default_settings) [bytes "a/b"]) :=
  remove_nonempty_directory_refused sample_hasher
    (add_all sample_hasher (vfs_new sample_hasher g_default_settings) [bytes "a/b"])
    (bytes "a/") 1
    ⟨false, false, some [2], sample_hasher (bytes "a/"), bytes "a/", some 0⟩ [2]
    (by decide) (by decide) rfl rfl (by decide)

/-- C7.  In a state reached by `add` and `remove`, when `get` resolves the path
to a file node `e`, `remove(path, false)` returns true; the size drops by one,
`get(path)` is null afterwards, the node is freed and is erased from the
children of its parent `p`, whose other children keep their order; every other
node and every other index entry is as before. -/
theorem remove_file (m_hasher : List Nat → Nat) (hinj : Function.Injective m_hasher)
    (cfg : vfs_settings) (s : vfs) (hs : Reach m_hasher cfg s) (path : List Nat) (e : Nat)
    (n : node) (hget : get m_hasher s path = some e) (hn : deref s e = some n)
    (hf : n.m_is_file = true) :
    ∃ s' p pn cs, remove m_hasher s path false = .ok (true, s') ∧
      size s' + 1 = size s ∧ get m_hasher s' path = none ∧ deref s' e = none ∧
      n.m_parent = some p ∧ deref s p = some pn ∧ pn.m_dir = some cs ∧ e ∈ cs ∧
      deref s' p = some { pn with m_dir := some (cs.filter (fun c => c != e)) } ∧
      (∀ q, q ≠ e → q ≠ p → deref s' q = deref s q) ∧
      (∀ k, k ≠ m_hasher path → get_node s' k = get_node s k) := by
  have hinv := reach_inv hinj hs
  obtain ⟨hinit, hfind⟩ := get_eq_some hget
  obtain ⟨n', hn', hhash⟩ := hinv.index_live _ _ hfind
  rw [hn] at hn'
  cases Option.some.inj hn'
  have hroot : n.m_is_root = false := by
    cases hr : n.m_is_root with
    | false => rfl
    | true =>
      have := hinv.root_flag _ _ hn hr
      rw [hf] at this
      exact Bool.noConfusion this
  obtain ⟨p, pn, cs, hpar, hpn, hpfile, hcs, hmem⟩ := hinv.parent_ok _ _ hn hroot
  obtain ⟨hnd, hch⟩ := hinv.children_ok _ _ _ hpn hcs
  have hpe : p ≠ e := Nat.ne_of_lt (hch e hmem).1
  have hfind' : map_find n.m_hash s.m_nodes = some e := by rw [hhash]; exact hfind
  have hdel := delete_node_child hn hfind' hpar hpn hpfile hcs hmem
  have hrem : remove m_hasher s path false =
      .ok (true, free (store (erased s n.m_hash) p { pn with m_dir := some (cs.erase e) }) e) := by
    rw [← hdel]
    simp [remove, hinit, hget, remove_node, hn, hf]
  refine ⟨_, p, pn, cs, hrem, ?_, ?_, deref_free_same _ _, hpar, hpn, hcs, hmem, ?_, ?_, ?_⟩
  · exact map_erase_length hfind'
  · show get m_hasher (erased s n.m_hash) path = none
    unfold get get_node erased
    simp only [hinit, Bool.not_true, Bool.false_eq_true, if_false]
    rw [hhash]
    exact map_find_erase_self _ hinv.keys_nodup
  · rw [deref_free_ne hpe, deref_store_same _ (show p < (erased s n.m_hash).heap.length
      from deref_lt hpn), hnd.erase_eq_filter]
  · intro q hqe hqp
    rw [deref_free_ne hqe, deref_store_ne _ hqp]
    rfl
  · intro k hk
    show map_find k (map_erase n.m_hash s.m_nodes) = map_find k s.m_nodes
    rw [hhash]
    exact map_find_erase_ne hk _

/-- C7, at an input: the file "folder2/file3.png", node 2, after the calls
`add("folder2/file3.png")` and `add("file7")` on a fresh index with the default
configuration. -/
theorem remove_file_witness :
    ∃ s' p pn cs,
      remove sample_hasher (add_all sample_hasher (vfs_new sample_hasher g_default_settings)
          [bytes "folder2/file3.png", bytes "file7"]) (bytes "folder2/file3.png") false
        = .ok (true, s') ∧
      size s' + 1 = size (add_all sample_hasher (vfs_new sample_hasher g_default_settings)
          [bytes "folder2/file3.png", bytes "file7"]) ∧
      get sample_hasher s' (bytes "folder2/file3.png") = none ∧ deref s' 2 = none ∧
      (node.mk true false none (sample_hasher (bytes "folder2/file3.png"))
        (bytes "folder2/file3.png") (some 1)).m_parent = some p ∧
      deref (add_all sample_hasher (vfs_new sample_hasher g_default_settings)
          [bytes "folder2/file3.png", bytes "file7"]) p = some pn ∧
      pn.m_dir = some cs ∧ 2 ∈ cs ∧
      deref s' p = some { pn with m_dir := some (cs.filter (fun c => c != 2)) } ∧
      (∀ q, q ≠ 2 → q ≠ p → deref s' q =
        deref (add_all sample_hasher (vfs_new sample_hasher g_default_settings)
          [bytes "folder2/file3.png", bytes "file7"]) q) ∧
      (∀ k, k ≠ sample_hasher (bytes "folder2/file3.png") → get_node s' k =
        get_node (add_all sample_hasher (vfs_new sample_hasher g_default_settings)
          [bytes "folder2/file3.png", bytes "file7"]) k) :=
  remove_file sample_hasher sample_hasher_injective g_default_settings _
    (reach_add_all _ _ Reach.init (by decide)) (bytes "folder2/file3.png") 2
    (node.mk true false none (sample_hasher (bytes "folder2/file3.png"))
      (bytes "folder2/file3.png") (some 1))
    (by decide) (by decide) rfl

/-- C3.  Under the default configuration, `add("folder2/file2.png")` on a fresh
index returns the slot of node 2 and takes the size from 1 to 3: node 1 is the
directory "folder2/", child of the root and sole child in the root's list, node
2 the file "folder2/file2.png", child of node 1 and sole child in its list; `get`
returns both.  The hasher is taken to separate the three paths hashed and not
to yield the invalid hash on them. -/
theorem add_creates_ancestors (m_hasher : List Nat → Nat)
    (hnd : ([[], bytes "folder2/", bytes "folder2/file2.png"].map m_hasher).Nodup)
    (hval : ∀ k ∈ [[], bytes "folder2/", bytes "folder2/file2.png"], m_hasher k ≠ INVALID) :
    size (vfs_new m_hasher g_default_settings) = 1 ∧
    (do let (slot, s) ← add m_hasher (vfs_new m_hasher g_default_settings)
          (bytes "folder2/file2.png") []
        pure (slot, size s, s.heap.length, get m_hasher s (bytes "folder2/"),
          get m_hasher s (bytes "folder2/file2.png"))) = Except.ok (some 2, 3, 3, some 1, some 2) ∧
    (do let (_, s) ← add m_hasher (vfs_new m_hasher g_default_settings)
          (bytes "folder2/file2.png") []
        pure (deref s 0, deref s 1, deref s 2)) = Except.ok (
      some ⟨false, true, some [1], m_hasher [], [], none⟩,
      some ⟨false, false, some [2], m_hasher (bytes "folder2/"), bytes "folder2/", some 0⟩,
      some ⟨true, false, none, m_hasher (bytes "folder2/file2.png"),
        bytes "folder2/file2.png", some 1⟩) := by
  have hP : bytes "folder2/file2.png" = [102, 111, 108, 100, 101, 114, 50, 47, 102, 105, 108, 101, 50, 46, 112, 110, 103] := by decide
  have hD : bytes "folder2/" = [102, 111, 108, 100, 101, 114, 50, 47] := by decide
  rw [hP, hD] at hnd hval ⊢
  simp only [List.map, List.nodup_cons, List.mem_cons, List.mem_singleton, not_or,
    List.not_mem_nil, not_false_eq_true, List.nodup_nil, and_true, forall_eq_or_imp,
    forall_eq, ne_eq, false_implies, implies_true] at hnd hval
  obtain ⟨⟨h01, h02⟩, h12⟩ := hnd
  obtain ⟨hv0, hv1, hv2⟩ := hval
  have hsp1 : split_path [102, 111, 108, 100, 101, 114, 50, 47, 102, 105, 108, 101, 50, 46, 112, 110, 103] = ([102, 111, 108, 100, 101, 114, 50, 47], [102, 105, 108, 101, 50, 46, 112, 110, 103]) := by decide
  have hsp2 : split_path [102, 111, 108, 100, 101, 114, 50, 47] = ([], [102, 111, 108, 100, 101, 114, 50, 47]) := by decide
  simp [add, add_node, vfs_new, hash_entry, g_default_settings, illegal, c_str, tolower, get_node, map_find, map_insert, hsp1, hsp2, deref, store, add_child, hv0, hv1, hv2, h01, h02, h12, Ne.symm h01, Ne.symm h02, Ne.symm h12, SLASH, size, get, bind, Except.bind, pure, Except.pure]

/-- C3, at an input: the 64-bit FNV-1a hasher. -/
theorem add_creates_ancestors_witness :
    size (vfs_new fnv1a g_default_settings) = 1 ∧
    (do let (slot, s) ← add fnv1a (vfs_new fnv1a g_default_settings)
          (bytes "folder2/file2.png") []
        pure (slot, size s, s.heap.length, get fnv1a s (bytes "folder2/"),
          get fnv1a s (bytes "folder2/file2.png"))) = Except.ok (some 2, 3, 3, some 1, some 2) ∧
    (do let (_, s) ← add fnv1a (vfs_new fnv1a g_default_settings)
          (bytes "folder2/file2.png") []
        pure (deref s 0, deref s 1, deref s 2)) = Except.ok (
      some ⟨false, true, some [1], fnv1a [], [], none⟩,
      some ⟨false, false, some [2], fnv1a (bytes "folder2/"), bytes "folder2/", some 0⟩,
      some ⟨true, false, none, fnv1a (bytes "folder2/file2.png"),
        bytes "folder2/file2.png", some 1⟩) :=
  add_creates_ancestors fnv1a (by decide) (by decide)

/-- Case aliasing for paths that hold no NUL byte.  With `lowercase_filesystem`
set, let `p` be a path that `add` accepts and `q` a path equal to `p` after
ASCII case folding; when `ansi_paths` is off, `p` is to hold no NUL byte.  When `add(p)` returns the slot of the node `e`,
`add(q)` returns the slot of `e` as well and leaves the index as it is, so that
no node is created; and when `p` had no entry before the first call, the path
stored in `e` is `p` as it was supplied. -/
theorem add_case_alias (m_hasher : List Nat → Nat) (hinj : Function.Injective m_hasher)
    (s : vfs) (hlow : s.m_settings.m_lowercase_filesystem = true)
    (p q rest rest' : List Nat) (hnul : s.m_settings.m_ansi_paths = false → 0 ∉ p)
    (hfold : p.map tolower = q.map tolower) (e : Nat) (s1 : vfs)
    (h : add m_hasher s p rest = .ok (some e, s1)) :
    add m_hasher s1 q rest' = .ok (some e, s1) ∧
    (p ≠ [] → get_node s (hash_entry m_hasher s.m_settings p rest) = none →
      ∃ n, deref s1 e = some n ∧ n.m_path = p) := by
  have hp : 0 ∉ p := by
    cases hansi : s.m_settings.m_ansi_paths with
    | false => exact hnul hansi
    | true => exact zero_not_mem_of_accepted hansi (add_some_accepted h)
  refine ⟨add_again hinj hlow hp hfold h, ?_⟩
  intro hpe hnone
  rcases add_ok_cases h with ⟨-, h2, -⟩ | ⟨-, h1, -⟩
  · exact Option.noConfusion h2
  rcases add_node_ok_cases h1 with ⟨-, h2, -⟩ | ⟨-, hpe', -, -⟩ |
    ⟨-, -, e', he', -, -⟩ | ⟨-, -, -, pp, s0, pn, -, hpn, hr, rfl⟩
  · exact Option.noConfusion h2
  · exact absurd hpe' hpe
  · rw [hnone] at he'
    exact Option.noConfusion he'
  · cases Option.some.inj hr
    by_cases hpp : pp = s0.heap.length
    · subst hpp
      rw [deref_alloc_new] at hpn
      cases Option.some.inj hpn
      have hd : deref (attach s0 (hash_entry m_hasher s.m_settings p rest) p s0.heap.length
          (new_node (hash_entry m_hasher s.m_settings p rest) p (some s0.heap.length)))
          s0.heap.length = some { new_node (hash_entry m_hasher s.m_settings p rest) p
            (some s0.heap.length) with m_dir := some [s0.heap.length] } := by
        unfold attach
        rw [deref_m_nodes, deref_store_same _ (by simp)]
        rfl
      exact ⟨_, hd, rfl⟩
    · refine ⟨new_node (hash_entry m_hasher s.m_settings p rest) p (some pp), ?_, rfl⟩
      unfold attach
      rw [deref_m_nodes, deref_store_ne _ (Ne.symm hpp), deref_alloc_new]

/-- Case aliasing at an input: "Folder/File.PNG" and then "folder/file.png" on
a fresh index with the default configuration. -/
theorem add_case_alias_witness :
    add sample_hasher (add_all sample_hasher (vfs_new sample_hasher g_default_settings)
        [bytes "Folder/File.PNG"]) (bytes "folder/file.png") []
      = .ok (some 2, add_all sample_hasher (vfs_new sample_hasher g_default_settings)
        [bytes "Folder/File.PNG"]) ∧
    (bytes "Folder/File.PNG" ≠ [] →
      get_node (vfs_new sample_hasher g_default_settings)
        (hash_entry sample_hasher (vfs_new sample_hasher g_default_settings).m_settings
          (bytes "Folder/File.PNG") []) = none →
      ∃ n, deref (add_all sample_hasher (vfs_new sample_hasher g_default_settings)
        [bytes "Folder/File.PNG"]) 2 = some n ∧ n.m_path = bytes "Folder/File.PNG") :=
  add_case_alias sample_hasher sample_hasher_injective
    (vfs_new sample_hasher g_default_settings) rfl (bytes "Folder/File.PNG")
    (bytes "folder/file.png") [] [] (by decide) (by decide) 2
    (add_all sample_hasher (vfs_new sample_hasher g_default_settings) [bytes "Folder/File.PNG"])
    (by decide)

/-- C9, the claim fails.  After the six calls of `add` on a fresh index with the
default configuration, `remove("folder2/", true)` returns true and the size
does not drop by 7. -/
theorem recursive_delete_not_seven :
    ¬ ((do let (b, s1) ← remove fnv1a
             (add_all fnv1a (vfs_new fnv1a g_default_settings) accounting_paths)
             (bytes "folder2/") true
           pure (b, size (add_all fnv1a (vfs_new fnv1a g_default_settings) accounting_paths)
             - size s1)) = Except.ok (true, 7)) := by
  decide

set_option maxRecDepth 4000 in
set_option maxHeartbeats 4000000 in
/-- C9, as amended.  After the six calls of `add` on a fresh index with the
default configuration the size is 9, and `remove("folder2/", true)` returns
true and leaves the size 1: the size drops by 8, the directory and its seven
descendants.  The hasher is taken to separate the nine paths hashed and not to
yield the invalid hash on them. -/
theorem recursive_delete_accounting (m_hasher : List Nat → Nat)
    (hnd : (accounting_keys.map m_hasher).Nodup)
    (hval : ∀ k ∈ accounting_keys, m_hasher k ≠ INVALID) :
    (do let (b, s1) ← remove m_hasher
          (add_all m_hasher (vfs_new m_hasher g_default_settings) accounting_paths)
          (bytes "folder2/") true
        pure (b, size (add_all m_hasher (vfs_new m_hasher g_default_settings) accounting_paths),
          size s1)) = Except.ok (true, 9, 1) := by
  have hnd' := List.nodup_reverse.2 hnd
  have e1 : bytes "folder2/" = [102, 111, 108, 100, 101, 114, 50, 47] := by decide
  have e2 : bytes "folder2/file2.png" = [102, 111, 108, 100, 101, 114, 50, 47, 102, 105, 108, 101, 50, 46, 112, 110, 103] := by decide
  have e3 : bytes "folder2/file3.png" = [102, 111, 108, 100, 101, 114, 50, 47, 102, 105, 108, 101, 51, 46, 112, 110, 103] := by decide
  have e4 : bytes "folder2/file4.png" = [102, 111, 108, 100, 101, 114, 50, 47, 102, 105, 108, 101, 52, 46, 112, 110, 103] := by decide
  have e5 : bytes "folder2/folder3/" = [102, 111, 108, 100, 101, 114, 50, 47, 102, 111, 108, 100, 101, 114, 51, 47] := by decide
  have e6 : bytes "folder2/folder3/file5.png" = [102, 111, 108, 100, 101, 114, 50, 47, 102, 111, 108, 100, 101, 114, 51, 47, 102, 105, 108, 101, 53, 46, 112, 110, 103] := by decide
  have e7 : bytes "folder2/folder3/folder4/" = [102, 111, 108, 100, 101, 114, 50, 47, 102, 111, 108, 100, 101, 114, 51, 47, 102, 111, 108, 100, 101, 114, 52, 47] := by decide
  have e8 : bytes "folder2/folder3/folder4/file6.png" = [102, 111, 108, 100, 101, 114, 50, 47, 102, 111, 108, 100, 101, 114, 51, 47, 102, 111, 108, 100, 101, 114, 52, 47, 102, 105, 108, 101, 54, 46, 112, 110, 103] := by decide
  simp only [accounting_keys, accounting_paths, e1, e2, e3, e4, e5, e6, e7, e8] at hnd hnd' hval ⊢
  simp only [List.map, List.reverse_cons, List.reverse_nil, List.nil_append, List.cons_append, List.nodup_cons, List.mem_cons, List.mem_singleton, not_or,
    List.not_mem_nil, not_false_eq_true, List.nodup_nil, and_true, forall_eq_or_imp, forall_eq, ne_eq, false_implies, implies_true] at hnd hnd' hval
  have s1 : split_path [102, 111, 108, 100, 101, 114, 50, 47] = ([], [102, 111, 108, 100, 101, 114, 50, 47]) := by decide
  have s2 : split_path [102, 111, 108, 100, 101, 114, 50, 47, 102, 105, 108, 101, 50, 46, 112, 110, 103] = ([102, 111, 108, 100, 101, 114, 50, 47], [102, 105, 108, 101, 50, 46, 112, 110, 103]) := by decide
  have s3 : split_path [102, 111, 108, 100, 101, 114, 50, 47, 102, 105, 108, 101, 51, 46, 112, 110, 103] = ([102, 111, 108, 100, 101, 114, 50, 47], [102, 105, 108, 101, 51, 46, 112, 110, 103]) := by decide
  have s4 : split_path [102, 111, 108, 100, 101, 114, 50, 47, 102, 105, 108, 101, 52, 46, 112, 110, 103] = ([102, 111, 108, 100, 101, 114, 50, 47], [102, 105, 108, 101, 52, 46, 112, 110, 103]) := by decide
  have s5 : split_path [102, 111, 108, 100, 101, 114, 50, 47, 102, 111, 108, 100, 101, 114, 51, 47] = ([102, 111, 108, 100, 101, 114, 50, 47], [102, 111, 108, 100, 101, 114, 51, 47]) := by decide
  have s6 : split_path [102, 111, 108, 100, 101, 114, 50, 47, 102, 111, 108, 100, 101, 114, 51, 47, 102, 105, 108, 101, 53, 46, 112, 110, 103] = ([102, 111, 108, 100, 101, 114, 50, 47, 102, 111, 108, 100, 101, 114, 51, 47], [102, 105, 108, 101, 53, 46, 112, 110, 103]) := by decide
  have s7 : split_path [102, 111, 108, 100, 101, 114, 50, 47, 102, 111, 108, 100, 101, 114, 51, 47, 102, 111, 108, 100, 101, 114, 52, 47] = ([102, 111, 108, 100, 101, 114, 50, 47, 102, 111, 108, 100, 101, 114, 51, 47], [102, 111, 108, 100, 101, 114, 52, 47]) := by decide
  have s8 : split_path [102, 111, 108, 100, 101, 114, 50, 47, 102, 111, 108, 100, 101, 114, 51, 47, 102, 111, 108, 100, 101, 114, 52, 47, 102, 105, 108, 101, 54, 46, 112, 110, 103] = ([102, 111, 108, 100, 101, 114, 50, 47, 102, 111, 108, 100, 101, 114, 51, 47, 102, 111, 108, 100, 101, 114, 52, 47], [102, 105, 108, 101, 54, 46, 112, 110, 103]) := by decide
  simp [add_all, add, add_node, vfs_new, hash_entry, g_default_settings, illegal, c_str, tolower, get_node, map_find, map_insert, s1, s2, s3, s4, s5, s6, s7, s8, deref, store, add_child, hnd, hnd', hval, SLASH, size, get, bind, Except.bind, pure, Except.pure, remove, remove_node, delete_recursive, delete_recursive_scan, delete_recursive_sweep, delete_node, free, map_erase, remove_child, dir_size]

/-- C9 as amended, at an input: the 64-bit FNV-1a hasher. -/
theorem recursive_delete_accounting_witness :
    (do let (b, s1) ← remove fnv1a
          (add_all fnv1a (vfs_new fnv1a g_default_settings) accounting_paths)
          (bytes "folder2/") true
        pure (b, size (add_all fnv1a (vfs_new fnv1a g_default_settings) accounting_paths),
          size s1)) = Except.ok (true, 9, 1) :=
  recursive_delete_accounting fnv1a (by decide) (by decide)

/-! ## The claims on removal, teardown and construction -/

/-- C11.  When `get` resolves the path to a file node, `remove(path, true)`
returns false and the index is the state it was called on: the file keeps its
index entry and its place in the children of its parent, and the size is the
same.  This holds in every state, reachable or not, for every configuration
and hasher. -/
theorem remove_file_recursive_rejected (m_hasher : List Nat → Nat) (s : vfs) (path : List Nat)
    (e : Nat) (n : node) (hget : get m_hasher s path = some e) (hn : deref s e = some n)
    (hfile : n.m_is_file = true) :
    remove m_hasher s path true = .ok (false, s) := by
  have hinit := (get_eq_some hget).1
  unfold remove
  simp only [hinit, Bool.not_true, Bool.false_eq_true, if_false, hget]
  unfold remove_node
  simp only [hn, hfile, if_true]

/-- C11, at an input: the file "file1.png" of the default index that holds
"file1.png" and "folder2/file2.png". -/
theorem remove_file_recursive_rejected_witness :
    remove fnv1a
        (add_all fnv1a (vfs_new fnv1a g_default_settings)
          [bytes "file1.png", bytes "folder2/file2.png"])
        (bytes "file1.png") true
      = .ok (false, add_all fnv1a (vfs_new fnv1a g_default_settings)
          [bytes "file1.png", bytes "folder2/file2.png"]) :=
  remove_file_recursive_rejected fnv1a _ (bytes "file1.png") 1
    ⟨true, false, none, fnv1a (bytes "file1.png"), bytes "file1.png", some 0⟩
    (by decide) (by decide) rfl

/-- C13, the code at its failing input.  Under the default configuration,
after `add("folder1/")` on a fresh index the size is 2 and `remove("folder1/")`
returns false with either flag, leaving the index as it is: the lambda
`delete_recursive` returns false for the null `dir` of a directory that never
had a child.  A directory whose `dir` was allocated and then emptied is
removed: after `add("folder1/x")` and `remove("folder1/x")`, `remove("folder1/")`
returns true and the size goes from 2 to 1. -/
theorem remove_never_populated_directory :
    (do let (_, s) ← add fnv1a (vfs_new fnv1a g_default_settings) (bytes "folder1/") []
        let (b, s1) ← remove fnv1a s (bytes "folder1/") false
        pure (size s, b, size s1, decide (s1 = s))) = Except.ok (2, false, 2, true) ∧
    (do let (_, s) ← add fnv1a (vfs_new fnv1a g_default_settings) (bytes "folder1/") []
        let (b, s1) ← remove fnv1a s (bytes "folder1/") true
        pure (size s, b, size s1, decide (s1 = s))) = Except.ok (2, false, 2, true) ∧
    (do let (_, s) ← add fnv1a (vfs_new fnv1a g_default_settings) (bytes "folder1/") []
        pure ((deref s 1).map (fun n => (n.m_is_file, n.m_path, n.m_dir))))
      = Except.ok (some (false, bytes "folder1/", none)) ∧
    (do let (_, s) ← add fnv1a (vfs_new fnv1a g_default_settings) (bytes "folder1/x") []
        let (b0, s0) ← remove fnv1a s (bytes "folder1/x") false
        let (b, s1) ← remove fnv1a s0 (bytes "folder1/") false
        pure (b0, size s0, (deref s0 1).map (fun n => n.m_dir), b, size s1))
      = Except.ok (true, 2, some (some []), true, 1) := by
  refine ⟨by decide, by decide, by decide, by decide⟩

/-- C14, the code at its failing input.  Under the default configuration,
after `add("a")` on a fresh index `remove("", true)` resolves the empty path to
the root and returns true: the root node is freed and its index entry erased
(size 0, `get("")` null) while `m_initialized` stays set and `m_root_node`
keeps pointing to the freed node, so that the next `add("b")` and `add("")` use
freed memory.  `remove("", false)` does the same once the children list of the
root is empty again. -/
theorem remove_destroys_root :
    (do let (_, s) ← add fnv1a (vfs_new fnv1a g_default_settings) (bytes "a") []
        let (b, s1) ← remove fnv1a s [] true
        pure (b, size s1, get fnv1a s1 [], deref s1 0)) = Except.ok (true, 0, none, none) ∧
    (do let (_, s) ← add fnv1a (vfs_new fnv1a g_default_settings) (bytes "a") []
        let (_, s1) ← remove fnv1a s [] true
        pure (s1.m_initialized, s1.m_root_node, s1.heap)) = Except.ok (true, some 0, [none, none]) ∧
    (do let (_, s) ← add fnv1a (vfs_new fnv1a g_default_settings) (bytes "a") []
        let (_, s1) ← remove fnv1a s [] true
        add fnv1a s1 (bytes "b") []) = Except.error Fault.dangling ∧
    (do let (_, s) ← add fnv1a (vfs_new fnv1a g_default_settings) (bytes "a") []
        let (_, s1) ← remove fnv1a s [] true
        add fnv1a s1 [] []) = Except.error Fault.dangling ∧
    (do let (_, s) ← add fnv1a (vfs_new fnv1a g_default_settings) (bytes "a") []
        let (_, s0) ← remove fnv1a s (bytes "a") false
        let (b, s1) ← remove fnv1a s0 [] false
        pure (b, size s1, get fnv1a s1 [], deref s1 0)) = Except.ok (true, 0, none, none) := by
  refine ⟨by decide, by decide, by decide, by decide, by decide⟩

/-- C15, the code at its failing input.  The destructor on a freshly
constructed index, with the default configuration, destroys no node:
`remove_node(m_root_node, true)` returns false for the null `dir` of the root
before it deletes anything, so the root node is never freed and its entry is
still in `m_nodes` when the body ends, where `size()` is 1; `get("")` and
`add("test2")` return null.  After `add("test")`, as in the test case, the
destructor frees both nodes and empties the index. -/
theorem teardown_fresh_index :
    (do let s1 ← vfs_delete (vfs_new fnv1a g_default_settings)
        pure (size s1, s1.m_nodes, s1.heap, get fnv1a s1 []))
      = Except.ok (1, [(fnv1a [], 0)],
          [some ⟨false, true, none, fnv1a [], [], none⟩], none) ∧
    (do let s1 ← vfs_delete (vfs_new fnv1a g_default_settings)
        let (slot, s2) ← add fnv1a s1 (bytes "test2") []
        pure (slot, size s2)) = Except.ok (none, 1) ∧
    (do let (_, s) ← add fnv1a (vfs_new fnv1a g_default_settings) (bytes "test") []
        let s1 ← vfs_delete s
        let (slot, s2) ← add fnv1a s1 (bytes "test2") []
        pure (size s, size s1, s1.heap, slot, size s2))
      = Except.ok (2, 0, [none, none], none, 0) := by
  refine ⟨by decide, by decide, by decide⟩

/-- C16.  For every configuration and hasher the freshly constructed index has
size 1, `get("")` returns `m_root_node`, and that node is a directory with
`m_is_root` set, a null parent, the empty path, a null `dir`, and the hash
that `hash_entry("")` computes. -/
theorem construction (m_hasher : List Nat → Nat) (cfg : vfs_settings) :
    size (vfs_new m_hasher cfg) = 1 ∧
    get m_hasher (vfs_new m_hasher cfg) [] = some 0 ∧
    (vfs_new m_hasher cfg).m_root_node = some 0 ∧
    deref (vfs_new m_hasher cfg) 0
      = some ⟨false, true, none, hash_entry m_hasher cfg [] [], [], none⟩ ∧
    (vfs_new m_hasher cfg).m_settings = cfg ∧ (vfs_new m_hasher cfg).m_initialized = true := by
  have hh : hash_entry m_hasher cfg [] [] = m_hasher [] := by
    unfold hash_entry
    cases cfg.m_ansi_paths <;> cases cfg.m_lowercase_filesystem <;> simp [c_str]
  rw [hh]
  refine ⟨?_, ?_, rfl, ?_, rfl, rfl⟩
  · simp [size, vfs_new, map_insert, map_find]
  · simp [get, vfs_new, get_node, map_insert, map_find]
  · simp [deref, vfs_new]

/-! ### A removal is a sequence of deletions of childless nodes -/

theorem deletes_keeps {m_hasher : List Nat → Nat} {s s' : vfs} (h : Deletes m_hasher s s') :
    Inv m_hasher s → Keeps m_hasher s s' := by
  induction h with
  | refl s => exact fun hs => keeps_refl hs
  | step hs hc h => exact fun _ => delete_node_keeps hs hc h
  | trans _ _ ih1 ih2 => exact fun hs => keeps_trans (ih1 hs) (ih2 (ih1 hs).1)

theorem delete_node_deletes {m_hasher : List Nat → Nat} {s s' : vfs} {e : Nat} {b : Bool}
    (hs : Inv m_hasher s) (hc : childless s e) (h : delete_node s (some e) = .ok (b, s')) :
    Deletes m_hasher s s' := by
  cases b with
  | true => exact Deletes.step hs hc h
  | false =>
    rcases delete_node_ok_cases h with ⟨-, rfl⟩ | ⟨hb, -⟩
    · exact Deletes.refl _
    · exact Bool.noConfusion hb

theorem delete_recursive_sweep_deletes {m_hasher : List Nat → Nat} :
    ∀ (its : List Nat) (s s' : vfs) (b : Bool), Inv m_hasher s →
      (∀ it ∈ its, childless s it) → delete_recursive_sweep s its = .ok (b, s') →
      Deletes m_hasher s s' := by
  intro its
  induction its with
  | nil =>
    intro s s' b hs _ h
    simp only [delete_recursive_sweep, Except.ok.injEq, Prod.mk.injEq] at h
    rw [← h.2]
    exact Deletes.refl _
  | cons it its ih =>
    intro s s' b hs hc h
    unfold delete_recursive_sweep at h
    split at h
    · exact Except.noConfusion h
    · rename_i s1 h1
      simp only [Except.ok.injEq, Prod.mk.injEq] at h
      rw [← h.2]
      exact delete_node_deletes hs (hc it (List.mem_cons_self _ _)) h1
    · rename_i s1 h1
      have hc1 := hc it (List.mem_cons_self _ _)
      have hk := delete_node_keeps hs hc1 h1
      refine Deletes.trans (delete_node_deletes hs hc1 h1) (ih s1 s' b hk.1 ?_ h)
      intro x hx
      exact childless_of_shrinks hk.2.1 (hc x (List.mem_cons_of_mem _ hx))

theorem delete_recursive_scan_deletes {m_hasher : List Nat → Nat}
    {self : vfs → Nat → Except Fault (Bool × vfs)}
    (hself : ∀ (s : vfs) (o : Nat) (b : Bool) (s1 : vfs), Inv m_hasher s →
      self s o = .ok (b, s1) →
      Keeps m_hasher s s1 ∧ (b = true → childless s1 o) ∧ Deletes m_hasher s s1) :
    ∀ (its : List Nat) (s : vfs) (acc : List Nat) (b : Bool) (s' : vfs) (acc' : List Nat),
      Inv m_hasher s → delete_recursive_scan self s its acc = .ok (b, s', acc') →
      Deletes m_hasher s s' := by
  intro its
  induction its with
  | nil =>
    intro s acc b s' acc' hs h
    simp only [delete_recursive_scan, Except.ok.injEq, Prod.mk.injEq] at h
    obtain ⟨-, rfl, -⟩ := h
    exact Deletes.refl _
  | cons it its ih =>
    intro s acc b s' acc' hs h
    unfold delete_recursive_scan at h
    split at h
    · exact Except.noConfusion h
    · rename_i n hn
      split at h
      · split at h
        · exact Except.noConfusion h
        · rename_i s1 h1
          simp only [Except.ok.injEq, Prod.mk.injEq] at h
          obtain ⟨-, rfl, -⟩ := h
          exact (hself _ _ _ _ hs h1).2.2
        · rename_i s1 h1
          obtain ⟨hk, -, hd⟩ := hself _ _ _ _ hs h1
          exact Deletes.trans hd (ih s1 (acc ++ [it]) b s' acc' hk.1 h)
      · exact ih s (acc ++ [it]) b s' acc' hs h

theorem delete_recursive_deletes {m_hasher : List Nat → Nat} :
    ∀ (fuel : Nat) (s : vfs) (o : Nat) (b : Bool) (s' : vfs), Inv m_hasher s →
      delete_recursive fuel s o = .ok (b, s') → Deletes m_hasher s s' := by
  intro fuel
  induction fuel with
  | zero =>
    intro s o b s' _ h
    exact Except.noConfusion h
  | succ fuel ih =>
    intro s o b s' hs h
    have hself : ∀ (s : vfs) (o : Nat) (b : Bool) (s1 : vfs), Inv m_hasher s →
        delete_recursive fuel s o = .ok (b, s1) →
        Keeps m_hasher s s1 ∧ (b = true → childless s1 o) ∧ Deletes m_hasher s s1 :=
      fun s o b s1 hs h =>
        ⟨(delete_recursive_keeps fuel s o b s1 hs h).1,
          (delete_recursive_keeps fuel s o b s1 hs h).2, ih s o b s1 hs h⟩
    have hkeep : ∀ (s : vfs) (o : Nat) (b : Bool) (s1 : vfs), Inv m_hasher s →
        delete_recursive fuel s o = .ok (b, s1) →
        Keeps m_hasher s s1 ∧ (b = true → childless s1 o) :=
      fun s o b s1 hs h => delete_recursive_keeps fuel s o b s1 hs h
    unfold delete_recursive at h
    split at h
    · exact Except.noConfusion h
    · rename_i n hn
      split at h
      · simp only [Except.ok.injEq, Prod.mk.injEq] at h
        obtain ⟨-, rfl⟩ := h
        exact Deletes.refl _
      · rename_i cs hcs
        split at h
        · exact Except.noConfusion h
        · rename_i s1 acc1 h1
          simp only [Except.ok.injEq, Prod.mk.injEq] at h
          obtain ⟨-, rfl⟩ := h
          exact delete_recursive_scan_deletes hself cs s [] false s1 acc1 hs h1
        · rename_i s1 acc1 h1
          obtain ⟨hk1, hch⟩ := delete_recursive_scan_keeps hkeep cs s [] true s1 acc1 hs
            (fun _ h => absurd h (List.not_mem_nil _)) h1
          have hd1 := delete_recursive_scan_deletes hself cs s [] true s1 acc1 hs h1
          split at h
          · exact Except.noConfusion h
          · rename_i s2 h2
            simp only [Except.ok.injEq, Prod.mk.injEq] at h
            obtain ⟨-, rfl⟩ := h
            exact Deletes.trans hd1
              (delete_recursive_sweep_deletes acc1 s1 s2 false hk1.1 (hch rfl) h2)
          · rename_i s2 h2
            have hd2 := delete_recursive_sweep_deletes acc1 s1 s2 true hk1.1 (hch rfl) h2
            split at h
            · exact Except.noConfusion h
            · split at h
              · exact Except.noConfusion h
              · simp only [Except.ok.injEq, Prod.mk.injEq] at h
                obtain ⟨-, rfl⟩ := h
                exact Deletes.trans hd1 hd2

theorem remove_node_deletes {m_hasher : List Nat → Nat} {s s' : vfs} {e : Nat} {r b : Bool}
    (hs : Inv m_hasher s) (h : remove_node s e r = .ok (b, s')) : Deletes m_hasher s s' := by
  unfold remove_node at h
  split at h
  · exact Except.noConfusion h
  · rename_i n hn
    split at h
    · rename_i hf
      split at h
      · simp only [Except.ok.injEq, Prod.mk.injEq] at h
        rw [← h.2]
        exact Deletes.refl _
      · refine delete_node_deletes hs ?_ h
        intro n' hn'
        rw [hn] at hn'
        cases Option.some.inj hn'
        exact Or.inl (hs.file_no_dir _ _ hn hf)
    · split at h
      · simp only [Except.ok.injEq, Prod.mk.injEq] at h
        rw [← h.2]
        exact Deletes.refl _
      · split at h
        · exact Except.noConfusion h
        · rename_i s1 h1
          simp only [Except.ok.injEq, Prod.mk.injEq] at h
          rw [← h.2]
          exact delete_recursive_deletes _ _ _ _ _ hs h1
        · rename_i s1 h1
          obtain ⟨hk, hch⟩ := delete_recursive_keeps _ _ _ _ _ hs h1
          exact Deletes.trans (delete_recursive_deletes _ _ _ _ _ hs h1)
            (delete_node_deletes hk.1 (hch rfl) h)

theorem remove_deletes {m_hasher : List Nat → Nat} {s s' : vfs} {path : List Nat} {r b : Bool}
    (hs : Inv m_hasher s) (h : remove m_hasher s path r = .ok (b, s')) :
    Deletes m_hasher s s' := by
  unfold remove at h
  split at h
  · simp only [Except.ok.injEq, Prod.mk.injEq] at h
    rw [← h.2]
    exact Deletes.refl _
  · split at h
    · simp only [Except.ok.injEq, Prod.mk.injEq] at h
      rw [← h.2]
      exact Deletes.refl _
    · exact remove_node_deletes hs h

/-! ### The index entries a removal drops -/

theorem drops_refl (s : vfs) : Drops s s :=
  ⟨fun _ _ h => h, fun _ _ h => Or.inl h⟩

theorem drops_trans {s1 s2 s3 : vfs} (hsh12 : Shrinks s1 s2) (hsh23 : Shrinks s2 s3)
    (h12 : Drops s1 s2) (h23 : Drops s2 s3) : Drops s1 s3 := by
  refine ⟨fun k e h => h12.1 k e (h23.1 k e h), ?_⟩
  intro k e h
  rcases h12.2 k e h with h2 | ⟨x, nx, hx, hx2, hk⟩
  · rcases h23.2 k e h2 with h3 | ⟨x, nx, hx, hx3, hk⟩
    · exact Or.inl h3
    · obtain ⟨n, hn, hf, -⟩ := hsh12 x nx hx
      exact Or.inr ⟨x, n, hn, hx3, hf.2.2.2.1.symm.trans hk⟩
  · refine Or.inr ⟨x, nx, hx, ?_, hk⟩
    cases hd : deref s3 x with
    | none => rfl
    | some n3 =>
      obtain ⟨n2, hn2, -⟩ := hsh23 x n3 hd
      rw [hx2] at hn2
      exact Option.noConfusion hn2

theorem removed_drops {s s' : vfs} {e : Nat} {n : node} (hr : Removed s s' e n.m_hash)
    (hnd : (s.m_nodes.map Prod.fst).Nodup) (hn : deref s e = some n) : Drops s s' := by
  constructor
  · intro k e' h
    rw [hr.nodes] at h
    by_cases hk : k = n.m_hash
    · subst hk
      rw [map_find_erase_self _ hnd] at h
      exact Option.noConfusion h
    · rwa [map_find_erase_ne hk] at h
  · intro k e' h
    by_cases hk : k = n.m_hash
    · exact Or.inr ⟨e, n, hn, hr.gone, hk.symm⟩
    · left
      rw [hr.nodes, map_find_erase_ne hk]
      exact h

theorem deletes_drops {m_hasher : List Nat → Nat} {s s' : vfs} (h : Deletes m_hasher s s') :
    Inv m_hasher s → Drops s s' := by
  induction h with
  | refl s => exact fun _ => drops_refl s
  | step hs hc h =>
    intro _
    rcases delete_node_removed hs h with ⟨hb, -⟩ | ⟨-, n, v, hn, -, hr⟩
    · exact Bool.noConfusion hb
    · exact removed_drops hr hs.keys_nodup hn
  | trans h1 h2 ih1 ih2 =>
    intro hs
    have hk1 := deletes_keeps h1 hs
    have hk2 := deletes_keeps h2 hk1.1
    exact drops_trans hk1.2.1 hk2.2.1 (ih1 hs) (ih2 hk1.1)

/-! ### What add_node keeps and what it creates -/

theorem same_fields_refl (n : node) : same_fields n n := ⟨rfl, rfl, rfl, rfl, rfl⟩

theorem same_fields_trans {a b c : node} (h1 : same_fields a b) (h2 : same_fields b c) :
    same_fields a c :=
  ⟨h2.1.trans h1.1, h2.2.1.trans h1.2.1, h2.2.2.1.trans h1.2.2.1, h2.2.2.2.1.trans h1.2.2.2.1,
    h2.2.2.2.2.trans h1.2.2.2.2⟩

theorem ancestor_path_zero (path : List Nat) : ancestor_path 0 path = path := rfl

theorem ancestor_path_succ (i : Nat) (path : List Nat) :
    ancestor_path (i + 1) path = ancestor_path i (split_path path).1 := by
  unfold ancestor_path
  rw [Function.iterate_succ_apply]

/-- The nodes of the state before are kept by `add_node`, `dir` apart, and so
are the index entries; a node it creates lies past the end of the old heap, is
no root, and its path is the path asked for or one of its successive splits. -/
theorem add_node_grows {m_hasher : List Nat → Nat} (hinj : Function.Injective m_hasher) :
    ∀ (fuel : Nat) (s : vfs) (path rest : List Nat) (r : Option Nat) (s' : vfs),
      Inv m_hasher s → path.length < SIZE_MOD →
      add_node m_hasher fuel s path rest = .ok (r, s') →
      s.heap.length ≤ s'.heap.length ∧
      (∀ k e, map_find k s.m_nodes = some e → map_find k s'.m_nodes = some e) ∧
      (∀ k e, map_find k s'.m_nodes = some e →
        map_find k s.m_nodes = some e ∨ s.heap.length ≤ e) ∧
      (∀ q n, deref s q = some n → ∃ n', deref s' q = some n' ∧ same_fields n n') ∧
      (∀ q n', deref s' q = some n' →
        (∃ n, deref s q = some n ∧ same_fields n n') ∨
        (s.heap.length ≤ q ∧ n'.m_is_root = false ∧ n'.m_path ≠ [] ∧
          map_find n'.m_hash s.m_nodes = none ∧ ∃ i, n'.m_path = ancestor_path i path)) := by
  intro fuel
  induction fuel with
  | zero =>
    intro s path rest r s' _ _ h
    exact Except.noConfusion h
  | succ fuel ih =>
    intro s path rest r s' hs hlen h
    have hsame : s.heap.length ≤ s.heap.length ∧
        (∀ k e, map_find k s.m_nodes = some e → map_find k s.m_nodes = some e) ∧
        (∀ k e, map_find k s.m_nodes = some e →
          map_find k s.m_nodes = some e ∨ s.heap.length ≤ e) ∧
        (∀ q n, deref s q = some n → ∃ n', deref s q = some n' ∧ same_fields n n') ∧
        (∀ q n', deref s q = some n' →
          (∃ n, deref s q = some n ∧ same_fields n n') ∨
          (s.heap.length ≤ q ∧ n'.m_is_root = false ∧ n'.m_path ≠ [] ∧
            map_find n'.m_hash s.m_nodes = none ∧ ∃ i, n'.m_path = ancestor_path i path)) :=
      ⟨Nat.le_refl _, fun _ _ h => h, fun _ _ h => Or.inl h,
        fun q n hq => ⟨n, hq, same_fields_refl n⟩,
        fun q n hq => Or.inl ⟨n, hq, same_fields_refl n⟩⟩
    rcases add_node_ok_cases h with ⟨-, -, rfl⟩ | ⟨-, -, -, rfl⟩ | ⟨-, -, _, -, -, rfl⟩ |
      ⟨-, hpath, hnone, p, s1, pn, hrec, hpn, -, rfl⟩
    · exact hsame
    · exact hsame
    · exact hsame
    · have hlen' : (split_path path).1.length < SIZE_MOD :=
        Nat.lt_trans (split_path_fst_length_lt hpath) hlen
      obtain ⟨hlen1, hfw1, hbw1, hold1, hnew1⟩ := ih s _ _ _ s1 hs hlen' hrec
      obtain ⟨hinv1, -, -, -, hlt, -⟩ := add_node_inv hinj fuel s _ _ _ s1 hs hlen' hrec
      have hp : p < s1.heap.length := hlt p rfl
      have hpn' : deref s1 p = some pn := by
        rw [deref_alloc_old _ (Nat.ne_of_lt hp)] at hpn
        exact hpn
      refine ⟨?_, ?_, ?_, ?_, ?_⟩
      · rw [attach_heap_length]
        exact Nat.le_succ_of_le hlen1
      · intro k e hk
        have h1 := hfw1 k e hk
        rw [attach_m_nodes, map_find_insert]
        split
        · rename_i hkk
          rw [← hkk, h1]
          rfl
        · exact h1
      · intro k e hk
        rw [attach_m_nodes, map_find_insert] at hk
        split at hk
        · rename_i hkk
          cases hm : map_find (hash_entry m_hasher s.m_settings path rest) s1.m_nodes with
          | none =>
            rw [hm] at hk
            simp only [Option.getD_none, Option.some.injEq] at hk
            exact Or.inr (hk ▸ hlen1)
          | some v =>
            rw [hm] at hk
            simp only [Option.getD_some, Option.some.injEq] at hk
            subst hk
            rw [← hkk] at hm
            exact hbw1 k v hm
        · exact hbw1 k e hk
      · intro q n hq
        obtain ⟨n1, hn1, hf1⟩ := hold1 q n hq
        obtain ⟨n', hn', h1, h2, h3, h4, h5, -⟩ := attach_old
          (hash_entry m_hasher s.m_settings path rest) path hpn' hn1
        exact ⟨n', hn', same_fields_trans hf1 ⟨h5, h1, h2, h3, h4⟩⟩
      · intro q n' hq
        have hshift : ∀ n1 : node, ((∃ n, deref s q = some n ∧ same_fields n n1) ∨
            (s.heap.length ≤ q ∧ n1.m_is_root = false ∧ n1.m_path ≠ [] ∧
              map_find n1.m_hash s.m_nodes = none ∧
              ∃ i, n1.m_path = ancestor_path i (split_path path).1)) →
            same_fields n1 n' →
            (∃ n, deref s q = some n ∧ same_fields n n') ∨
            (s.heap.length ≤ q ∧ n'.m_is_root = false ∧ n'.m_path ≠ [] ∧
              map_find n'.m_hash s.m_nodes = none ∧ ∃ i, n'.m_path = ancestor_path i path) := by
          intro n1 h1 hf
          rcases h1 with ⟨n, hn, hfn⟩ | ⟨ha, hb, hc, hd, i, hi⟩
          · exact Or.inl ⟨n, hn, same_fields_trans hfn hf⟩
          · refine Or.inr ⟨ha, hf.2.2.1.trans hb, ?_, ?_, i + 1, ?_⟩
            · rw [hf.2.2.2.2]
              exact hc
            · rw [hf.2.2.2.1]
              exact hd
            · rw [hf.2.2.2.2, hi]
              exact (ancestor_path_succ i path).symm
        rcases attach_live_cases hpn' hq with ⟨rfl, rfl⟩ | ⟨rfl, rfl⟩ | ⟨-, -, hq1⟩
        · exact Or.inr ⟨hlen1, rfl, hpath, hnone, 0, rfl⟩
        · exact hshift pn (hnew1 _ pn hpn') ⟨rfl, rfl, rfl, rfl, rfl⟩
        · exact hshift n' (hnew1 q n' hq1) (same_fields_refl n')

/-! ### The root keeps its index entry while it is live -/

theorem add_node_root_indexed {m_hasher : List Nat → Nat} (hinj : Function.Injective m_hasher)
    {fuel : Nat} {s s' : vfs} {path rest : List Nat} {r : Option Nat}
    (hs : Inv m_hasher s) (hlen : path.length < SIZE_MOD) (hheap : 0 < s.heap.length)
    (hri : RootIndexed m_hasher s) (h : add_node m_hasher fuel s path rest = .ok (r, s')) :
    RootIndexed m_hasher s' := by
  obtain ⟨-, hfw, -, -, hnew⟩ := add_node_grows hinj fuel s path rest r s' hs hlen h
  intro n' h0
  rcases hnew 0 n' h0 with ⟨n, hn, hf⟩ | ⟨hle, -⟩
  · obtain ⟨h1, h2, h3, h4, h5⟩ := hri n hn
    refine ⟨hf.2.2.2.1.trans h1, hf.2.2.2.2.trans h2, hf.2.2.1.trans h3, hfw _ _ h4, ?_⟩
    intro e ne he hhash
    rcases hnew e ne he with ⟨n0, hn0, hf0⟩ | ⟨-, -, -, hnone, -⟩
    · exact h5 e n0 hn0 (hf0.2.2.2.1.symm.trans hhash)
    · rw [hhash, h4] at hnone
      exact Option.noConfusion hnone
  · exact absurd hheap (Nat.not_lt.2 hle)

theorem deletes_root_indexed {m_hasher : List Nat → Nat} {s s' : vfs}
    (h : Deletes m_hasher s s') (hs : Inv m_hasher s) (hri : RootIndexed m_hasher s) :
    RootIndexed m_hasher s' := by
  have hk := deletes_keeps h hs
  have hd := deletes_drops h hs
  intro n' h0
  obtain ⟨n, hn, hf, -⟩ := hk.2.1 0 n' h0
  obtain ⟨h1, h2, h3, h4, h5⟩ := hri n hn
  refine ⟨hf.2.2.2.1.trans h1, hf.2.2.2.2.trans h2, hf.2.2.1.trans h3, ?_, ?_⟩
  · rcases hd.2 _ _ h4 with h | ⟨x, nx, hx, hx', hk'⟩
    · exact h
    · have := h5 x nx hx hk'
      subst this
      rw [h0] at hx'
      exact Option.noConfusion hx'
  · intro e ne he hhash
    obtain ⟨n0, hn0, hf0, -⟩ := hk.2.1 e ne he
    exact h5 e n0 hn0 (hf0.2.2.2.1.symm.trans hhash)

theorem reach_heap_pos {m_hasher : List Nat → Nat} (hinj : Function.Injective m_hasher)
    {cfg : vfs_settings} {s : vfs} (h : Reach m_hasher cfg s) : 0 < s.heap.length :=
  (reach_inv hinj h).root_lt 0 (reach_fields hinj h).2

theorem reach_root_indexed {m_hasher : List Nat → Nat} (hinj : Function.Injective m_hasher)
    {cfg : vfs_settings} {s : vfs} (h : Reach m_hasher cfg s) : RootIndexed m_hasher s := by
  induction h with
  | init =>
    intro n hn
    obtain ⟨-, rfl⟩ := deref_vfs_new hn
    refine ⟨rfl, rfl, rfl, ?_, ?_⟩
    · rw [vfs_new_m_nodes]
      simp [map_find]
    · intro e n' he _
      exact (deref_vfs_new he).1
  | add hr hlen hadd ih =>
    rcases add_ok_cases hadd with ⟨-, -, rfl⟩ | ⟨-, h1, -⟩
    · exact ih
    · exact add_node_root_indexed hinj (reach_inv hinj hr) hlen (reach_heap_pos hinj hr) ih h1
  | remove hr hrem ih =>
    exact deletes_root_indexed (remove_deletes (reach_inv hinj hr) hrem) (reach_inv hinj hr) ih

/-! ## The empty path -/

/-- C17.  In every state reached from the constructor by calls of `add` and
`remove`, for every configuration, as long as the root node has not been
freed: `get("")` returns the root node, a directory with `m_is_root` set, and
`add("")` returns the payload slot of that node, its `m_dir` slot, and leaves
the index as it is, so that no node is created and the size is the same.  The
hasher is taken to have no collision and not to yield the invalid hash. -/
theorem add_empty_path (m_hasher : List Nat → Nat) (hinj : Function.Injective m_hasher)
    (hval : ∀ x, m_hasher x ≠ INVALID) (cfg : vfs_settings) (s : vfs)
    (hs : Reach m_hasher cfg s) (r : Nat) (n : node) (hr : s.m_root_node = some r)
    (hroot : deref s r = some n) (rest : List Nat) :
    get m_hasher s [] = some r ∧ n.m_is_root = true ∧ n.m_is_file = false ∧
    add m_hasher s [] rest = .ok (some r, s) := by
  obtain ⟨hinit, hr0⟩ := reach_fields hinj hs
  have hinv := reach_inv hinj hs
  rw [hr0] at hr
  cases Option.some.inj hr
  obtain ⟨-, -, h3, h4, -⟩ := reach_root_indexed hinj hs n hroot
  have hleg : hash_entry m_hasher s.m_settings [] rest ≠ INVALID := by
    rw [hash_entry_eq_key m_hasher rest (fun h => by simp at h)]
    exact hval _
  refine ⟨?_, h3, hinv.root_ptr 0 n hr0 hroot, ?_⟩
  · unfold get get_node
    simp only [hinit, Bool.not_true, Bool.false_eq_true, if_false]
    exact h4
  · unfold add
    simp only [hinit, Bool.not_true, Bool.false_eq_true, if_false, List.length_nil, Nat.zero_add]
    rw [add_node_root m_hasher 0 s rest hleg, hr0]
    simp only [hroot]

/-- C17, at an input: the default index that holds "a/b". -/
theorem add_empty_path_witness :
    get sample_hasher
        (add_all sample_hasher (vfs_new sample_hasher g_default_settings) [bytes "a/b"]) []
      = some 0 ∧
    (node.mk false true (some [1]) (sample_hasher []) [] none).m_is_root = true ∧
    (node.mk false true (some [1]) (sample_hasher []) [] none).m_is_file = false ∧
    add sample_hasher
        (add_all sample_hasher (vfs_new sample_hasher g_default_settings) [bytes "a/b"]) [] []
      = .ok (some 0,
          add_all sample_hasher (vfs_new sample_hasher g_default_settings) [bytes "a/b"]) :=
  add_empty_path sample_hasher sample_hasher_injective sample_hasher_ne_invalid
    g_default_settings _ (reach_add_all _ _ Reach.init (by decide)) 0
    (node.mk false true (some [1]) (sample_hasher []) [] none) (by decide) (by decide) []

/-! ### Case folding commutes with split_path -/

theorem tolower_tolower (c : Nat) : tolower (tolower c) = tolower c := by
  unfold tolower
  split_ifs <;> omega

theorem map_tolower_idem (l : List Nat) : (l.map tolower).map tolower = l.map tolower := by
  rw [List.map_map]
  exact List.map_congr_left (fun c _ => tolower_tolower c)

theorem rfind_map_tolower (l : List Nat) : rfind SLASH (l.map tolower) = rfind SLASH l := by
  induction l with
  | nil => rfl
  | cons x xs ih => simp only [List.map_cons, rfind, ih, tolower_eq_slash]

theorem split_index_map_tolower (p : List Nat) :
    split_index (p.map tolower) = split_index p := by
  unfold split_index substr0
  rw [List.length_map, ← List.map_take, rfind_map_tolower]

theorem split_path_fst_map_tolower (p : List Nat) :
    (split_path (p.map tolower)).1 = (split_path p).1.map tolower := by
  rw [split_path_fst, split_path_fst, split_index_map_tolower, List.map_take]

theorem ancestor_path_map_tolower (i : Nat) :
    ∀ p : List Nat, ancestor_path i (p.map tolower) = (ancestor_path i p).map tolower := by
  induction i with
  | zero => exact fun _ => rfl
  | succ i ih =>
    intro p
    rw [ancestor_path_succ, ancestor_path_succ, split_path_fst_map_tolower, ih]

/-! ### The number of segments -/

theorem segments_from_map_tolower (fuel : Nat) :
    ∀ p : List Nat, segments_from fuel (p.map tolower) = segments_from fuel p := by
  induction fuel with
  | zero => exact fun _ => rfl
  | succ fuel ih =>
    intro p
    rw [segments_from, segments_from, split_path_fst_map_tolower, ih]
    simp only [List.map_eq_nil_iff]

theorem segments_map_tolower (p : List Nat) : segments (p.map tolower) = segments p := by
  unfold segments
  rw [List.length_map, segments_from_map_tolower]

theorem segments_from_fuel (fuel : Nat) :
    ∀ (fuel' : Nat) (p : List Nat), p.length ≤ fuel → p.length ≤ fuel' →
      segments_from fuel p = segments_from fuel' p := by
  induction fuel with
  | zero =>
    intro fuel' p h _
    have hp : p = [] := List.length_eq_zero.1 (Nat.le_zero.1 h)
    subst hp
    cases fuel' with
    | zero => rfl
    | succ f => simp [segments_from]
  | succ fuel ih =>
    intro fuel' p h h'
    cases fuel' with
    | zero =>
      have hp : p = [] := List.length_eq_zero.1 (Nat.le_zero.1 h')
      subst hp
      simp [segments_from]
    | succ f =>
      rw [segments_from, segments_from]
      by_cases hp : p = []
      · simp [hp]
      · have hl := split_path_fst_length_lt hp
        rw [if_neg hp, if_neg hp, ih f _ (by omega) (by omega)]

theorem segments_nil : segments [] = 0 := rfl

theorem segments_succ {p : List Nat} (hp : p ≠ []) :
    segments p = segments (split_path p).1 + 1 := by
  have hl := split_path_fst_length_lt hp
  obtain ⟨l, hlen⟩ : ∃ l, p.length = l + 1 :=
    ⟨p.length - 1, by have := List.length_pos.2 hp; omega⟩
  unfold segments
  rw [hlen, segments_from, if_neg hp, segments_from_fuel l _ _ (by omega) (Nat.le_refl _)]

theorem segments_eq_zero {p : List Nat} : segments p = 0 ↔ p = [] := by
  constructor
  · intro h
    by_contra hp
    rw [segments_succ hp] at h
    exact Nat.succ_ne_zero _ h
  · intro h
    rw [h]
    rfl

theorem parent_walk_succ {s : vfs} (k : Nat) {e p : Nat} {n : node}
    (h : deref s e = some n) (hp : n.m_parent = some p) :
    parent_walk s (k + 1) e = parent_walk s k p := by
  rw [parent_walk]
  simp only [h, hp]

/-! ### The case-folding regime is kept by add_node -/

theorem attach_folded {m_hasher : List Nat → Nat} {s1 : vfs} {hash : Nat} {path : List Nat}
    {p : Nat} {pn : node} (hs : Inv m_hasher s1) (hf : Folded m_hasher s1)
    (hpn : deref s1 p = some pn) (hhash : hash = m_hasher (path.map tolower))
    (hleg : path.any illegal = false) (hne : path ≠ [])
    (hfresh : map_find hash s1.m_nodes = none)
    (hpar : pn.m_path.map tolower = (split_path path).1.map tolower) :
    Folded m_hasher (attach s1 hash path p pn) := by
  have hp := deref_lt hpn
  have hlive : ∀ q n', deref (attach s1 hash path p pn) q = some n' →
      (q = s1.heap.length ∧ n' = new_node hash path (some p)) ∨
      (q ≠ s1.heap.length ∧ ∃ n, deref s1 q = some n ∧ same_fields n n') := by
    intro q n' hq
    rcases attach_live_cases hpn hq with ⟨h1, h2⟩ | ⟨rfl, rfl⟩ | ⟨-, h1, h2⟩
    · exact Or.inl ⟨h1, h2⟩
    · exact Or.inr ⟨Nat.ne_of_lt hp, pn, hpn, rfl, rfl, rfl, rfl, rfl⟩
    · exact Or.inr ⟨h1, n', h2, same_fields_refl n'⟩
  have hidx_old : ∀ k v, map_find k s1.m_nodes = some v →
      map_find k (attach s1 hash path p pn).m_nodes = some v := by
    intro k v hk
    rw [attach_m_nodes, map_find_insert]
    split
    · rename_i hkk
      rw [← hkk, hk]
      rfl
    · exact hk
  have hidx_new : map_find hash (attach s1 hash path p pn).m_nodes = some s1.heap.length := by
    rw [attach_m_nodes, map_find_insert, if_pos rfl, hfresh]
    rfl
  obtain ⟨hset, hrootp, -⟩ := attach_fields s1 hash path p pn
  refine ⟨?_, ?_, ?_, ?_, ?_, ?_, ?_, ?_, ?_⟩
  · rw [hset]
    exact hf.lower
  · rw [hset]
    exact hf.ansi
  · intro e n he
    rcases hlive e n he with ⟨-, rfl⟩ | ⟨-, n0, hn0, hsf⟩
    · exact hhash
    · rw [hsf.2.2.2.1, hsf.2.2.2.2]
      exact hf.hash_path e n0 hn0
  · intro e n he
    rcases hlive e n he with ⟨-, rfl⟩ | ⟨-, n0, hn0, hsf⟩
    · exact hleg
    · rw [hsf.2.2.2.2]
      exact hf.legal e n0 hn0
  · intro e n he
    rcases hlive e n he with ⟨rfl, rfl⟩ | ⟨-, n0, hn0, hsf⟩
    · exact hidx_new
    · rw [hsf.2.2.2.1]
      exact hidx_old _ _ (hf.indexed e n0 hn0)
  · intro e n he
    rcases hlive e n he with ⟨-, rfl⟩ | ⟨-, n0, hn0, hsf⟩
    · exact ⟨fun h => Bool.noConfusion h, fun h => absurd h hne⟩
    · rw [hsf.2.2.1, hsf.2.2.2.2]
      exact hf.root_path e n0 hn0
  · intro e n he hr
    rcases hlive e n he with ⟨-, rfl⟩ | ⟨-, n0, hn0, hsf⟩
    · exact Bool.noConfusion hr
    · rw [hrootp]
      exact hf.root_is e n0 hn0 (hsf.2.2.1.symm.trans hr)
  · intro r n hr he
    rw [hrootp] at hr
    rcases hlive r n he with ⟨h1, -⟩ | ⟨-, n0, hn0, hsf⟩
    · exact absurd (hs.root_lt r hr) (by rw [h1]; exact Nat.lt_irrefl _)
    · rw [hsf.2.2.1]
      exact hf.root_live r n0 hr hn0
  · intro e n p' pn' he hpar' hp'
    rcases hlive e n he with ⟨-, rfl⟩ | ⟨-, n0, hn0, hsf⟩
    · cases Option.some.inj hpar'
      rcases hlive p pn' hp' with ⟨h1, -⟩ | ⟨-, n1, hn1, hsf1⟩
      · exact absurd hp (by rw [h1]; exact Nat.lt_irrefl _)
      · rw [hpn] at hn1
        cases Option.some.inj hn1
        rw [hsf1.2.2.2.2]
        exact hpar
    · have hpar0 : n0.m_parent = some p' := hsf.1.symm.trans hpar'
      have hlt := (parent_lt hs hn0 hpar0).1
      rcases hlive p' pn' hp' with ⟨h1, -⟩ | ⟨-, n1, hn1, hsf1⟩
      · have := deref_lt hn0
        omega
      · rw [hsf1.2.2.2.2, hsf.2.2.2.2]
        exact hf.parent_path e n0 p' n1 hn0 hpar0 hn1

theorem add_node_folded {m_hasher : List Nat → Nat} (hinj : Function.Injective m_hasher) :
    ∀ (fuel : Nat) (s : vfs) (path rest : List Nat) (r : Option Nat) (s' : vfs),
      Inv m_hasher s → Folded m_hasher s → path.length < SIZE_MOD →
      add_node m_hasher fuel s path rest = .ok (r, s') →
      Folded m_hasher s' ∧
      ∀ e n, r = some e → deref s' e = some n → n.m_path.map tolower = path.map tolower := by
  intro fuel
  induction fuel with
  | zero =>
    intro s path rest r s' _ _ _ h
    exact Except.noConfusion h
  | succ fuel ih =>
    intro s path rest r s' hs hf hlen h
    rcases add_node_ok_cases h with ⟨-, rfl, rfl⟩ | ⟨-, rfl, rfl, rfl⟩ |
      ⟨hleg0, -, e0, hget, rfl, rfl⟩ | ⟨hleg0, hpath, hnone, p, s1, pn, hrec, hpn, rfl, rfl⟩
    · exact ⟨hf, fun e n he => Option.noConfusion he⟩
    · refine ⟨hf, fun e n he hn => ?_⟩
      have := (hf.root_path e n hn).1 (hf.root_live e n he hn)
      rw [this]
    · refine ⟨hf, fun e n he hn => ?_⟩
      cases Option.some.inj he
      obtain ⟨n0, hn0, hh0⟩ := hs.index_live _ _ hget
      rw [hn] at hn0
      cases Option.some.inj hn0
      have h0 := zero_not_mem_of_accepted hf.ansi hleg0
      rw [hash_entry_fold m_hasher rest hf.lower h0 (legal_of_hash_entry_ne hleg0),
        hf.hash_path _ _ hn] at hh0
      exact hinj hh0
    · have hlen' : (split_path path).1.length < SIZE_MOD :=
        Nat.lt_trans (split_path_fst_length_lt hpath) hlen
      obtain ⟨hf1, hret⟩ := ih s _ _ _ s1 hs hf hlen' hrec
      obtain ⟨hinv1, -, -, -, hlt, -⟩ := add_node_inv hinj fuel s _ _ _ s1 hs hlen' hrec
      have hp : p < s1.heap.length := hlt p rfl
      have hpn' : deref s1 p = some pn := by
        rw [deref_alloc_old _ (Nat.ne_of_lt hp)] at hpn
        exact hpn
      have h0 := zero_not_mem_of_accepted hf.ansi hleg0
      have hleg := legal_of_hash_entry_ne hleg0
      have hhash := hash_entry_fold m_hasher rest hf.lower h0 hleg
      have hany : path.any illegal = false := by
        cases hh : path.any illegal with
        | false => rfl
        | true => exact absurd ⟨hf.ansi, hh⟩ hleg
      have h0' : 0 ∉ (split_path path).1 := by
        rw [split_path_fst]
        exact fun hm => h0 (List.mem_of_mem_take hm)
      have hfresh : map_find (hash_entry m_hasher s.m_settings path rest) s1.m_nodes = none := by
        refine add_node_fresh fuel s _ _ _ s1 hf.lower h0' hrec _ hnone ?_
        intro x hx heq
        rw [hhash] at heq
        have h1 : path.length = x.length := by rw [← hinj heq, List.length_map]
        have hl := split_path_fst_length_lt hpath
        rw [h1] at hl
        exact Nat.lt_irrefl _ (Nat.lt_of_lt_of_le hl hx)
      refine ⟨attach_folded hinv1 hf1 hpn' hhash hany hpath hfresh (hret p pn rfl hpn'), ?_⟩
      intro e n he hn
      cases Option.some.inj he
      rw [attach_deref_new _ _ _ _ hp] at hn
      cases Option.some.inj hn
      rfl

/-! ### The case-folding regime is kept by a removal -/

theorem deletes_folded {m_hasher : List Nat → Nat} {s s' : vfs}
    (h : Deletes m_hasher s s') (hs : Inv m_hasher s) (hf : Folded m_hasher s) :
    Folded m_hasher s' := by
  obtain ⟨-, hsh, hset, hroot, -, -⟩ := deletes_keeps h hs
  have hd := deletes_drops h hs
  refine ⟨?_, ?_, ?_, ?_, ?_, ?_, ?_, ?_, ?_⟩
  · rw [hset]
    exact hf.lower
  · rw [hset]
    exact hf.ansi
  · intro e n he
    obtain ⟨n0, hn0, hsf, -⟩ := hsh e n he
    rw [hsf.2.2.2.1, hsf.2.2.2.2]
    exact hf.hash_path e n0 hn0
  · intro e n he
    obtain ⟨n0, hn0, hsf, -⟩ := hsh e n he
    rw [hsf.2.2.2.2]
    exact hf.legal e n0 hn0
  · intro e n he
    obtain ⟨n0, hn0, hsf, -⟩ := hsh e n he
    rw [hsf.2.2.2.1]
    rcases hd.2 _ _ (hf.indexed e n0 hn0) with hk | ⟨x, nx, hx, hx', hk⟩
    · exact hk
    · have hxi := hf.indexed x nx hx
      rw [hk, hf.indexed e n0 hn0] at hxi
      cases Option.some.inj hxi
      rw [he] at hx'
      exact Option.noConfusion hx'
  · intro e n he
    obtain ⟨n0, hn0, hsf, -⟩ := hsh e n he
    rw [hsf.2.2.1, hsf.2.2.2.2]
    exact hf.root_path e n0 hn0
  · intro e n he hr
    obtain ⟨n0, hn0, hsf, -⟩ := hsh e n he
    rw [hroot]
    exact hf.root_is e n0 hn0 (hsf.2.2.1.symm.trans hr)
  · intro r n hr he
    rw [hroot] at hr
    obtain ⟨n0, hn0, hsf, -⟩ := hsh r n he
    rw [hsf.2.2.1]
    exact hf.root_live r n0 hr hn0
  · intro e n p pn he hpar hp
    obtain ⟨n0, hn0, hsf, -⟩ := hsh e n he
    obtain ⟨pn0, hpn0, hsfp, -⟩ := hsh p pn hp
    rw [hsfp.2.2.2.2, hsf.2.2.2.2]
    exact hf.parent_path e n0 p pn0 hn0 (hsf.1.symm.trans hpar) hpn0

theorem vfs_new_folded (m_hasher : List Nat → Nat) {cfg : vfs_settings}
    (hlow : cfg.m_lowercase_filesystem = true) (hansi : cfg.m_ansi_paths = true) :
    Folded m_hasher (vfs_new m_hasher cfg) := by
  refine ⟨hlow, hansi, ?_, ?_, ?_, ?_, ?_, ?_, ?_⟩
  · intro e n he
    obtain ⟨-, rfl⟩ := deref_vfs_new he
    rfl
  · intro e n he
    obtain ⟨-, rfl⟩ := deref_vfs_new he
    rfl
  · intro e n he
    obtain ⟨rfl, rfl⟩ := deref_vfs_new he
    rw [vfs_new_m_nodes]
    simp [map_find]
  · intro e n he
    obtain ⟨-, rfl⟩ := deref_vfs_new he
    exact ⟨fun _ => rfl, fun _ => rfl⟩
  · intro e n he _
    obtain ⟨rfl, -⟩ := deref_vfs_new he
    rfl
  · intro r n _ he
    obtain ⟨-, rfl⟩ := deref_vfs_new he
    rfl
  · intro e n p pn he hpar _
    obtain ⟨-, rfl⟩ := deref_vfs_new he
    exact Option.noConfusion hpar

theorem reach_folded {m_hasher : List Nat → Nat} (hinj : Function.Injective m_hasher)
    {cfg : vfs_settings} (hlow : cfg.m_lowercase_filesystem = true)
    (hansi : cfg.m_ansi_paths = true) {s : vfs} (h : Reach m_hasher cfg s) :
    Folded m_hasher s := by
  induction h with
  | init => exact vfs_new_folded m_hasher hlow hansi
  | add hr hlen hadd ih =>
    rcases add_ok_cases hadd with ⟨-, -, rfl⟩ | ⟨-, h1, -⟩
    · exact ih
    · exact (add_node_folded hinj _ _ _ _ _ _ (reach_inv hinj hr) ih hlen h1).1
  | remove hr hrem ih =>
    exact deletes_folded (remove_deletes (reach_inv hinj hr) hrem) (reach_inv hinj hr) ih

/-! ### Paths that are not in the index -/

theorem mem_of_map_find {k v : Nat} {m : List (Nat × Nat)} (h : map_find k m = some v) :
    (k, v) ∈ m := by
  induction m with
  | nil => exact Option.noConfusion h
  | cons a m ih =>
    obtain ⟨k', v'⟩ := a
    unfold map_find at h
    split at h
    · rename_i hk
      cases Option.some.inj h
      rw [hk]
      exact List.mem_cons_self _ _
    · exact List.mem_cons_of_mem _ (ih h)

theorem map_find_of_mem {k v : Nat} {m : List (Nat × Nat)} (hnd : (m.map Prod.fst).Nodup)
    (h : (k, v) ∈ m) : map_find k m = some v := by
  induction m with
  | nil => exact absurd h (List.not_mem_nil _)
  | cons a m ih =>
    obtain ⟨k', v'⟩ := a
    simp only [List.map_cons, List.nodup_cons] at hnd
    unfold map_find
    rcases List.mem_cons.1 h with heq | hmem
    · cases heq
      simp
    · have hne : ¬ k' = k := by
        intro hk
        apply hnd.1
        rw [hk]
        exact List.mem_map.2 ⟨(k, v), hmem, rfl⟩
      rw [if_neg hne]
      exact ih hnd.2 hmem

theorem absent_iff (s : vfs) (p : List Nat) :
    absent s p = true ↔ ∀ k e n, (k, e) ∈ s.m_nodes → deref s e = some n →
      n.m_path.map tolower ≠ p.map tolower := by
  unfold absent
  rw [List.all_eq_true]
  constructor
  · intro h k e n hmem hn
    have := h (k, e) hmem
    simp only [hn, decide_eq_true_eq] at this
    exact this
  · intro h kv hmem
    cases hd : deref s kv.2 with
    | none => rfl
    | some n =>
      simp only [decide_eq_true_eq]
      exact h kv.1 kv.2 n hmem hd

/-- In the case-folding regime `get` finds a node only under the folded form
of its path. -/
theorem get_folded {m_hasher : List Nat → Nat} (hinj : Function.Injective m_hasher)
    {s : vfs} (hs : Inv m_hasher s) (hf : Folded m_hasher s) {p : List Nat} {e : Nat}
    (h : get m_hasher s p = some e) :
    ∃ n, deref s e = some n ∧ (m_hasher p, e) ∈ s.m_nodes ∧ n.m_path.map tolower = p := by
  obtain ⟨-, hfind⟩ := get_eq_some h
  obtain ⟨n, hn, hh⟩ := hs.index_live _ _ hfind
  rw [hf.hash_path e n hn] at hh
  exact ⟨n, hn, mem_of_map_find hfind, hinj hh⟩

theorem remove_of_get_none {m_hasher : List Nat → Nat} {s : vfs} {p : List Nat}
    (h : get m_hasher s p = none) (r : Bool) : remove m_hasher s p r = .ok (false, s) := by
  unfold remove
  split
  · rfl
  · simp only [h]

theorem remove_absent {m_hasher : List Nat → Nat} (hinj : Function.Injective m_hasher)
    {s : vfs} (hs : Inv m_hasher s) (hf : Folded m_hasher s) {p : List Nat}
    (h : absent s p = true) (r : Bool) : remove m_hasher s p r = .ok (false, s) := by
  refine remove_of_get_none ?_ r
  cases hg : get m_hasher s p with
  | none => rfl
  | some e =>
    obtain ⟨n, hn, hmem, hp⟩ := get_folded hinj hs hf hg
    have := (absent_iff s p).1 h _ e n hmem hn
    rw [← hp, map_tolower_idem] at this
    exact absurd rfl this

theorem remove_illegal {m_hasher : List Nat → Nat} (hinj : Function.Injective m_hasher)
    {s : vfs} (hs : Inv m_hasher s) (hf : Folded m_hasher s) {p : List Nat}
    (h : p.any illegal = true) (r : Bool) : remove m_hasher s p r = .ok (false, s) := by
  refine remove_of_get_none ?_ r
  cases hg : get m_hasher s p with
  | none => rfl
  | some e =>
    obtain ⟨n, hn, -, hp⟩ := get_folded hinj hs hf hg
    have hl := hf.legal e n hn
    rw [← any_illegal_map_tolower, hp, h] at hl
    exact Bool.noConfusion hl

theorem remove_node_gone {m_hasher : List Nat → Nat} {s s' : vfs} {e : Nat} {r : Bool}
    (hs : Inv m_hasher s) (h : remove_node s e r = .ok (true, s')) : deref s' e = none := by
  have hgone : ∀ (s0 : vfs), Inv m_hasher s0 → delete_node s0 (some e) = .ok (true, s') →
      deref s' e = none := by
    intro s0 hs0 h0
    rcases delete_node_removed hs0 h0 with ⟨hb, -⟩ | ⟨-, n, v, -, -, hr⟩
    · exact Bool.noConfusion hb
    · exact hr.gone
  unfold remove_node at h
  split at h
  · exact Except.noConfusion h
  · split at h
    · split at h
      · simp only [Except.ok.injEq, Prod.mk.injEq] at h
        exact Bool.noConfusion h.1
      · exact hgone s hs h
    · split at h
      · simp only [Except.ok.injEq, Prod.mk.injEq] at h
        exact Bool.noConfusion h.1
      · split at h
        · exact Except.noConfusion h
        · simp only [Except.ok.injEq, Prod.mk.injEq] at h
          exact Bool.noConfusion h.1
        · rename_i s1 h1
          exact hgone s1 (delete_recursive_keeps _ _ _ _ _ hs h1).1.1 h

theorem absent_after_remove {m_hasher : List Nat → Nat} (hinj : Function.Injective m_hasher)
    {s s1 : vfs} (hs : Inv m_hasher s) (hf : Folded m_hasher s) {p : List Nat} {r : Bool}
    (h : remove m_hasher s p r = .ok (true, s1)) : absent s1 p = true := by
  have hk := remove_keeps hs h
  cases hg : get m_hasher s p with
  | none =>
    rw [remove_of_get_none hg r] at h
    simp only [Except.ok.injEq, Prod.mk.injEq] at h
    exact Bool.noConfusion h.1
  | some e =>
    obtain ⟨n0, hn0, -, hp⟩ := get_folded hinj hs hf hg
    have hrn : remove_node s e r = .ok (true, s1) := by
      unfold remove at h
      simp only [(get_eq_some hg).1, Bool.not_true, Bool.false_eq_true, if_false, hg] at h
      exact h
    have hgone := remove_node_gone hs hrn
    rw [absent_iff]
    intro k x n _ hx hcontra
    obtain ⟨n', hn', hsf, -⟩ := hk.2.1 x n hx
    have h1 := hf.indexed x n' hn'
    have h2 := hf.indexed e n0 hn0
    rw [hf.hash_path x n' hn', ← hsf.2.2.2.2, hcontra, ← hp, map_tolower_idem,
      ← hf.hash_path e n0 hn0, h2] at h1
    cases Option.some.inj h1
    rw [hgone] at hx
    exact Option.noConfusion hx

theorem absent_after_deletes {m_hasher : List Nat → Nat} {s s1 : vfs}
    (hd : Deletes m_hasher s s1) (hs : Inv m_hasher s) {p : List Nat}
    (h : absent s p = true) : absent s1 p = true := by
  have hk := deletes_keeps hd hs
  have hdr := deletes_drops hd hs
  rw [absent_iff] at h ⊢
  intro k x n hmem hx
  obtain ⟨n', hn', hsf, -⟩ := hk.2.1 x n hx
  rw [hsf.2.2.2.2]
  exact h k x n' (mem_of_map_find (hdr.1 k x (map_find_of_mem hk.1.keys_nodup hmem))) hn'

theorem absent_after_add {m_hasher : List Nat → Nat} (hinj : Function.Injective m_hasher)
    {s s1 : vfs} (hs : Inv m_hasher s) {p q rest : List Nat} {r : Option Nat}
    (hlen : q.length < SIZE_MOD) (h : absent s p = true)
    (hadd : add m_hasher s q rest = .ok (r, s1))
    (hq : ∀ i, (ancestor_path i q).map tolower ≠ p.map tolower) : absent s1 p = true := by
  rcases add_ok_cases hadd with ⟨-, -, rfl⟩ | ⟨-, h1, -⟩
  · exact h
  · obtain ⟨-, -, hbw, -, hnew⟩ := add_node_grows hinj _ s q rest r s1 hs hlen h1
    have hs1 := add_inv hinj hs hlen hadd
    rw [absent_iff] at h ⊢
    intro k x n hmem hx
    rcases hnew x n hx with ⟨n', hn', hsf⟩ | ⟨-, -, -, -, i, hi⟩
    · rw [hsf.2.2.2.2]
      rcases hbw k x (map_find_of_mem hs1.keys_nodup hmem) with hk | hk
      · exact h k x n' (mem_of_map_find hk) hn'
      · exact absurd (deref_lt hn') (Nat.not_lt.2 hk)
    · rw [hi]
      exact hq i

theorem absent_vfs_new (m_hasher : List Nat → Nat) (cfg : vfs_settings) {p : List Nat}
    (hp : p ≠ []) : absent (vfs_new m_hasher cfg) p = true := by
  rw [absent_iff]
  intro k e n _ hn hc
  obtain ⟨-, rfl⟩ := deref_vfs_new hn
  exact hp (List.map_eq_nil_iff.1 hc.symm)

/-! ### The chain of parents -/

theorem parent_walk_spec {m_hasher : List Nat → Nat} {s : vfs} (hs : Inv m_hasher s)
    (hf : Folded m_hasher s) :
    ∀ (i e : Nat) (n : node), deref s e = some n → i ≤ segments n.m_path →
      ∃ q nq, parent_walk s i e = some q ∧ deref s q = some nq ∧
        nq.m_path.map tolower = (ancestor_path i n.m_path).map tolower ∧
        segments nq.m_path + i = segments n.m_path := by
  intro i
  induction i with
  | zero =>
    intro e n hn _
    exact ⟨e, n, rfl, hn, rfl, rfl⟩
  | succ i ih =>
    intro e n hn hle
    have hne : n.m_path ≠ [] := by
      intro h
      rw [h, segments_nil] at hle
      exact Nat.not_succ_le_zero _ hle
    have hroot : n.m_is_root = false := by
      cases hr : n.m_is_root with
      | false => rfl
      | true => exact absurd ((hf.root_path e n hn).1 hr) hne
    obtain ⟨p, pn, cs, hpar, hpn, -, -, -⟩ := hs.parent_ok e n hn hroot
    have hpp := hf.parent_path e n p pn hn hpar hpn
    have hseg : segments pn.m_path = segments (split_path n.m_path).1 := by
      rw [← segments_map_tolower pn.m_path, hpp, segments_map_tolower]
    have hsucc := segments_succ hne
    obtain ⟨q, nq, hw, hq, hpath, hsum⟩ := ih p pn hpn (by omega)
    refine ⟨q, nq, ?_, hq, ?_, by omega⟩
    · rw [parent_walk_succ i hn hpar]
      exact hw
    · rw [hpath, ← ancestor_path_map_tolower, hpp, ancestor_path_map_tolower,
        ancestor_path_succ]

/-! ## The claims on absent paths and on the chain of parents -/

/-- C12.  Under the default configuration, in every state reached from the
constructor by calls of `add` and `remove`, with a hasher that has no
collision: `remove(p, r)` returns false and leaves the index as it is, for both
values of `r`, when `p` is absent, that is when no node of the index has the
path `p` up to letter case, and when `p` holds a byte outside [32,126].  A path
that was never added or has been removed is absent: every non-empty path is
absent in the fresh index; a path absent before a call of `add(q)` is absent
after it unless it is, up to letter case, `q` or one of the successive splits
of `q`, the directories that `add` creates on the way; a path absent before a
call of `remove` is absent after it; and `p` is absent after a call
`remove(p, r)` that returned true. -/
theorem remove_absent_or_illegal (m_hasher : List Nat → Nat)
    (hinj : Function.Injective m_hasher) (s : vfs)
    (hs : Reach m_hasher g_default_settings s) (p : List Nat) (r : Bool) :
    (absent s p = true → remove m_hasher s p r = .ok (false, s)) ∧
    ((∃ c ∈ p, c < 32 ∨ 126 < c) → remove m_hasher s p r = .ok (false, s)) ∧
    (p ≠ [] → absent (vfs_new m_hasher g_default_settings) p = true) ∧
    (∀ (q rest : List Nat) (r' : Option Nat) (s1 : vfs), q.length < SIZE_MOD →
      absent s p = true → add m_hasher s q rest = .ok (r', s1) →
      (∀ i, (ancestor_path i q).map tolower ≠ p.map tolower) → absent s1 p = true) ∧
    (∀ (q : List Nat) (r0 b : Bool) (s1 : vfs), absent s p = true →
      remove m_hasher s q r0 = .ok (b, s1) → absent s1 p = true) ∧
    (∀ (r0 : Bool) (s1 : vfs), remove m_hasher s p r0 = .ok (true, s1) →
      absent s1 p = true) := by
  have hinv := reach_inv hinj hs
  have hf : Folded m_hasher s := reach_folded hinj rfl rfl hs
  refine ⟨fun h => remove_absent hinj hinv hf h r,
    fun h => remove_illegal hinj hinv hf (any_illegal_of_byte h) r,
    fun h => absent_vfs_new m_hasher g_default_settings h,
    fun q rest r' s1 hlen h hadd hq => absent_after_add hinj hinv hlen h hadd hq,
    fun q r0 b s1 h hrem => absent_after_deletes (remove_deletes hinv hrem) hinv h,
    fun r0 s1 hrem => absent_after_remove hinj hinv hf hrem⟩

/-- C12, at an input: the default index that holds "file1.png", with the
absent path "file2.png" and with a path that holds the byte 255. -/
theorem remove_absent_or_illegal_witness :
    remove sample_hasher
        (add_all sample_hasher (vfs_new sample_hasher g_default_settings) [bytes "file1.png"])
        (bytes "file2.png") false
      = .ok (false,
          add_all sample_hasher (vfs_new sample_hasher g_default_settings) [bytes "file1.png"]) ∧
    remove sample_hasher
        (add_all sample_hasher (vfs_new sample_hasher g_default_settings) [bytes "file1.png"])
        (bytes "file" ++ [255]) true
      = .ok (false,
          add_all sample_hasher (vfs_new sample_hasher g_default_settings) [bytes "file1.png"]) :=
  ⟨(remove_absent_or_illegal sample_hasher sample_hasher_injective _
      (reach_add_all _ _ Reach.init (by decide)) (bytes "file2.png") false).1 (by decide),
   (remove_absent_or_illegal sample_hasher sample_hasher_injective _
      (reach_add_all _ _ Reach.init (by decide)) (bytes "file" ++ [255]) true).2.1
      ⟨255, by decide, Or.inr (by decide)⟩⟩

/-- C18, a state where the claim fails as stated.  Under the default
configuration, after `add("A/x")` and `add("a/y")` on a fresh index the file
"a/y" is node 3 and its parent is node 1, the directory created for "A/x",
whose stored path is "A/": it is not the first component "a/" of
`split_path("a/y")`.  The two agree only up to letter case. -/
theorem parent_path_case_differs :
    Reach sample_hasher g_default_settings
      (add_all sample_hasher (vfs_new sample_hasher g_default_settings)
        [bytes "A/x", bytes "a/y"]) ∧
    get sample_hasher
      (add_all sample_hasher (vfs_new sample_hasher g_default_settings)
        [bytes "A/x", bytes "a/y"]) (bytes "a/y") = some 3 ∧
    (deref (add_all sample_hasher (vfs_new sample_hasher g_default_settings)
        [bytes "A/x", bytes "a/y"]) 3).map (fun n => (n.m_is_root, n.m_path, n.m_parent))
      = some (false, bytes "a/y", some 1) ∧
    (deref (add_all sample_hasher (vfs_new sample_hasher g_default_settings)
        [bytes "A/x", bytes "a/y"]) 1).map (fun n => n.m_path) = some (bytes "A/") ∧
    (split_path (bytes "a/y")).1 = bytes "a/" ∧ bytes "A/" ≠ bytes "a/" :=
  ⟨reach_add_all _ _ Reach.init (by decide), by decide, by decide, by decide, by decide,
    by decide⟩

/-- C18, amended.  Under the default configuration, in every state reached
from the constructor by calls of `add` and `remove`, with a hasher that has no
collision, let `n` be a node that is not the root; it is indexed, under its
hash, as every node is in these states.  Its parent is an
indexed node whose path is, up to letter case, the first component of
`split_path` of the path of `n`.  Walking `parent()` from `n`, the node met
after `i` steps, for every `i` up to the number of segments of the path of `n`,
is an indexed node whose path is, up to letter case, the `i`-th successive
split of the path of `n`, and it is the root exactly when `i` is the number of
segments: there the walk is at `m_root_node`, whose path is empty. -/
theorem parent_chain (m_hasher : List Nat → Nat) (hinj : Function.Injective m_hasher)
    (s : vfs) (hs : Reach m_hasher g_default_settings s) (e : Nat) (n : node)
    (hn : deref s e = some n) (hroot : n.m_is_root = false) :
    map_find n.m_hash s.m_nodes = some e ∧
    (∃ p pn, n.m_parent = some p ∧ deref s p = some pn ∧
      map_find pn.m_hash s.m_nodes = some p ∧
      pn.m_path.map tolower = (split_path n.m_path).1.map tolower) ∧
    (∀ i, i ≤ segments n.m_path → ∃ q nq, parent_walk s i e = some q ∧
      deref s q = some nq ∧ map_find nq.m_hash s.m_nodes = some q ∧
      nq.m_path.map tolower = (ancestor_path i n.m_path).map tolower ∧
      (nq.m_is_root = true ↔ i = segments n.m_path)) ∧
    (∃ q nq, parent_walk s (segments n.m_path) e = some q ∧ s.m_root_node = some q ∧
      deref s q = some nq ∧ nq.m_is_root = true ∧ nq.m_path = []) := by
  have hinv := reach_inv hinj hs
  have hf : Folded m_hasher s := reach_folded hinj rfl rfl hs
  have hwalk : ∀ i, i ≤ segments n.m_path → ∃ q nq, parent_walk s i e = some q ∧
      deref s q = some nq ∧ map_find nq.m_hash s.m_nodes = some q ∧
      nq.m_path.map tolower = (ancestor_path i n.m_path).map tolower ∧
      (nq.m_is_root = true ↔ i = segments n.m_path) := by
    intro i hi
    obtain ⟨q, nq, hw, hq, hpath, hsum⟩ := parent_walk_spec hinv hf i e n hn hi
    refine ⟨q, nq, hw, hq, hf.indexed q nq hq, hpath, ?_⟩
    rw [hf.root_path q nq hq, ← segments_eq_zero]
    omega
  refine ⟨hf.indexed e n hn, ?_, hwalk, ?_⟩
  · obtain ⟨p, pn, cs, hpar, hpn, -, -, -⟩ := hinv.parent_ok e n hn hroot
    exact ⟨p, pn, hpar, hpn, hf.indexed p pn hpn, hf.parent_path e n p pn hn hpar hpn⟩
  · obtain ⟨q, nq, hw, hq, -, -, hr⟩ := hwalk (segments n.m_path) (Nat.le_refl _)
    have hr' := hr.2 rfl
    exact ⟨q, nq, hw, hf.root_is q nq hq hr', hq, hr', (hf.root_path q nq hq).1 hr'⟩

/-- C18, at an input: the file "a/y", node 3, of the default index that holds
"A/x" and "a/y". -/
theorem parent_chain_witness :
    map_find (node.mk true false none (sample_hasher (bytes "a/y")) (bytes "a/y")
        (some 1)).m_hash
      (add_all sample_hasher (vfs_new sample_hasher g_default_settings)
        [bytes "A/x", bytes "a/y"]).m_nodes = some 3 ∧
    (∃ p pn, (node.mk true false none (sample_hasher (bytes "a/y")) (bytes "a/y")
        (some 1)).m_parent = some p ∧
      deref (add_all sample_hasher (vfs_new sample_hasher g_default_settings)
        [bytes "A/x", bytes "a/y"]) p = some pn ∧
      map_find pn.m_hash (add_all sample_hasher (vfs_new sample_hasher g_default_settings)
        [bytes "A/x", bytes "a/y"]).m_nodes = some p ∧
      pn.m_path.map tolower = (split_path (bytes "a/y")).1.map tolower) ∧
    (∀ i, i ≤ segments (bytes "a/y") → ∃ q nq,
      parent_walk (add_all sample_hasher (vfs_new sample_hasher g_default_settings)
        [bytes "A/x", bytes "a/y"]) i 3 = some q ∧
      deref (add_all sample_hasher (vfs_new sample_hasher g_default_settings)
        [bytes "A/x", bytes "a/y"]) q = some nq ∧
      map_find nq.m_hash (add_all sample_hasher (vfs_new sample_hasher g_default_settings)
        [bytes "A/x", bytes "a/y"]).m_nodes = some q ∧
      nq.m_path.map tolower = (ancestor_path i (bytes "a/y")).map tolower ∧
      (nq.m_is_root = true ↔ i = segments (bytes "a/y"))) ∧
    (∃ q nq,
      parent_walk (add_all sample_hasher (vfs_new sample_hasher g_default_settings)
        [bytes "A/x", bytes "a/y"]) (segments (bytes "a/y")) 3 = some q ∧
      (add_all sample_hasher (vfs_new sample_hasher g_default_settings)
        [bytes "A/x", bytes "a/y"]).m_root_node = some q ∧
      deref (add_all sample_hasher (vfs_new sample_hasher g_default_settings)
        [bytes "A/x", bytes "a/y"]) q = some nq ∧ nq.m_is_root = true ∧ nq.m_path = []) :=
  parent_chain sample_hasher sample_hasher_injective _
    (reach_add_all _ _ Reach.init (by decide)) 3
    (node.mk true false none (sample_hasher (bytes "a/y")) (bytes "a/y") (some 1))
    (by decide) rfl

/-! ### The children lists after add_node -/

theorem attach_live {s1 : vfs} {hash : Nat} {path : List Nat} {p : Nat} {pn : node}
    (hpn : deref s1 p = some pn) {q : Nat} {n' : node}
    (h : deref (attach s1 hash path p pn) q = some n') :
    (q = s1.heap.length ∧ n' = new_node hash path (some p)) ∨
    (q ≠ s1.heap.length ∧ ∃ n, deref s1 q = some n ∧ same_fields n n' ∧ (q ≠ p → n' = n) ∧
      (q = p → n'.m_dir = some (n.m_dir.getD [] ++ [s1.heap.length]))) := by
  have hp := deref_lt hpn
  rcases attach_live_cases hpn h with ⟨h1, h2⟩ | ⟨rfl, rfl⟩ | ⟨h0, h1, h2⟩
  · exact Or.inl ⟨h1, h2⟩
  · exact Or.inr ⟨Nat.ne_of_lt hp, pn, hpn, ⟨rfl, rfl, rfl, rfl, rfl⟩,
      fun hc => absurd rfl hc, fun _ => rfl⟩
  · exact Or.inr ⟨h1, n', h2, same_fields_refl n', fun _ => rfl, fun hc => absurd hc h0⟩

/-- The children lists after `add_node`.  A node of the state before keeps its
`dir`, or gets one node appended, a node created by the call; a node created
by the call has a null `dir` when it is the node returned, and else a `dir`
with one child, created by the call as well. -/
theorem add_node_dirs {m_hasher : List Nat → Nat} (hinj : Function.Injective m_hasher) :
    ∀ (fuel : Nat) (s : vfs) (path rest : List Nat) (r : Option Nat) (s' : vfs),
      Inv m_hasher s → path.length < SIZE_MOD →
      add_node m_hasher fuel s path rest = .ok (r, s') →
      (s = s' ∨ ∃ c, r = some c ∧ s.heap.length ≤ c) ∧
      (∀ q n n', deref s q = some n → deref s' q = some n' →
        (n'.m_dir = n.m_dir ∧
          ∀ c nc, s.heap.length ≤ c → deref s' c = some nc → nc.m_parent ≠ some q) ∨
        (∃ c nc, s.heap.length ≤ c ∧ deref s' c = some nc ∧ nc.m_parent = some q ∧
          n'.m_dir = some (n.m_dir.getD [] ++ [c]) ∧
          ∀ c' nc', s.heap.length ≤ c' → deref s' c' = some nc' →
            nc'.m_parent = some q → c' = c)) ∧
      (∀ c nc, s.heap.length ≤ c → deref s' c = some nc →
        (r = some c ∧ nc.m_dir = none) ∨
        (r ≠ some c ∧ ∃ c' nc', s.heap.length ≤ c' ∧ deref s' c' = some nc' ∧
          nc'.m_parent = some c ∧ nc.m_dir = some [c'])) := by
  intro fuel
  induction fuel with
  | zero =>
    intro s path rest r s' _ _ h
    exact Except.noConfusion h
  | succ fuel ih =>
    intro s path rest r s' hs hlen h
    have hsame : ∀ r0 : Option Nat,
        (s = s ∨ ∃ c, r0 = some c ∧ s.heap.length ≤ c) ∧
        (∀ q n n', deref s q = some n → deref s q = some n' →
          (n'.m_dir = n.m_dir ∧
            ∀ c nc, s.heap.length ≤ c → deref s c = some nc → nc.m_parent ≠ some q) ∨
          (∃ c nc, s.heap.length ≤ c ∧ deref s c = some nc ∧ nc.m_parent = some q ∧
            n'.m_dir = some (n.m_dir.getD [] ++ [c]) ∧
            ∀ c' nc', s.heap.length ≤ c' → deref s c' = some nc' →
              nc'.m_parent = some q → c' = c)) ∧
        (∀ c nc, s.heap.length ≤ c → deref s c = some nc →
          (r0 = some c ∧ nc.m_dir = none) ∨
          (r0 ≠ some c ∧ ∃ c' nc', s.heap.length ≤ c' ∧ deref s c' = some nc' ∧
            nc'.m_parent = some c ∧ nc.m_dir = some [c'])) := by
      intro r0
      refine ⟨Or.inl rfl, ?_, ?_⟩
      · intro q n n' hq hq'
        rw [hq] at hq'
        cases Option.some.inj hq'
        exact Or.inl ⟨rfl, fun c nc hc hcl => absurd (deref_lt hcl) (Nat.not_lt.2 hc)⟩
      · intro c nc hc hcl
        exact absurd (deref_lt hcl) (Nat.not_lt.2 hc)
    rcases add_node_ok_cases h with ⟨-, -, rfl⟩ | ⟨-, -, -, rfl⟩ | ⟨-, -, _, -, -, rfl⟩ |
      ⟨-, hpath, hnone, p, s1, pn, hrec, hpn, rfl, rfl⟩
    · exact hsame _
    · exact hsame _
    · exact hsame _
    · have hlen' : (split_path path).1.length < SIZE_MOD :=
        Nat.lt_trans (split_path_fst_length_lt hpath) hlen
      obtain ⟨hC1, hA1, hB1⟩ := ih s _ _ _ s1 hs hlen' hrec
      obtain ⟨hlen1, -, -, -, -⟩ := add_node_grows hinj fuel s _ _ _ s1 hs hlen' hrec
      obtain ⟨hinv1, -, -, -, hlt, -⟩ := add_node_inv hinj fuel s _ _ _ s1 hs hlen' hrec
      have hp : p < s1.heap.length := hlt p rfl
      have hpn' : deref s1 p = some pn := by
        rw [deref_alloc_old _ (Nat.ne_of_lt hp)] at hpn
        exact hpn
      clear hlen hlen' hrec h hsame ih hpn hlt
      refine ⟨Or.inr ⟨_, rfl, hlen1⟩, ?_, ?_⟩
      · intro q n n' hq hq'
        have hqlt := deref_lt hq
        by_cases hpold : p < s.heap.length
        · have hs1 : s = s1 := by
            rcases hC1 with h | ⟨c, hc, hle⟩
            · exact h
            · cases Option.some.inj hc
              omega
          subst hs1
          by_cases hqp : q = p
          · subst hqp
            right
            rw [hq] at hpn'
            cases Option.some.inj hpn'
            refine ⟨s.heap.length, _, Nat.le_refl _, attach_deref_new _ _ _ _ hqlt, rfl, ?_, ?_⟩
            · rw [attach_deref_parent _ _ _ _ hqlt] at hq'
              cases Option.some.inj hq'
              rfl
            · intro c' nc' hc' hcl' _
              rcases attach_live hq hcl' with ⟨h1, -⟩ | ⟨-, n0, hn0, -⟩
              · exact h1
              · exact absurd (deref_lt hn0) (Nat.not_lt.2 hc')
          · left
            rw [attach_deref_other _ _ _ _ _ hqp (Nat.ne_of_lt hqlt), hq] at hq'
            cases Option.some.inj hq'
            refine ⟨rfl, ?_⟩
            intro c nc hc hcl hpar
            rcases attach_live hpn' hcl with ⟨-, rfl⟩ | ⟨-, n0, hn0, -⟩
            · exact hqp (Option.some.inj hpar).symm
            · exact absurd (deref_lt hn0) (Nat.not_lt.2 hc)
        · have hqp : q ≠ p := by omega
          have hq1 : deref s1 q = some n' := by
            rw [attach_deref_other _ _ _ _ _ hqp (by omega)] at hq'
            exact hq'
          rcases hA1 q n n' hq hq1 with ⟨hdir, hno⟩ | ⟨c, nc, hc, hcl, hcp, hdir, huniq⟩
          · left
            refine ⟨hdir, ?_⟩
            intro c nc hc hcl hpar
            rcases attach_live hpn' hcl with ⟨-, rfl⟩ | ⟨-, n0, hn0, hsf, -⟩
            · exact hqp (Option.some.inj hpar).symm
            · exact hno c n0 hc hn0 (hsf.1.symm.trans hpar)
          · right
            obtain ⟨nc', hcl', -, -, -, -, hpar', -⟩ := attach_old
              (hash_entry m_hasher s.m_settings path rest) path hpn' hcl
            refine ⟨c, nc', hc, hcl', hpar'.trans hcp, hdir, ?_⟩
            intro c' nc'' hc' hcl'' hpar
            rcases attach_live hpn' hcl'' with ⟨-, rfl⟩ | ⟨-, n0, hn0, hsf, -⟩
            · exact absurd (Option.some.inj hpar).symm hqp
            · exact huniq c' n0 hc' hn0 (hsf.1.symm.trans hpar)
      · intro c nc hc hcl
        rcases attach_live hpn' hcl with ⟨rfl, rfl⟩ | ⟨hne, n0, hn0, hsf, hother, hpar⟩
        · exact Or.inl ⟨rfl, rfl⟩
        · right
          refine ⟨fun h => hne (Option.some.inj h).symm, ?_⟩
          rcases hB1 c n0 hc hn0 with ⟨hrc, hnone0⟩ | ⟨hrc, c', nc', hc', hcl', hcp', hdir'⟩
          · cases Option.some.inj hrc
            refine ⟨s1.heap.length, _, hlen1, attach_deref_new _ _ _ _ hp, rfl, ?_⟩
            rw [hpar rfl, hnone0]
            rfl
          · have hcp : c ≠ p := fun h => hrc (by rw [h])
            rw [hother hcp]
            obtain ⟨nc'', hcl'', -, -, -, -, hpar'', -⟩ := attach_old
              (hash_entry m_hasher s.m_settings path rest) path hpn' hcl'
            exact ⟨c', nc'', hc', hcl'', hpar''.trans hcp', hdir'⟩

/-! ## Lazy allocation of the children container -/

/-- Lazy allocation of `dir`, children being told by their parent link.  In
every state reached from the constructor by calls of `add` and `remove`, for
every configuration, with a hasher that has no collision:
a node that a call of `add` creates and returns has a null `dir` after the
call; a node `d` with a null `dir` keeps it through a call of `add` that
creates no node with parent `d`, and else the call creates one such node `c`
and the `dir` of `d` is allocated with the children list `[c]`; a call of
`remove` leaves a null `dir` null.  In particular, under the default
configuration, after `add("folder1/")` on a fresh index node 1, the directory
"folder1/", has a null `dir`, and after `add("folder1/x")` its `dir` holds
the one child node 2, so its size is 1. -/
theorem lazy_directory_allocation (m_hasher : List Nat → Nat)
    (hinj : Function.Injective m_hasher) (cfg : vfs_settings) (s : vfs)
    (hs : Reach m_hasher cfg s) :
    (∀ (path rest : List Nat) (r : Option Nat) (s' : vfs) (e : Nat) (ne : node),
      path.length < SIZE_MOD → add m_hasher s path rest = .ok (r, s') → r = some e →
      deref s e = none → deref s' e = some ne → ne.m_dir = none) ∧
    (∀ (d : Nat) (nd : node) (path rest : List Nat) (r : Option Nat) (s' : vfs),
      deref s d = some nd → nd.m_dir = none → path.length < SIZE_MOD →
      add m_hasher s path rest = .ok (r, s') →
      ∃ nd', deref s' d = some nd' ∧
        ((nd'.m_dir = none ∧
            ∀ c nc, deref s c = none → deref s' c = some nc → nc.m_parent ≠ some d) ∨
          ∃ c nc, deref s c = none ∧ deref s' c = some nc ∧ nc.m_parent = some d ∧
            nd'.m_dir = some [c])) ∧
    (∀ (d : Nat) (nd nd' : node) (path : List Nat) (r b : Bool) (s' : vfs),
      deref s d = some nd → nd.m_dir = none → remove m_hasher s path r = .ok (b, s') →
      deref s' d = some nd' → nd'.m_dir = none) ∧
    ((∀ k ∈ [[], bytes "folder1/", bytes "folder1/x"], m_hasher k ≠ INVALID) →
      (do let (_, s1) ← add m_hasher (vfs_new m_hasher g_default_settings) (bytes "folder1/") []
          let (_, s2) ← add m_hasher s1 (bytes "folder1/x") []
          pure ((deref s1 1).map (fun n => (n.m_is_file, n.m_path, n.m_dir)),
            (deref s2 1).map (fun n => (n.m_path, n.m_dir, n.m_dir.map dir_size))))
        = Except.ok (some (false, bytes "folder1/", none),
            some (bytes "folder1/", some [2], some 1))) := by
  have hinv := reach_inv hinj hs
  have hdead : ∀ c, s.heap.length ≤ c → deref s c = none := by
    intro c hc
    cases hd : deref s c with
    | none => rfl
    | some n => exact absurd (deref_lt hd) (Nat.not_lt.2 hc)
  refine ⟨?_, ?_, ?_, ?_⟩
  · intro path rest r s' e ne hlen hadd hr he he'
    rcases add_ok_cases hadd with ⟨-, h2, -⟩ | ⟨-, h1, -⟩
    · rw [hr] at h2
      exact Option.noConfusion h2
    · obtain ⟨-, -, -, -, hnew⟩ := add_node_grows hinj _ s path rest r s' hinv hlen h1
      obtain ⟨-, -, hB⟩ := add_node_dirs hinj _ s path rest r s' hinv hlen h1
      rcases hnew e ne he' with ⟨n, hn, -⟩ | ⟨hle, -⟩
      · rw [he] at hn
        exact Option.noConfusion hn
      · rcases hB e ne hle he' with ⟨-, hnone⟩ | ⟨hne, -⟩
        · exact hnone
        · exact absurd hr hne
  · intro d nd path rest r s' hd hnull hlen hadd
    rcases add_ok_cases hadd with ⟨-, -, rfl⟩ | ⟨-, h1, -⟩
    · refine ⟨nd, hd, Or.inl ⟨hnull, ?_⟩⟩
      intro c nc hc hc'
      rw [hc] at hc'
      exact Option.noConfusion hc'
    · obtain ⟨-, -, -, hold, hnew⟩ := add_node_grows hinj _ s path rest r s' hinv hlen h1
      obtain ⟨-, hA, -⟩ := add_node_dirs hinj _ s path rest r s' hinv hlen h1
      obtain ⟨nd', hd', -⟩ := hold d nd hd
      refine ⟨nd', hd', ?_⟩
      rcases hA d nd nd' hd hd' with ⟨hdir, hno⟩ | ⟨c, nc, hc, hcl, hcp, hdir, -⟩
      · left
        refine ⟨hdir.trans hnull, ?_⟩
        intro c nc hc hc'
        rcases hnew c nc hc' with ⟨n, hn, -⟩ | ⟨hle, -⟩
        · rw [hc] at hn
          exact Option.noConfusion hn
        · exact hno c nc hle hc'
      · right
        refine ⟨c, nc, hdead c hc, hcl, hcp, ?_⟩
        rw [hdir, hnull]
        rfl
  · intro d nd nd' path r b s' hd hnull hrem hd'
    obtain ⟨n0, hn0, -, hnone, -⟩ := (remove_keeps hinv hrem).2.1 d nd' hd'
    rw [hd] at hn0
    cases Option.some.inj hn0
    exact hnone hnull
  · intro hval
    have hD : bytes "folder1/" = [102, 111, 108, 100, 101, 114, 49, 47] := by decide
    have hX : bytes "folder1/x" = [102, 111, 108, 100, 101, 114, 49, 47, 120] := by decide
    rw [hD, hX] at hval ⊢
    simp only [List.mem_cons, List.mem_singleton, List.not_mem_nil, or_false,
      forall_eq_or_imp, forall_eq, ne_eq] at hval
    obtain ⟨hv0, hv1, hv2⟩ := hval
    have h01 : m_hasher [] ≠ m_hasher [102, 111, 108, 100, 101, 114, 49, 47] :=
      fun h => by simpa using hinj h
    have h02 : m_hasher [] ≠ m_hasher [102, 111, 108, 100, 101, 114, 49, 47, 120] :=
      fun h => by simpa using hinj h
    have h12 : m_hasher [102, 111, 108, 100, 101, 114, 49, 47]
        ≠ m_hasher [102, 111, 108, 100, 101, 114, 49, 47, 120] :=
      fun h => by simpa using hinj h
    have hsp1 : split_path [102, 111, 108, 100, 101, 114, 49, 47, 120]
        = ([102, 111, 108, 100, 101, 114, 49, 47], [120]) := by decide
    have hsp2 : split_path [102, 111, 108, 100, 101, 114, 49, 47]
        = ([], [102, 111, 108, 100, 101, 114, 49, 47]) := by decide
    simp [add, add_node, vfs_new, hash_entry, g_default_settings, illegal, c_str, tolower,
      get_node, map_find, map_insert, hsp1, hsp2, deref, store, add_child, hv0, hv1, hv2,
      h01, h02, h12, Ne.symm h01, Ne.symm h02, Ne.symm h12, SLASH, dir_size, bind,
      Except.bind, pure, Except.pure]

/-- Lazy allocation at an input: the sample hasher and the fresh default index. -/
theorem lazy_directory_allocation_witness :
    (do let (_, s1) ← add sample_hasher (vfs_new sample_hasher g_default_settings)
          (bytes "folder1/") []
        let (_, s2) ← add sample_hasher s1 (bytes "folder1/x") []
        pure ((deref s1 1).map (fun n => (n.m_is_file, n.m_path, n.m_dir)),
          (deref s2 1).map (fun n => (n.m_path, n.m_dir, n.m_dir.map dir_size))))
      = Except.ok (some (false, bytes "folder1/", none),
          some (bytes "folder1/", some [2], some 1)) :=
  (lazy_directory_allocation sample_hasher sample_hasher_injective g_default_settings _
    Reach.init).2.2.2 (fun k _ => sample_hasher_ne_invalid k)

/-! ### Textual containment; the nodes find collects -/

theorem starts_with_iff : ∀ (h n : List Nat), starts_with h n = true ↔ n <+: h
  | h, [] => by simp [starts_with]
  | [], y :: ys => by simp [starts_with]
  | x :: xs, y :: ys => by
    rw [starts_with, Bool.and_eq_true, decide_eq_true_eq, starts_with_iff xs ys,
      List.cons_prefix_cons]
    exact ⟨fun h => ⟨h.1.symm, h.2⟩, fun h => ⟨h.1.symm, h.2⟩⟩

theorem contains_iff : ∀ (h n : List Nat), contains h n = true ↔ n <:+: h
  | [], n => by
    rw [contains, starts_with_iff, List.prefix_nil, List.infix_nil]
  | x :: xs, n => by
    rw [contains, Bool.or_eq_true, starts_with_iff, contains_iff xs n, List.infix_cons_iff]

theorem index_values_nodup {m_hasher : List Nat → Nat} {s : vfs} (hs : Inv m_hasher s) :
    (s.m_nodes.map Prod.snd).Nodup := by
  refine List.Nodup.map_on ?_ (List.Nodup.of_map _ hs.keys_nodup)
  intro a ha b hb hab
  obtain ⟨k1, e1⟩ := a
  obtain ⟨k2, e2⟩ := b
  simp only at hab
  subst hab
  obtain ⟨n1, hn1, hh1⟩ := hs.index_live _ _ (map_find_of_mem hs.keys_nodup ha)
  obtain ⟨n2, hn2, hh2⟩ := hs.index_live _ _ (map_find_of_mem hs.keys_nodup hb)
  rw [hn1] at hn2
  cases Option.some.inj hn2
  rw [← hh1, ← hh2]

theorem find_snd_eq (s : vfs) (filter : List Nat) :
    (find s filter).2 = (s.m_nodes.map Prod.snd).filter (fun e =>
      match deref s e with
      | some n => contains n.m_path filter
      | none => false) := by
  unfold find
  simp only
  induction s.m_nodes with
  | nil => rfl
  | cons kv l ih =>
    rw [List.filterMap_cons, List.map_cons, List.filter_cons, ih]
    cases hd : deref s kv.2 with
    | none => simp
    | some n =>
      cases hc : contains n.m_path filter <;> simp [hc]

theorem mem_find {m_hasher : List Nat → Nat} {s : vfs} (hs : Inv m_hasher s)
    (filter : List Nat) (e : Nat) :
    e ∈ (find s filter).2 ↔
      ∃ k n, map_find k s.m_nodes = some e ∧ deref s e = some n ∧ filter <:+: n.m_path := by
  rw [find_snd_eq, List.mem_filter, List.mem_map]
  constructor
  · rintro ⟨⟨⟨k, v⟩, hmem, rfl⟩, hf⟩
    cases hd : deref s v with
    | none => simp [hd] at hf
    | some n =>
      simp only [hd] at hf
      exact ⟨k, n, map_find_of_mem hs.keys_nodup hmem, rfl, (contains_iff _ _).1 hf⟩
  · rintro ⟨k, n, hk, hn, hin⟩
    refine ⟨⟨(k, e), mem_of_map_find hk, rfl⟩, ?_⟩
    simp only [hn]
    exact (contains_iff _ _).2 hin

/-! ## The claim on find -/

/-- C20.  In every state that satisfies the invariant of the index, so in
every state reached by calls of `add` and `remove`, the count `find` returns
is the size of the collection; the collection holds no node twice, and it
holds a node exactly when the node is indexed and its path contains the
filter as a plain substring: the count is the number of such nodes.  For the
paths of the test case, added to a fresh default index, `find(".txt")` returns
3: the nodes 6, 11 and 13, which are "folder2/file4.txt",
"folder2/folder3/folder4/file6.txt" and "folder2/folder3/folder4txt/file7.txt";
the directory "folder2/folder3/folder4txt/" is not among them. -/
theorem find_correct (m_hasher : List Nat → Nat) (s : vfs) (hs : Inv m_hasher s)
    (filter : List Nat) :
    (find s filter).1 = (find s filter).2.length ∧
    (find s filter).2.Nodup ∧
    (∀ e, e ∈ (find s filter).2 ↔
      ∃ k n, map_find k s.m_nodes = some e ∧ deref s e = some n ∧ filter <:+: n.m_path) ∧
    find (add_all fnv1a (vfs_new fnv1a g_default_settings) find_paths) (bytes ".txt")
      = (3, [6, 11, 13]) ∧
    ((add_all fnv1a (vfs_new fnv1a g_default_settings) find_paths).heap.map
        (fun o => o.map (fun n => decide (bytes ".txt" <:+: n.m_path))))
      = [some false, some false, some false, some false, some false, some false, some true,
         some false, some false, some false, some false, some true, some false, some true,
         some false, some false] := by
  refine ⟨rfl, ?_, mem_find hs filter, by decide, by decide⟩
  rw [find_snd_eq]
  exact (index_values_nodup hs).filter _

/-- C20, at an input: the filter ".png" on the default index that holds
"a.png" and "b.txt". -/
theorem find_correct_witness :
    (find (add_all sample_hasher (vfs_new sample_hasher g_default_settings)
        [bytes "a.png", bytes "b.txt"]) (bytes ".png")).1
      = (find (add_all sample_hasher (vfs_new sample_hasher g_default_settings)
        [bytes "a.png", bytes "b.txt"]) (bytes ".png")).2.length ∧
    (find (add_all sample_hasher (vfs_new sample_hasher g_default_settings)
        [bytes "a.png", bytes "b.txt"]) (bytes ".png")).2.Nodup ∧
    (∀ e, e ∈ (find (add_all sample_hasher (vfs_new sample_hasher g_default_settings)
        [bytes "a.png", bytes "b.txt"]) (bytes ".png")).2 ↔
      ∃ k n, map_find k (add_all sample_hasher (vfs_new sample_hasher g_default_settings)
          [bytes "a.png", bytes "b.txt"]).m_nodes = some e ∧
        deref (add_all sample_hasher (vfs_new sample_hasher g_default_settings)
          [bytes "a.png", bytes "b.txt"]) e = some n ∧ bytes ".png" <:+: n.m_path) ∧
    find (add_all fnv1a (vfs_new fnv1a g_default_settings) find_paths) (bytes ".txt")
      = (3, [6, 11, 13]) ∧
    ((add_all fnv1a (vfs_new fnv1a g_default_settings) find_paths).heap.map
        (fun o => o.map (fun n => decide (bytes ".txt" <:+: n.m_path))))
      = [some false, some false, some false, some false, some false, some false, some true,
         some false, some false, some false, some false, some true, some false, some true,
         some false, some false] :=
  find_correct sample_hasher _
    (reach_inv sample_hasher_injective
      (reach_add_all [bytes "a.png", bytes "b.txt"] _ Reach.init (by decide)))
    (bytes ".png")

/-! ### split_path against its reference -/

theorem foldl_max_spec : ∀ (l : List Nat) (a : Nat),
    (l.foldl max a = a ∨ l.foldl max a ∈ l) ∧ a ≤ l.foldl max a ∧
      ∀ x ∈ l, x ≤ l.foldl max a
  | [], a => ⟨Or.inl rfl, Nat.le_refl _, fun _ h => absurd h (List.not_mem_nil _)⟩
  | y :: l, a => by
    obtain ⟨h1, h2, h3⟩ := foldl_max_spec l (max a y)
    rw [List.foldl_cons]
    refine ⟨?_, ?_, ?_⟩
    · rcases h1 with h | h
      · rw [h]
        rcases Nat.le_total a y with hay | hay
        · right
          rw [Nat.max_eq_right hay]
          exact List.mem_cons_self _ _
        · left
          exact Nat.max_eq_left hay
      · right
        exact List.mem_cons_of_mem _ h
    · exact Nat.le_trans (Nat.le_max_left a y) h2
    · intro x hx
      rcases List.mem_cons.1 hx with rfl | hx
      · exact Nat.le_trans (Nat.le_max_right a x) h2
      · exact h3 x hx

theorem getLast?_take_eq {l : List Nat} {k : Nat} (hk : k ≤ l.length) (c : Nat) :
    (l.take k).getLast? = some c ↔ 0 < k ∧ l[k - 1]? = some c := by
  rw [List.getLast?_eq_getElem?, List.length_take, Nat.min_eq_left hk, List.getElem?_take]
  cases k with
  | zero => simp
  | succ k => simp

theorem split_index_nil : split_index [] = 0 := by decide

theorem split_index_le (path : List Nat) : split_index path ≤ path.length := by
  by_cases h : path = []
  · rw [h, split_index_nil]
    exact Nat.le_refl _
  · exact Nat.le_of_lt (split_index_lt h)

theorem split_index_eq_ref {path : List Nat} (hlen : path.length < SIZE_MOD) :
    split_index path = ((List.range path.length).filter
      (fun k => decide ((path.take k).getLast? = some SLASH))).foldl max 0 := by
  obtain ⟨h1, -, h3⟩ := foldl_max_spec ((List.range path.length).filter
    (fun k => decide ((path.take k).getLast? = some SLASH))) 0
  apply Nat.le_antisymm
  · by_cases hK : split_index path = 0
    · rw [hK]
      exact Nat.zero_le _
    · apply h3
      rw [List.mem_filter, List.mem_range, decide_eq_true_eq]
      have hne : path ≠ [] := by
        intro h
        apply hK
        rw [h, split_index_nil]
      refine ⟨split_index_lt hne, ?_⟩
      rcases split_path_fst_slash path with h | h
      · rw [split_path_fst, List.take_eq_nil_iff] at h
        rcases h with h | h
        · exact absurd h hK
        · exact absurd h hne
      · rw [split_path_fst] at h
        exact h
  · rcases h1 with h | h
    · rw [h]
      exact Nat.zero_le _
    · rw [List.mem_filter, List.mem_range, decide_eq_true_eq] at h
      obtain ⟨hlt, hlast⟩ := h
      rw [getLast?_take_eq (Nat.le_of_lt hlt)] at hlast
      have h4 := split_index_ge hlen hlast.2 (by clear hlen; omega)
      clear hlen
      omega

theorem split_path_eq_ref {path : List Nat} (hlen : path.length < SIZE_MOD) :
    split_path path = split_ref path := by
  unfold split_path split_ref
  simp only
  rw [split_index_eq_ref hlen]

/-- The longest beginning: a beginning of the path that ends in a slash and
before the last byte is no longer than the first component. -/
theorem split_path_fst_longest {path : List Nat} (hlen : path.length < SIZE_MOD)
    {q : List Nat} (hq : q <+: path) (hslash : q.getLast? = some SLASH)
    (hshort : q.length < path.length) : q.length ≤ (split_path path).1.length := by
  have hq' : q = path.take q.length := (List.prefix_iff_eq_take.1 hq)
  rw [hq', getLast?_take_eq (Nat.le_of_lt hshort)] at hslash
  have h4 := split_index_ge hlen hslash.2 (by clear hlen; omega)
  rw [split_path_fst, List.length_take, Nat.min_eq_left (split_index_le path)]
  clear hlen
  omega

theorem split_path_snd_no_slash {path : List Nat} (hlen : path.length < SIZE_MOD) :
    SLASH ∉ (split_path path).2.dropLast := by
  intro hmem
  have hsnd : (split_path path).2 = path.drop (split_index path) := by simp only [split_path]
  rw [hsnd, List.dropLast_eq_take] at hmem
  obtain ⟨j, hj⟩ := List.mem_iff_getElem?.1 hmem
  rw [List.getElem?_take] at hj
  split at hj
  · rename_i hjlt
    rw [List.length_drop] at hjlt
    rw [List.getElem?_drop] at hj
    have h4 := split_index_ge hlen hj (by clear hlen; omega)
    clear hlen
    omega
  · exact Option.noConfusion hj

theorem split_path_string_eq (path : List Nat) : split_path_string path = split_path path := rfl

/-! ## The claims on split_path, hash_entry and dir -/

/-- C21.  For every path, the length of a string being below 2^64:
`split_path` returns the pair of the reference `split_ref`; the two components
make up the path; the first is empty or ends in a slash, ends before the last
byte of a non-empty path, and is the longest beginning of the path with these
two properties; the second, without its last byte, holds no slash.  "a/b/"
splits into ("a/", "b/"), "file" into ("", "file"), "" into ("", "") and "/"
into ("", "/").  The overload for `std::string&` returns the same pair. -/
theorem split_path_reference (path : List Nat) (hlen : path.length < SIZE_MOD) :
    split_path path = split_ref path ∧
    (split_path path).1 ++ (split_path path).2 = path ∧
    ((split_path path).1 = [] ∨ (split_path path).1.getLast? = some SLASH) ∧
    (path ≠ [] → (split_path path).1.length < path.length) ∧
    (∀ q : List Nat, q <+: path → q.getLast? = some SLASH → q.length < path.length →
      q.length ≤ (split_path path).1.length) ∧
    SLASH ∉ (split_path path).2.dropLast ∧
    split_path (bytes "a/b/") = (bytes "a/", bytes "b/") ∧
    split_path (bytes "file") = ([], bytes "file") ∧
    split_path [] = ([], []) ∧
    split_path (bytes "/") = ([], bytes "/") ∧
    split_path_string path = split_path path :=
  ⟨split_path_eq_ref hlen, split_path_append path, split_path_fst_slash path,
    fun h => split_path_fst_length_lt h,
    fun q hq hs hl => split_path_fst_longest hlen hq hs hl,
    split_path_snd_no_slash hlen, by decide, by decide, by decide, by decide,
    split_path_string_eq path⟩

/-- C21, at an input: the path "folder2/folder3/file5.png". -/
theorem split_path_reference_witness :
    split_path (bytes "folder2/folder3/file5.png") = split_ref (bytes "folder2/folder3/file5.png") ∧
    split_ref (bytes "folder2/folder3/file5.png") = (bytes "folder2/folder3/", bytes "file5.png") ∧
    split_path_string (bytes "folder2/folder3/file5.png")
      = split_path (bytes "folder2/folder3/file5.png") :=
  ⟨(split_path_reference (bytes "folder2/folder3/file5.png") (by decide)).1, by decide,
    (split_path_reference (bytes "folder2/folder3/file5.png") (by decide)).2.2.2.2.2.2.2.2.2.2⟩

/-- C22.  With `ansi_paths` set, `hash_entry` returns the invalid hash when a
byte of the path is below 32 or above 126, and the hash of the bytes it feeds
the hasher when every byte is in the range: the range test is the one check.
With `ansi_paths` off it returns the hash whatever the bytes.  So, for a hasher
that does not yield the invalid hash itself, the path is rejected exactly when
`ansi_paths` is set and a byte is out of the range.  The test on the `char`
value gives the same answer whether `char` is signed or not: a byte from 128
on is negative in the one case and above 126 in the other. -/
theorem hash_entry_rejection (m_hasher : List Nat → Nat) (cfg : vfs_settings)
    (path rest : List Nat) :
    (cfg.m_ansi_paths = true → (∃ c ∈ path, c < 32 ∨ 126 < c) →
      hash_entry m_hasher cfg path rest = INVALID) ∧
    (cfg.m_ansi_paths = true → (∀ c ∈ path, 32 ≤ c ∧ c ≤ 126) →
      hash_entry m_hasher cfg path rest = m_hasher (key_string cfg path rest)) ∧
    (cfg.m_ansi_paths = false →
      hash_entry m_hasher cfg path rest = m_hasher (key_string cfg path rest)) ∧
    ((∀ x, m_hasher x ≠ INVALID) →
      (hash_entry m_hasher cfg path rest = INVALID ↔
        cfg.m_ansi_paths = true ∧ ∃ c ∈ path, c < 32 ∨ 126 < c)) ∧
    (∀ (char_signed : Bool) (b : Nat), b < 256 → illegal_char char_signed b = illegal b) ∧
    (∀ b : Nat, illegal b = true ↔ b < 32 ∨ 126 < b) := by
  have hill : ∀ b : Nat, illegal b = true ↔ b < 32 ∨ 126 < b := by
    intro b
    unfold illegal
    simp
  have hany : path.any illegal = true ↔ ∃ c ∈ path, c < 32 ∨ 126 < c := by
    rw [List.any_eq_true]
    exact ⟨fun ⟨c, hc, h⟩ => ⟨c, hc, (hill c).1 h⟩, fun ⟨c, hc, h⟩ => ⟨c, hc, (hill c).2 h⟩⟩
  refine ⟨?_, ?_, ?_, ?_, ?_, hill⟩
  · intro hansi hbyte
    exact hash_entry_eq_invalid m_hasher rest hansi (hany.2 hbyte)
  · intro _ hall
    refine hash_entry_eq_key m_hasher rest ?_
    rintro ⟨-, h⟩
    obtain ⟨c, hc, hc'⟩ := hany.1 h
    have := hall c hc
    omega
  · intro hansi
    refine hash_entry_eq_key m_hasher rest ?_
    rintro ⟨h, -⟩
    rw [hansi] at h
    exact Bool.noConfusion h
  · intro hval
    constructor
    · intro h
      by_contra hc
      have hk := hash_entry_eq_key m_hasher rest (fun hh => hc ⟨hh.1, hany.1 hh.2⟩)
      rw [h] at hk
      exact hval _ hk.symm
    · rintro ⟨hansi, hbyte⟩
      exact hash_entry_eq_invalid m_hasher rest hansi (hany.2 hbyte)
  · intro sg b hb
    rw [Bool.eq_iff_iff]
    unfold illegal_char char_value illegal
    simp only [Bool.or_eq_true, decide_eq_true_eq, Bool.and_eq_true]
    by_cases h : sg = true ∧ 128 ≤ b
    · rw [if_pos h]
      omega
    · rw [if_neg h]
      omega

/-- C22, at an input: the path "ab" followed by the byte 200, with the default
configuration and with `ansi_paths` off. -/
theorem hash_entry_rejection_witness :
    hash_entry sample_hasher g_default_settings (bytes "ab" ++ [200]) [] = INVALID ∧
    hash_entry sample_hasher ⟨true, false, 255⟩ (bytes "ab" ++ [200]) []
      = sample_hasher (key_string ⟨true, false, 255⟩ (bytes "ab" ++ [200]) []) ∧
    illegal_char true 200 = illegal 200 ∧ illegal_char false 200 = illegal 200 :=
  ⟨(hash_entry_rejection sample_hasher g_default_settings (bytes "ab" ++ [200]) []).1 rfl
      ⟨200, by decide, Or.inr (by decide)⟩,
   (hash_entry_rejection sample_hasher ⟨true, false, 255⟩ (bytes "ab" ++ [200]) []).2.2.1 rfl,
   (hash_entry_rejection sample_hasher g_default_settings [] []).2.2.2.2.1 true 200 (by decide),
   (hash_entry_rejection sample_hasher g_default_settings [] []).2.2.2.2.1 false 200 (by decide)⟩

/-- C23, the code at its failing input.  With `lowercase_filesystem` off,
`hash_entry` on the view "a/" of the buffer "a/b", the argument of the
recursive call of `add_node` for `add("a/b")`, returns the hash of "a/b", not
the hash of the two bytes of the view: it hashes `path.data()` as a C string,
up to the NUL of the buffer.  Only for a view that ends its buffer is the
value the hash of the bytes of the view.  So after `add("a/b")` the directory
node "a/" exists and `get("a/")`, which hashes the view itself, is null.  With
`lowercase_filesystem` set the value for the same view is the hash of "a/". -/
theorem hash_entry_view_of_buffer :
    hash_entry fnv1a case_sensitive_settings (bytes "a/") (bytes "b") = fnv1a (bytes "a/b") ∧
    fnv1a (bytes "a/b") ≠ fnv1a (bytes "a/") ∧
    hash_entry fnv1a case_sensitive_settings (bytes "a/") [] = fnv1a (bytes "a/") ∧
    hash_entry fnv1a g_default_settings (bytes "A/") (bytes "b") = fnv1a (bytes "a/") ∧
    (do let (_, s) ← add fnv1a (vfs_new fnv1a case_sensitive_settings) (bytes "a/b") []
        pure (get fnv1a s (bytes "a/"), (deref s 1).map (fun n => (n.m_path, n.m_hash))))
      = Except.ok (none, some (bytes "a/", fnv1a (bytes "a/b"))) := by
  refine ⟨by decide, by decide, by decide, by decide, by decide⟩

/-- C24.  `add_child` puts the entry at the end of the children, whose number
grows by one.  `remove_child` returns false and the children as they are when
the entry is not among them; else it returns true and the children without the
first occurrence of the entry, the others in their order, one fewer. -/
theorem dir_operations (m_children : List Nat) (entry : Nat) :
    add_child m_children entry = m_children ++ [entry] ∧
    dir_size (add_child m_children entry) = dir_size m_children + 1 ∧
    (entry ∉ m_children → remove_child m_children entry = (false, m_children)) ∧
    (entry ∈ m_children → ∃ l1 l2, m_children = l1 ++ entry :: l2 ∧ entry ∉ l1 ∧
      remove_child m_children entry = (true, l1 ++ l2) ∧
      dir_size (l1 ++ l2) + 1 = dir_size m_children) := by
  refine ⟨rfl, ?_, ?_, ?_⟩
  · simp [dir_size, add_child]
  · intro h
    unfold remove_child
    rw [if_neg h]
  · intro h
    obtain ⟨l1, l2, h1, h2, h3⟩ := List.exists_erase_eq h
    refine ⟨l1, l2, h2, h1, ?_, ?_⟩
    · unfold remove_child
      rw [if_pos h, h3]
    · rw [h2]
      simp only [dir_size, List.length_append, List.length_cons]
      omega

/-- C24, at an input: the children 4, 7, 4, 9 and the entries 4 and 5. -/
theorem dir_operations_witness :
    remove_child [4, 7, 4, 9] 5 = (false, [4, 7, 4, 9]) ∧
    (∃ l1 l2, [4, 7, 4, 9] = l1 ++ 4 :: l2 ∧ 4 ∉ l1 ∧
      remove_child [4, 7, 4, 9] 4 = (true, l1 ++ l2) ∧
      dir_size (l1 ++ l2) + 1 = dir_size [4, 7, 4, 9]) ∧
    remove_child [4, 7, 4, 9] 4 = (true, [7, 4, 9]) :=
  ⟨(dir_operations [4, 7, 4, 9] 5).2.2.1 (by decide),
    (dir_operations [4, 7, 4, 9] 4).2.2.2 (by decide), by decide⟩

/-! ## The claims on the hierarchy -/

/-- C25, the code at its failing input.  With the configuration
`vfs_settings(false, true, 255)`, after `add("a/b")` on a fresh index three
nodes hang below one another, the root, the directory "a/" (node 1) and the
file "a/b" (node 2), each in the children of its parent, while the index holds
two entries, for the nodes 0 and 1: the file is in the children of node 1 and
is not indexed, `size()` is 2, and the entry under the hash of "a/b" leads to
the directory.  `hash_entry` hashes `path.data()` up to the NUL of the buffer,
so the directory is indexed under the hash of "a/b" and the insertion of the
file finds the key taken. -/
theorem index_misses_child_case_sensitive :
    (do let (_, s) ← add fnv1a (vfs_new fnv1a case_sensitive_settings) (bytes "a/b") []
        pure (size s, s.m_nodes.map Prod.snd, s.heap.length))
      = Except.ok (2, [0, 1], 3) ∧
    (do let (_, s) ← add fnv1a (vfs_new fnv1a case_sensitive_settings) (bytes "a/b") []
        pure ((deref s 0).map (fun n => n.m_dir), (deref s 1).map (fun n => (n.m_path, n.m_dir))))
      = Except.ok (some (some [1]), some (bytes "a/", some [2])) ∧
    (do let (_, s) ← add fnv1a (vfs_new fnv1a case_sensitive_settings) (bytes "a/b") []
        pure ((deref s 2).map (fun n => (n.m_path, n.m_parent))))
      = Except.ok (some (bytes "a/b", some 1)) ∧
    (do let (_, s) ← add fnv1a (vfs_new fnv1a case_sensitive_settings) (bytes "a/b") []
        pure (get fnv1a s (bytes "a/b"), get fnv1a s (bytes "a/")))
      = Except.ok (some 1, none) := by
  refine ⟨by decide, by decide, by decide, by decide⟩

/-- C26.  In every state reached from the constructor by calls of `add` and
`remove`, for every configuration, with a hasher that has no collision: the
root node has a null parent; every indexed node is live, and when it is not
the root it has a parent, a live node that is not a file; a node that a call
of `add` creates has such a parent after the call, so `add` attaches no child
to a file.  The first component of `split_path` is empty or ends in a slash. -/
theorem parent_type_invariant (m_hasher : List Nat → Nat)
    (hinj : Function.Injective m_hasher) (cfg : vfs_settings) (s : vfs)
    (hs : Reach m_hasher cfg s) :
    (∀ r n, s.m_root_node = some r → deref s r = some n →
      n.m_is_root = true ∧ n.m_parent = none ∧ n.m_is_file = false) ∧
    (∀ k e, map_find k s.m_nodes = some e → ∃ n, deref s e = some n ∧
      (n.m_is_root = true → n.m_parent = none) ∧
      (n.m_is_root = false → ∃ p pn, n.m_parent = some p ∧ deref s p = some pn ∧
        pn.m_is_file = false)) ∧
    (∀ (path rest : List Nat) (r : Option Nat) (s' : vfs) (c : Nat) (nc : node),
      path.length < SIZE_MOD → add m_hasher s path rest = .ok (r, s') →
      deref s c = none → deref s' c = some nc →
      nc.m_is_root = false ∧ ∃ p pn, nc.m_parent = some p ∧ deref s' p = some pn ∧
        pn.m_is_file = false) ∧
    (∀ path : List Nat,
      (split_path path).1 = [] ∨ (split_path path).1.getLast? = some SLASH) := by
  have hinv := reach_inv hinj hs
  refine ⟨?_, ?_, ?_, split_path_fst_slash⟩
  · intro r n hr hn
    rw [(reach_fields hinj hs).2] at hr
    cases Option.some.inj hr
    obtain ⟨-, -, h3, -⟩ := reach_root_indexed hinj hs n hn
    exact ⟨h3, hinv.root_parent 0 n hn h3, hinv.root_flag 0 n hn h3⟩
  · intro k e hk
    obtain ⟨n, hn, -⟩ := hinv.index_live k e hk
    refine ⟨n, hn, hinv.root_parent e n hn, fun hr => ?_⟩
    obtain ⟨p, pn, cs, h1, h2, h3, -⟩ := hinv.parent_ok e n hn hr
    exact ⟨p, pn, h1, h2, h3⟩
  · intro path rest r s' c nc hlen hadd hc hc'
    have hinv' := add_inv hinj hinv hlen hadd
    have hroot : nc.m_is_root = false := by
      rcases add_ok_cases hadd with ⟨-, -, rfl⟩ | ⟨-, h1, -⟩
      · rw [hc] at hc'
        exact Option.noConfusion hc'
      · obtain ⟨-, -, -, -, hnew⟩ := add_node_grows hinj _ s path rest r s' hinv hlen h1
        rcases hnew c nc hc' with ⟨n, hn, -⟩ | ⟨-, h, -⟩
        · rw [hc] at hn
          exact Option.noConfusion hn
        · exact h
    obtain ⟨p, pn, cs, h1, h2, h3, -⟩ := hinv'.parent_ok c nc hc' hroot
    exact ⟨hroot, p, pn, h1, h2, h3⟩

/-- C26, at an input: the default index that holds "folder2/file2.png". -/
theorem parent_type_invariant_witness :
    ∃ n, deref (add_all sample_hasher (vfs_new sample_hasher g_default_settings)
        [bytes "folder2/file2.png"]) 2 = some n ∧
      (n.m_is_root = true → n.m_parent = none) ∧
      (n.m_is_root = false → ∃ p pn, n.m_parent = some p ∧
        deref (add_all sample_hasher (vfs_new sample_hasher g_default_settings)
          [bytes "folder2/file2.png"]) p = some pn ∧ pn.m_is_file = false) :=
  (parent_type_invariant sample_hasher sample_hasher_injective g_default_settings _
    (reach_add_all [bytes "folder2/file2.png"] _ Reach.init (by decide))).2.1
    (sample_hasher (bytes "folder2/file2.png")) 2 (by decide)

/-- C29, the code at its failing input.  With the configuration
`vfs_settings(false, true, 255)`, `add("a/b")` on a fresh index creates two
nodes, for "a/b" and for "a/", neither of which had an entry before the call,
and takes `size()` from 1 to 2 only: both nodes get the hash of "a/b" from
`hash_entry`, and the second insertion into `m_nodes` finds the key taken.
Under the default configuration the same call takes the size from 1 to 3. -/
theorem add_size_case_sensitive :
    size (vfs_new fnv1a case_sensitive_settings) = 1 ∧
    get_node (vfs_new fnv1a case_sensitive_settings)
      (hash_entry fnv1a case_sensitive_settings (bytes "a/b") []) = none ∧
    get_node (vfs_new fnv1a case_sensitive_settings)
      (hash_entry fnv1a case_sensitive_settings (bytes "a/") (bytes "b")) = none ∧
    get fnv1a (vfs_new fnv1a case_sensitive_settings) (bytes "a/b") = none ∧
    get fnv1a (vfs_new fnv1a case_sensitive_settings) (bytes "a/") = none ∧
    (do let (slot, s) ← add fnv1a (vfs_new fnv1a case_sensitive_settings) (bytes "a/b") []
        pure (slot, size s, s.heap.length,
          s.heap.map (fun o => o.map (fun n => n.m_path))))
      = Except.ok (some 2, 2, 3, [some [], some (bytes "a/"), some (bytes "a/b")]) ∧
    (do let (slot, s) ← add fnv1a (vfs_new fnv1a g_default_settings) (bytes "a/b") []
        pure (slot, size s, s.heap.length)) = Except.ok (some 2, 3, 3) := by
  refine ⟨by decide, by decide, by decide, by decide, by decide, by decide, by decide⟩

/-! ### The depth of the recursion of add_node -/

theorem segments_from_le (fuel : Nat) : ∀ p : List Nat, segments_from fuel p ≤ fuel := by
  induction fuel with
  | zero => exact fun _ => Nat.le_refl _
  | succ fuel ih =>
    intro p
    rw [segments_from]
    split
    · exact Nat.zero_le _
    · exact Nat.succ_le_succ (ih _)

theorem segments_le_length (p : List Nat) : segments p ≤ p.length :=
  segments_from_le p.length p

/-- With a budget of one call `add_node` cannot complete when the path is
accepted, not empty and has no entry: it is then that it calls itself. -/
theorem add_node_recurses (m_hasher : List Nat → Nat) {s : vfs} {path : List Nat}
    (rest : List Nat) (h1 : hash_entry m_hasher s.m_settings path rest ≠ INVALID)
    (h2 : path ≠ []) (h3 : get_node s (hash_entry m_hasher s.m_settings path rest) = none) :
    add_node m_hasher 1 s path rest = .error .out_of_fuel := by
  have h2' : ¬ path.length = 0 := fun h => h2 (List.length_eq_zero.1 h)
  rw [add_node]
  simp only [h1, h2', h3, if_false, add_node]

/-- The result of `add_node` is the same for every budget above the number
of segments of the path. -/
theorem add_node_fuel_segments (m_hasher : List Nat → Nat) (s : vfs) :
    ∀ (fuel fuel' : Nat) (path rest : List Nat), segments path < fuel → segments path < fuel' →
      add_node m_hasher fuel s path rest = add_node m_hasher fuel' s path rest := by
  intro fuel
  induction fuel with
  | zero => exact fun _ _ _ h => absurd h (Nat.not_lt_zero _)
  | succ f ih =>
    intro fuel' path rest hf hf'
    cases fuel' with
    | zero => exact absurd hf' (Nat.not_lt_zero _)
    | succ f' =>
      by_cases h1 : hash_entry m_hasher s.m_settings path rest = INVALID
      · rw [add_node_invalid m_hasher f s path rest h1, add_node_invalid m_hasher f' s path rest h1]
      · by_cases h2 : path = []
        · subst h2
          rw [add_node_root m_hasher f s rest h1, add_node_root m_hasher f' s rest h1]
        · cases h3 : get_node s (hash_entry m_hasher s.m_settings path rest) with
          | some e =>
            rw [add_node_found m_hasher f rest h1 h2 h3, add_node_found m_hasher f' rest h1 h2 h3]
          | none =>
            have hseg := segments_succ h2
            have hrec := ih f' (split_path path).1 ((split_path path).2 ++ rest)
              (by omega) (by omega)
            rw [add_node, add_node, hrec]

theorem add_node_segments_fuel (m_hasher : List Nat → Nat) (s : vfs) (path rest : List Nat) :
    add_node m_hasher (segments path + 1) s path rest ≠ .error .out_of_fuel := by
  rw [add_node_fuel_segments m_hasher s (segments path + 1) (path.length + 1) path rest
    (Nat.lt_succ_self _) (Nat.lt_succ_of_le (segments_le_length path))]
  exact add_node_fuel m_hasher _ s path rest (Nat.lt_succ_self _)

/-! ### add_node never gets a null parent from its recursive call -/

theorem ancestor_path_succ_outer (i : Nat) (path : List Nat) :
    ancestor_path (i + 1) path = (split_path (ancestor_path i path)).1 := by
  unfold ancestor_path
  rw [Function.iterate_succ_apply']

/-- A node that `add_node` creates holds a split prefix of the path asked for,
the hash `hash_entry` gives for that prefix as a view of the caller's buffer,
and the file flag of that prefix; the node returned is the one of the whole
path. -/
theorem add_node_created {m_hasher : List Nat → Nat} (hinj : Function.Injective m_hasher) :
    ∀ (fuel : Nat) (s : vfs) (path rest : List Nat) (r : Option Nat) (s' : vfs),
      Inv m_hasher s → path.length < SIZE_MOD →
      add_node m_hasher fuel s path rest = .ok (r, s') →
      ∀ c nc, s.heap.length ≤ c → deref s' c = some nc →
        ∃ i suffix, ancestor_path i path ++ suffix = path ∧
          nc.m_path = ancestor_path i path ∧
          nc.m_hash = hash_entry m_hasher s.m_settings (ancestor_path i path) (suffix ++ rest) ∧
          nc.m_is_file = !(nc.m_path.getLast? == some SLASH) ∧
          (i = 0 ↔ r = some c) := by
  intro fuel
  induction fuel with
  | zero =>
    intro s path rest r s' _ _ h
    exact Except.noConfusion h
  | succ fuel ih =>
    intro s path rest r s' hs hlen h c nc hc hnc
    rcases add_node_ok_cases h with ⟨-, -, rfl⟩ | ⟨-, -, -, rfl⟩ | ⟨-, -, _, -, -, rfl⟩ |
      ⟨-, hpath, hnone, p, s1, pn, hrec, hpn, hr, rfl⟩
    · exact absurd (deref_lt hnc) (Nat.not_lt.2 hc)
    · exact absurd (deref_lt hnc) (Nat.not_lt.2 hc)
    · exact absurd (deref_lt hnc) (Nat.not_lt.2 hc)
    · have hlen' : (split_path path).1.length < SIZE_MOD :=
        Nat.lt_trans (split_path_fst_length_lt hpath) hlen
      obtain ⟨hlen1, -, -, -, -⟩ := add_node_grows hinj fuel s _ _ _ s1 hs hlen' hrec
      obtain ⟨-, -, -, -, hlt, -⟩ := add_node_inv hinj fuel s _ _ _ s1 hs hlen' hrec
      have hp : p < s1.heap.length := hlt p rfl
      have hpn' : deref s1 p = some pn := by
        rw [deref_alloc_old _ (Nat.ne_of_lt hp)] at hpn
        exact hpn
      have hshift : ∀ n1 : node, deref s1 c = some n1 → c ≠ s1.heap.length →
          nc.m_path = n1.m_path → nc.m_hash = n1.m_hash → nc.m_is_file = n1.m_is_file →
          ∃ i suffix, ancestor_path i path ++ suffix = path ∧
            nc.m_path = ancestor_path i path ∧
            nc.m_hash = hash_entry m_hasher s.m_settings (ancestor_path i path)
              (suffix ++ rest) ∧
            nc.m_is_file = !(nc.m_path.getLast? == some SLASH) ∧
            (i = 0 ↔ r = some c) := by
        intro n1 hn1 hcne e1 e2 e3
        obtain ⟨i, suffix, h1, h2, h3, h4, -⟩ := ih s _ _ _ s1 hs hlen' hrec c n1 hc hn1
        refine ⟨i + 1, suffix ++ (split_path path).2, ?_, ?_, ?_, ?_, ?_⟩
        · rw [ancestor_path_succ, ← List.append_assoc, h1, split_path_append]
        · rw [ancestor_path_succ, e1, h2]
        · rw [ancestor_path_succ, e2, h3, List.append_assoc]
        · rw [e3, e1, h4]
        · constructor
          · exact fun h0 => absurd h0 (Nat.succ_ne_zero i)
          · intro hrc
            rw [hr] at hrc
            exact absurd (Option.some.inj hrc).symm hcne
      rcases attach_live_cases hpn' hnc with ⟨rfl, rfl⟩ | ⟨rfl, rfl⟩ | ⟨-, hq2, hq1⟩
      · refine ⟨0, [], ?_, rfl, rfl, rfl, ?_⟩
        · rw [ancestor_path_zero, List.append_nil]
        · exact ⟨fun _ => hr, fun _ => rfl⟩
      · exact hshift pn hpn' (Nat.ne_of_lt hp) rfl rfl rfl
      · exact hshift nc hq1 hq2 rfl rfl rfl

/-- With case folding on, `hash_entry` does not look past the end of the view. -/
theorem hash_entry_lowercase_rest (m_hasher : List Nat → Nat) {cfg : vfs_settings}
    (hlow : cfg.m_lowercase_filesystem = true) (path rest rest' : List Nat) :
    hash_entry m_hasher cfg path rest = hash_entry m_hasher cfg path rest' := by
  unfold hash_entry
  simp only [hlow, if_true]

/-! ## The claims on faults, created nodes and termination -/

/-- The attributes of created nodes, the hash being that of the view that
`add_node` passes to `hash_entry`.  In every state reached from the
constructor by calls of `add` and `remove`, for every configuration, with a
hasher that has no collision: a node
that a call of `add` creates holds as path one of the successive split
prefixes of the path supplied, byte for byte; the node returned is the one
that holds the whole path; the hash of the node is the value of `hash_entry`
on that prefix as `add_node` passes it, a view of the buffer of the caller,
and with case folding on the value of `hash_entry` on the prefix alone; the
node is no root; it is a file exactly when its path does not end in a slash;
and every node created for a proper prefix is a directory. -/
theorem created_node_attributes (m_hasher : List Nat → Nat)
    (hinj : Function.Injective m_hasher) (cfg : vfs_settings) (s : vfs)
    (hs : Reach m_hasher cfg s) (path rest : List Nat) (r : Option Nat) (s' : vfs)
    (hlen : path.length < SIZE_MOD) (hadd : add m_hasher s path rest = .ok (r, s'))
    (c : Nat) (nc : node) (hc : deref s c = none) (hc' : deref s' c = some nc) :
    ∃ i suffix, ancestor_path i path ++ suffix = path ∧
      nc.m_path = ancestor_path i path ∧
      nc.m_hash = hash_entry m_hasher cfg nc.m_path (suffix ++ rest) ∧
      (cfg.m_lowercase_filesystem = true →
        nc.m_hash = hash_entry m_hasher cfg nc.m_path []) ∧
      nc.m_is_root = false ∧
      (nc.m_is_file = true ↔ nc.m_path.getLast? ≠ some SLASH) ∧
      (i = 0 ↔ r = some c) ∧
      (0 < i → nc.m_is_file = false) := by
  have hinv := reach_inv hinj hs
  have hcfg := reach_settings hinj hs
  rcases add_ok_cases hadd with ⟨-, -, rfl⟩ | ⟨-, h1, -⟩
  · rw [hc] at hc'
    exact Option.noConfusion hc'
  · obtain ⟨-, -, -, -, hnew⟩ := add_node_grows hinj _ s path rest r s' hinv hlen h1
    rcases hnew c nc hc' with ⟨n, hn, -⟩ | ⟨hle, hroot, hne, -, -⟩
    · rw [hc] at hn
      exact Option.noConfusion hn
    · obtain ⟨i, suffix, e1, e2, e3, e4, e5⟩ :=
        add_node_created hinj _ s path rest r s' hinv hlen h1 c nc hle hc'
      rw [hcfg] at e3
      refine ⟨i, suffix, e1, e2, ?_, ?_, hroot, ?_, e5, ?_⟩
      · rw [e2]
        exact e3
      · intro hlow
        rw [e3, e2]
        exact hash_entry_lowercase_rest m_hasher hlow _ _ _
      · rw [e4]
        simp
      · intro hi
        obtain ⟨j, hj⟩ := Nat.exists_eq_succ_of_ne_zero (Nat.ne_of_gt hi)
        have hj' : i = j + 1 := hj
        have hsl := split_path_fst_slash (ancestor_path j path)
        rw [← ancestor_path_succ_outer, ← hj', ← e2] at hsl
        rcases hsl with h | h
        · exact absurd h hne
        · rw [e4, h]
          rfl

/-- The attributes of created nodes at an input: `add("a/b")` on the fresh default index with the sample
hasher, and the node it creates for the directory "a/". -/
theorem created_node_attributes_witness :
    ∃ i suffix, ancestor_path i (bytes "a/b") ++ suffix = bytes "a/b" ∧
      bytes "a/" = ancestor_path i (bytes "a/b") ∧
      sample_hasher (bytes "a/")
        = hash_entry sample_hasher g_default_settings (bytes "a/") (suffix ++ []) ∧
      (g_default_settings.m_lowercase_filesystem = true →
        sample_hasher (bytes "a/")
          = hash_entry sample_hasher g_default_settings (bytes "a/") []) ∧
      false = false ∧
      (false = true ↔ (bytes "a/").getLast? ≠ some SLASH) ∧
      (i = 0 ↔ some 2 = some 1) ∧
      (0 < i → false = false) :=
  created_node_attributes sample_hasher sample_hasher_injective g_default_settings
    (vfs_new sample_hasher g_default_settings) Reach.init (bytes "a/b") [] (some 2)
    (add_all sample_hasher (vfs_new sample_hasher g_default_settings) [bytes "a/b"])
    (by decide) (by decide) 1
    { m_is_file := false, m_is_root := false, m_dir := some [2],
      m_hash := sample_hasher (bytes "a/"), m_path := bytes "a/", m_parent := some 0 }
    (by decide) (by decide)

/-- C30.  For every state, hasher, path and buffer: the first component of
`split_path` on a path that is not empty is strictly shorter than the path and
has one segment less; a path has at most as many segments as bytes; `add_node`
completes within a depth of one call more than the path has segments, with the
same result for every larger depth, so `add` completes; `add_node` returns
without a recursive call when the path is rejected, is empty (the root) or has
an entry, and it calls itself on the prefix in the remaining case only. -/
theorem add_node_terminates (m_hasher : List Nat → Nat) (s : vfs) (path rest : List Nat) :
    (path ≠ [] → (split_path path).1.length < path.length ∧
      segments (split_path path).1 + 1 = segments path) ∧
    segments path ≤ path.length ∧
    add_node m_hasher (segments path + 1) s path rest ≠ .error .out_of_fuel ∧
    (∀ fuel, segments path < fuel →
      add_node m_hasher fuel s path rest
        = add_node m_hasher (segments path + 1) s path rest) ∧
    add m_hasher s path rest ≠ .error .out_of_fuel ∧
    (hash_entry m_hasher s.m_settings path rest = INVALID ∨ path = [] ∨
        get_node s (hash_entry m_hasher s.m_settings path rest) ≠ none →
      add_node m_hasher 1 s path rest ≠ .error .out_of_fuel ∧
      ∀ fuel, add_node m_hasher (fuel + 1) s path rest = add_node m_hasher 1 s path rest) ∧
    (hash_entry m_hasher s.m_settings path rest ≠ INVALID → path ≠ [] →
      get_node s (hash_entry m_hasher s.m_settings path rest) = none →
      add_node m_hasher 1 s path rest = .error .out_of_fuel) := by
  refine ⟨fun h => ⟨split_path_fst_length_lt h, (segments_succ h).symm⟩,
    segments_le_length path, add_node_segments_fuel m_hasher s path rest,
    fun fuel h => add_node_fuel_segments m_hasher s fuel _ path rest h (Nat.lt_succ_self _),
    add_fuel m_hasher s path rest, ?_, fun h1 h2 h3 => add_node_recurses m_hasher rest h1 h2 h3⟩
  intro h
  by_cases h1 : hash_entry m_hasher s.m_settings path rest = INVALID
  · refine ⟨?_, fun fuel => ?_⟩
    · rw [add_node_invalid m_hasher 0 s path rest h1]
      exact fun e => Except.noConfusion e
    · rw [add_node_invalid m_hasher fuel s path rest h1, add_node_invalid m_hasher 0 s path rest h1]
  · by_cases h2 : path = []
    · subst h2
      refine ⟨?_, fun fuel => ?_⟩
      · rw [add_node_root m_hasher 0 s rest h1]
        exact fun e => Except.noConfusion e
      · rw [add_node_root m_hasher fuel s rest h1, add_node_root m_hasher 0 s rest h1]
    · rcases h with h | h | h
      · exact absurd h h1
      · exact absurd h h2
      · cases h3 : get_node s (hash_entry m_hasher s.m_settings path rest) with
        | none => exact absurd h3 h
        | some e =>
          refine ⟨?_, fun fuel => ?_⟩
          · rw [add_node_found m_hasher 0 rest h1 h2 h3]
            exact fun e => Except.noConfusion e
          · rw [add_node_found m_hasher fuel rest h1 h2 h3,
              add_node_found m_hasher 0 rest h1 h2 h3]

/-- C30, at an input: the path "a/b/c", of three segments. -/
theorem add_node_terminates_witness :
    (split_path (bytes "a/b/c")).1.length < (bytes "a/b/c").length ∧
      segments (split_path (bytes "a/b/c")).1 + 1 = segments (bytes "a/b/c") :=
  (add_node_terminates sample_hasher (vfs_new sample_hasher g_default_settings)
    (bytes "a/b/c") []).1 (by decide)

/-! ## The claims that fail where hash_entry hashes a C string -/

/-- C6, the code at its failing input.  With the configuration
`vfs_settings(true, false, 255)`, case folding on and the bytes not checked,
the path of the three bytes "x/" and NUL is accepted, and two calls of `add`
with it on a fresh index do not return the same slot: the first creates the
directory "x/" (node 1) and the file (node 2) and returns the slot of the
file, the second returns the slot of the directory.  `hash_entry` folds a copy
of the path and hashes its `c_str()`, which ends at the NUL, so the file gets
the hash of "x/": the directory is indexed under it first, the file is
created, hung under the directory and not indexed, and the size is 2 for
three nodes. -/
theorem add_twice_embedded_nul :
    hash_entry fnv1a unchecked_settings (bytes "x/" ++ [0]) [] = fnv1a (bytes "x/") ∧
    fnv1a (bytes "x/") ≠ INVALID ∧
    (do let (r1, s1) ← add fnv1a (vfs_new fnv1a unchecked_settings) (bytes "x/" ++ [0]) []
        let (r2, s2) ← add fnv1a s1 (bytes "x/" ++ [0]) []
        pure (r1, r2, decide (s2 = s1))) = Except.ok (some 2, some 1, true) ∧
    (do let (_, s1) ← add fnv1a (vfs_new fnv1a unchecked_settings) (bytes "x/" ++ [0]) []
        pure (size s1, s1.heap.length, s1.m_nodes.map Prod.snd)) = Except.ok (2, 3, [0, 1]) ∧
    (do let (_, s1) ← add fnv1a (vfs_new fnv1a unchecked_settings) (bytes "x/" ++ [0]) []
        pure ((deref s1 1).map (fun n => (n.m_path, n.m_is_file, n.m_dir))))
      = Except.ok (some (bytes "x/", false, some [2])) ∧
    (do let (_, s1) ← add fnv1a (vfs_new fnv1a unchecked_settings) (bytes "x/" ++ [0]) []
        pure ((deref s1 2).map (fun n => (n.m_path, n.m_is_file, n.m_parent))))
      = Except.ok (some (bytes "x/" ++ [0], true, some 1)) := by
  refine ⟨by decide, by decide, by decide, by decide, by decide, by decide⟩

/-- C19, the code at its failing input.  With the configuration
`vfs_settings(false, true, 255)`, after `add("folder1/")` on a fresh index the
node of "folder1/" (node 1, the one `get("folder1/")` returns) has a null
`dir`, and after `add("folder1/x")` it still has: the call creates a second
directory node with the path "folder1/" (node 2) under the root and hangs the
file (node 3) under that one.  `hash_entry` hashes `path.data()` up to the NUL
of the buffer, so the lookup of the parent "folder1/" is made with the hash of
"folder1/x" and misses node 1. -/
theorem lazy_directory_case_sensitive :
    (do let (_, s1) ← add fnv1a (vfs_new fnv1a case_sensitive_settings) (bytes "folder1/") []
        let (r2, s2) ← add fnv1a s1 (bytes "folder1/x") []
        pure (get fnv1a s1 (bytes "folder1/"), get fnv1a s2 (bytes "folder1/"), r2,
          s2.heap.length)) = Except.ok (some 1, some 1, some 3, 4) ∧
    (do let (_, s1) ← add fnv1a (vfs_new fnv1a case_sensitive_settings) (bytes "folder1/") []
        let (_, s2) ← add fnv1a s1 (bytes "folder1/x") []
        pure ((deref s1 1).map (fun n => (n.m_path, n.m_is_file, n.m_dir))))
      = Except.ok (some (bytes "folder1/", false, none)) ∧
    (do let (_, s1) ← add fnv1a (vfs_new fnv1a case_sensitive_settings) (bytes "folder1/") []
        let (_, s2) ← add fnv1a s1 (bytes "folder1/x") []
        pure ((deref s2 1).map (fun n => (n.m_path, n.m_is_file, n.m_dir))))
      = Except.ok (some (bytes "folder1/", false, none)) ∧
    (do let (_, s1) ← add fnv1a (vfs_new fnv1a case_sensitive_settings) (bytes "folder1/") []
        let (_, s2) ← add fnv1a s1 (bytes "folder1/x") []
        pure ((deref s2 2).map (fun n => (n.m_path, n.m_parent, n.m_dir))))
      = Except.ok (some (bytes "folder1/", some 0, some [3])) ∧
    (do let (_, s1) ← add fnv1a (vfs_new fnv1a case_sensitive_settings) (bytes "folder1/") []
        let (_, s2) ← add fnv1a s1 (bytes "folder1/x") []
        pure ((deref s2 3).map (fun n => (n.m_path, n.m_parent))))
      = Except.ok (some (bytes "folder1/x", some 2)) ∧
    (do let (_, s1) ← add fnv1a (vfs_new fnv1a case_sensitive_settings) (bytes "folder1/") []
        let (_, s2) ← add fnv1a s1 (bytes "folder1/x") []
        pure ((deref s2 0).map (fun n => n.m_dir))) = Except.ok (some (some [1, 2])) := by
  refine ⟨by decide, by decide, by decide, by decide, by decide, by decide⟩

/-- C28, the code at its failing input.  With the configuration
`vfs_settings(false, true, 255)`, `add("a/b")` on a fresh index creates for
the ancestor "a/" the node 1, a directory and no root, whose hash is the hash
of "a/b"; `hash_entry` of the text "a/" is the hash of "a/", another value.
The hash of the node comes from `hash_entry` on the view "a/" of the buffer
"a/b", where `path.data()` is hashed up to the NUL of the buffer.  The node of
the requested path, node 2, has the hash `hash_entry` gives for its text. -/
theorem created_ancestor_hash_case_sensitive :
    deref (vfs_new fnv1a case_sensitive_settings) 1 = none ∧
    (do let (_, s) ← add fnv1a (vfs_new fnv1a case_sensitive_settings) (bytes "a/b") []
        pure ((deref s 1).map (fun n => (n.m_path, n.m_is_file, n.m_is_root, n.m_hash))))
      = Except.ok (some (bytes "a/", false, false, fnv1a (bytes "a/b"))) ∧
    hash_entry fnv1a case_sensitive_settings (bytes "a/") [] = fnv1a (bytes "a/") ∧
    fnv1a (bytes "a/b") ≠ fnv1a (bytes "a/") ∧
    (do let (r, s) ← add fnv1a (vfs_new fnv1a case_sensitive_settings) (bytes "a/b") []
        pure (r, (deref s 2).map (fun n => (n.m_path, n.m_is_file, n.m_hash))))
      = Except.ok (some 2, some (bytes "a/b", true,
          hash_entry fnv1a case_sensitive_settings (bytes "a/b") [])) := by
  refine ⟨by decide, by decide, by decide, by decide, by decide⟩

end zvfs
